import Mathlib

/-!
# kubeaudit autofix: structural equality, identity rules and merge

A shallow embedding of `cmd/autofix_util.go`.  A Go `interface{}` holding a parsed YAML value is
the inductive type `Value`; a Go runtime panic (index out of range, failed type assertion,
comparison of uncomparable values) is the result `none`.
-/

namespace Kubeaudit

/-! ## The tree model (`yaml.MapSlice`, `yaml.MapItem`, `yaml.SequenceItem`) -/

mutual
/-- A value held in an `interface{}` of the parsed document.  `float x` is a float64 by its
numeric value, `none` standing for NaN (the one value that Go's `==` tells apart from itself);
`preDoc` is `yaml.PreDoc`; `mapSlice` is `yaml.MapSlice`; `seq` is `[]yaml.SequenceItem`. -/
inductive Value where
  | null
  | str (s : String)
  | int (n : Int)
  | bool (b : Bool)
  | float (x : Option Int)
  | preDoc (s : String)
  | mapSlice (items : List MapItem)
  | seq (items : List SequenceItem)
/-- The struct `yaml.MapItem{Key, Value interface{}; Comment string}`. -/
inductive MapItem where
  | mk (key : Value) (value : Value) (comment : String)
/-- The struct `yaml.SequenceItem{Value interface{}; Comment string}`. -/
inductive SequenceItem where
  | mk (value : Value) (comment : String)
end

/-- Field `Key` of a `yaml.MapItem`. -/
def MapItem.key : MapItem → Value
  | .mk k _ _ => k

/-- Field `Value` of a `yaml.MapItem`. -/
def MapItem.value : MapItem → Value
  | .mk _ v _ => v

/-- Field `Comment` of a `yaml.MapItem`. -/
def MapItem.comment : MapItem → String
  | .mk _ _ c => c

/-- Field `Value` of a `yaml.SequenceItem`. -/
def SequenceItem.value : SequenceItem → Value
  | .mk v _ => v

/-- Field `Comment` of a `yaml.SequenceItem`. -/
def SequenceItem.comment : SequenceItem → String
  | .mk _ c => c

mutual
/-- Decidable equality of values. -/
def Value.decEq (a b : Value) : Decidable (a = b) :=
  match a, b with
  | .null, .null => isTrue rfl
  | .str s, .str t =>
    if h : s = t then isTrue (by rw [h]) else isFalse (by intro e; cases e; exact h rfl)
  | .int s, .int t =>
    if h : s = t then isTrue (by rw [h]) else isFalse (by intro e; cases e; exact h rfl)
  | .bool s, .bool t =>
    if h : s = t then isTrue (by rw [h]) else isFalse (by intro e; cases e; exact h rfl)
  | .float s, .float t =>
    if h : s = t then isTrue (by rw [h]) else isFalse (by intro e; cases e; exact h rfl)
  | .preDoc s, .preDoc t =>
    if h : s = t then isTrue (by rw [h]) else isFalse (by intro e; cases e; exact h rfl)
  | .mapSlice s, .mapSlice t =>
    match decEqMapItems s t with
    | isTrue h => isTrue (by rw [h])
    | isFalse h => isFalse (by intro e; cases e; exact h rfl)
  | .seq s, .seq t =>
    match decEqSeqItems s t with
    | isTrue h => isTrue (by rw [h])
    | isFalse h => isFalse (by intro e; cases e; exact h rfl)
  | .null, .str _ | .null, .int _ | .null, .bool _ | .null, .float _
  | .null, .preDoc _ | .null, .mapSlice _ | .null, .seq _ =>
    isFalse (by intro e; cases e)
  | .str _, .null | .str _, .int _ | .str _, .bool _ | .str _, .float _
  | .str _, .preDoc _ | .str _, .mapSlice _ | .str _, .seq _ =>
    isFalse (by intro e; cases e)
  | .int _, .null | .int _, .str _ | .int _, .bool _ | .int _, .float _
  | .int _, .preDoc _ | .int _, .mapSlice _ | .int _, .seq _ =>
    isFalse (by intro e; cases e)
  | .bool _, .null | .bool _, .str _ | .bool _, .int _ | .bool _, .float _
  | .bool _, .preDoc _ | .bool _, .mapSlice _ | .bool _, .seq _ =>
    isFalse (by intro e; cases e)
  | .float _, .null | .float _, .str _ | .float _, .int _ | .float _, .bool _
  | .float _, .preDoc _ | .float _, .mapSlice _ | .float _, .seq _ =>
    isFalse (by intro e; cases e)
  | .preDoc _, .null | .preDoc _, .str _ | .preDoc _, .int _ | .preDoc _, .bool _
  | .preDoc _, .float _ | .preDoc _, .mapSlice _ | .preDoc _, .seq _ =>
    isFalse (by intro e; cases e)
  | .mapSlice _, .null | .mapSlice _, .str _ | .mapSlice _, .int _ | .mapSlice _, .bool _
  | .mapSlice _, .float _ | .mapSlice _, .preDoc _ | .mapSlice _, .seq _ =>
    isFalse (by intro e; cases e)
  | .seq _, .null | .seq _, .str _ | .seq _, .int _ | .seq _, .bool _
  | .seq _, .float _ | .seq _, .preDoc _ | .seq _, .mapSlice _ =>
    isFalse (by intro e; cases e)
termination_by structural a
/-- Decidable equality of lists of map items. -/
def decEqMapItems (a b : List MapItem) : Decidable (a = b) :=
  match a, b with
  | [], [] => isTrue rfl
  | [], _ :: _ => isFalse (by intro e; cases e)
  | _ :: _, [] => isFalse (by intro e; cases e)
  | (.mk k v c) :: s, (.mk k2 v2 c2) :: t =>
    match Value.decEq k k2, Value.decEq v v2, decEqMapItems s t with
    | isTrue h1, isTrue h2, isTrue h3 =>
      if h : c = c2 then isTrue (by rw [h1, h2, h3, h])
      else isFalse (by intro e; cases e; exact h rfl)
    | isFalse h, _, _ => isFalse (by intro e; cases e; exact h rfl)
    | _, isFalse h, _ => isFalse (by intro e; cases e; exact h rfl)
    | _, _, isFalse h => isFalse (by intro e; cases e; exact h rfl)
termination_by structural a
/-- Decidable equality of lists of sequence items. -/
def decEqSeqItems (a b : List SequenceItem) : Decidable (a = b) :=
  match a, b with
  | [], [] => isTrue rfl
  | [], _ :: _ => isFalse (by intro e; cases e)
  | _ :: _, [] => isFalse (by intro e; cases e)
  | (.mk v c) :: s, (.mk v2 c2) :: t =>
    match Value.decEq v v2, decEqSeqItems s t with
    | isTrue h2, isTrue h3 =>
      if h : c = c2 then isTrue (by rw [h2, h3, h])
      else isFalse (by intro e; cases e; exact h rfl)
    | isFalse h, _ => isFalse (by intro e; cases e; exact h rfl)
    | _, isFalse h => isFalse (by intro e; cases e; exact h rfl)
termination_by structural a
end

instance : DecidableEq Value := Value.decEq

instance : DecidableEq MapItem := fun a b =>
  match decEqMapItems [a] [b] with
  | isTrue h => isTrue (by cases h; rfl)
  | isFalse h => isFalse (by intro e; exact h (by rw [e]))

instance : DecidableEq SequenceItem := fun a b =>
  match decEqSeqItems [a] [b] with
  | isTrue h => isTrue (by cases h; rfl)
  | isFalse h => isFalse (by intro e; exact h (by rw [e]))

/-- Whether the dynamic type is `yaml.MapSlice` or `[]yaml.SequenceItem`. -/
def Value.isContainer : Value → Bool
  | .mapSlice _ => true
  | .seq _ => true
  | _ => false

/-- The test `v == nil` on an `interface{}`. -/
def Value.isNil : Value → Bool
  | .null => true
  | _ => false

mutual
/-- Nesting depth: 0 for scalars, one more than the deepest key or value for containers. -/
def Value.depth : Value → Nat
  | .mapSlice items => depthMapItems items + 1
  | .seq items => depthSeqItems items + 1
  | _ => 0
/-- The largest depth of a key or value of the entries. -/
def depthMapItems : List MapItem → Nat
  | [] => 0
  | (.mk k v _) :: rest => max (max k.depth v.depth) (depthMapItems rest)
/-- The largest depth of a value of the items. -/
def depthSeqItems : List SequenceItem → Nat
  | [] => 0
  | (.mk v _) :: rest => max v.depth (depthSeqItems rest)
end

/-- Go's `==` on two `interface{}` values: different dynamic types are unequal, scalars compare
by value (NaN differs from itself), and two slices of the same type panic. -/
def goEq : Value → Value → Option Bool
  | .null, .null => some true
  | .str a, .str b => some (decide (a = b))
  | .int a, .int b => some (decide (a = b))
  | .bool a, .bool b => some (decide (a = b))
  | .float a, .float b => some (a.isSome && decide (a = b))
  | .preDoc a, .preDoc b => some (decide (a = b))
  | .mapSlice _, .mapSlice _ => none
  | .seq _, .seq _ => none
  | _, _ => some false

/-! ## `isComment` -/

/-- `isComment` at a `yaml.MapItem`: the key is a `yaml.PreDoc`, or key and value are nil and
the comment is not empty. -/
def MapItem.isComment : MapItem → Bool
  | .mk (.preDoc _) _ _ => true
  | .mk .null .null c => decide (c ≠ "")
  | _ => false

/-- `isComment` at a `yaml.SequenceItem`: the value is nil and the comment is not empty. -/
def SequenceItem.isComment : SequenceItem → Bool
  | .mk .null c => decide (c ≠ "")
  | _ => false

/-! ## `deepEqual` and `findItemInMapSlice` -/

/-- Shift the index of a lookup result by one (the lookup went on in the tail of the slice). -/
def shiftFound {α : Type} : Option (Option (Nat × α)) → Option (Option (Nat × α))
  | none => none
  | some none => some none
  | some (some (i, x)) => some (some (i + 1, x))

/-- The loop of `findItemInMapSlice` over a comparison `eq` (which is `deepEqual`):
`some (some (i, item))` is the first item with a non-nil key that `eq` finds equal to `key`,
`some none` is Go's `(yaml.MapItem{}, -1)`, `none` a panic of `eq`. -/
def findItemInMapSliceWith (eq : Value → Value → Option Bool) (key : Value) :
    List MapItem → Option (Option (Nat × MapItem))
  | [] => some none
  | item :: rest =>
    if item.key.isNil then shiftFound (findItemInMapSliceWith eq key rest)
    else
      match eq item.key key with
      | none => none
      | some true => some (some (0, item))
      | some false => shiftFound (findItemInMapSliceWith eq key rest)

/-- The number of items that are not standalone comments (`numValues1`, `numValues2`). -/
def numValues (slice : List MapItem) : Nat :=
  (slice.filter fun item => !item.isComment).length

/-- The last loop of the `MapSlice` case of `deepEqual`, over `map1`. -/
def mapSliceLoop (eq : Value → Value → Option Bool) (map2 : List MapItem) :
    List MapItem → Option Bool
  | [] => some true
  | item1 :: rest =>
    if item1.isComment then mapSliceLoop eq map2 rest
    else
      match findItemInMapSliceWith eq item1.key map2 with
      | none => none
      | some none => some false
      | some (some (_, item2)) =>
        match eq item1.value item2.value with
        | none => none
        | some false => some false
        | some true => mapSliceLoop eq map2 rest

/-- The loop `for index < len && isComment(seq[index]) { index++ }`; `fuel` is `len - index`,
so that at fuel 0 the loop condition is false.  Reading `seq[index]` out of range panics. -/
def skipComments (seq : List SequenceItem) (len : Nat) : Nat → Nat → Option Nat
  | 0, index => some index
  | fuel + 1, index =>
    if index < len then
      match seq[index]? with
      | none => none
      | some item => if item.isComment then skipComments seq len fuel (index + 1) else some index
    else some index

/-- The outer loop of the `[]SequenceItem` case of `deepEqual`.  The second skip reads
`seq1[index2]` under the bound `len2`, as the source does. -/
def sequenceLoop (eq : Value → Value → Option Bool) (seq1 seq2 : List SequenceItem) :
    Nat → Nat → Nat → Option Bool
  | 0, _, _ => none
  | fuel + 1, index1, index2 =>
    if index1 < seq1.length ∨ index2 < seq2.length then
      match skipComments seq1 seq1.length (seq1.length - index1) index1 with
      | none => none
      | some i1 =>
        match skipComments seq1 seq2.length (seq2.length - index2) index2 with
        | none => none
        | some i2 =>
          if (i1 = seq1.length ∧ i2 < seq2.length) ∨ (i2 = seq2.length ∧ i1 < seq1.length) then
            some false
          else
            match seq1[i1]?, seq2[i2]? with
            | some item1, some item2 =>
              match eq item1.value item2.value with
              | none => none
              | some false => some false
              | some true => sequenceLoop eq seq1 seq2 fuel (i1 + 1) (i2 + 1)
            | _, _ => none
    else some true

/-- The function `deepEqual` on the values of the tree, with a bound `fuel` on the nesting of
containers it descends into. -/
def deepEqualAux (fuel : Nat) (val1 val2 : Value) : Option Bool :=
  match val1 with
  | .mapSlice map1 =>
    match val2 with
    | .mapSlice map2 =>
      match fuel with
      | 0 => none
      | n + 1 =>
        if numValues map1 ≠ numValues map2 then some false
        else mapSliceLoop (deepEqualAux n) map2 map1
    | _ => some false
  | .seq seq1 =>
    match val2 with
    | .seq seq2 =>
      match fuel with
      | 0 => none
      | n + 1 => sequenceLoop (deepEqualAux n) seq1 seq2 (seq1.length + 1) 0 0
    | _ => some false
  | _ => goEq val1 val2

/-- The function `deepEqual(val1, val2)` at values of the tree (the `MapSlice`, `[]SequenceItem`
and default cases). -/
def deepEqual (val1 val2 : Value) : Option Bool :=
  deepEqualAux val1.depth val1 val2

/-- The function `findItemInMapSlice(key, slice)`. -/
def findItemInMapSlice (key : Value) (slice : List MapItem) : Option (Option (Nat × MapItem)) :=
  findItemInMapSliceWith deepEqual key slice

/-- `deepEqual` at two `yaml.MapItem`s: `Key == Key && deepEqual(Value, Value)`. -/
def deepEqualMapItem (mapItem1 mapItem2 : MapItem) : Option Bool :=
  match goEq mapItem1.key mapItem2.key with
  | none => none
  | some false => some false
  | some true => deepEqual mapItem1.value mapItem2.value

/-- `deepEqual` at two `yaml.SequenceItem`s. -/
def deepEqualSequenceItem (seqItem1 seqItem2 : SequenceItem) : Option Bool :=
  deepEqual seqItem1.value seqItem2.value


/-! ## Identity of sequence items -/

/-- The function `equalValueForKey(key, map1, map2)`. -/
def equalValueForKey (key : String) (map1 map2 : List MapItem) : Option Bool :=
  match findItemInMapSlice (.str key) map1 with
  | none => none
  | some none => some false
  | some (some (_, item1)) =>
    match findItemInMapSlice (.str key) map2 with
    | none => none
    | some none => some false
    | some (some (_, item2)) => deepEqual item1.value item2.value

/-- The table `identifyingKey`. -/
def identifyingKey (sequenceKey : String) : Option String :=
  match sequenceKey with
  | "allowedFlexVolumes" => some "driver"
  | "allowedHostPaths" => some "pathPrefix"
  | "allowedTopologies" => some "matchLabelExpressions"
  | "clusterRoleSelectors" => some "matchExpressions"
  | "containers" => some "name"
  | "egress" => some "ports"
  | "env" => some "name"
  | "hostAliases" => some "ip"
  | "httpHeaders" => some "name"
  | "imagePullSecrets" => some "name"
  | "initContainers" => some "name"
  | "matchExpressions" => some "key"
  | "matchFields" => some "key"
  | "options" => some "name"
  | "matchLabelExpressions" => some "key"
  | "pending" => some "name"
  | "readinessGates" => some "conditionType"
  | "requiredDuringSchedulingIgnoredDuringExecution" => some "labelSelector"
  | "secrets" => some "name"
  | "subjects" => some "name"
  | "subsets" => some "addresses"
  | "sysctls" => some "name"
  | "taints" => some "key"
  | "volumeDevices" => some "devicePath"
  | "volumeMounts" => some "mountPath"
  | "volumes" => some "name"
  | _ => none

/-- The statements `if A { return true }; return B` of `sequenceItemMatch`. -/
def trueOrElse (a b : Option Bool) : Option Bool :=
  match a with
  | none => none
  | some true => some true
  | some false => b

/-- The type assertion `v.(yaml.MapSlice)`, which panics on any other dynamic type. -/
def assertMapSlice : Value → Option (List MapItem)
  | .mapSlice m => some m
  | _ => none

/-- The call `equalValueForKey(key, val1.Value.(yaml.MapSlice), val2.Value.(yaml.MapSlice))`. -/
def equalNestedValueForKey (key : String) (val1 val2 : MapItem) : Option Bool :=
  match assertMapSlice val1.value with
  | none => none
  | some m1 =>
    match assertMapSlice val2.value with
    | none => none
    | some m2 => equalValueForKey key m1 m2

/-- The nested statements
`if val1, i1 := find(outer, map1); i1 != -1 { if val2, i2 := find(outer, map2); i2 != -1 { return
equalValueForKey(inner, ...) }; onlyFirst }; neither` of `sequenceItemMatch`. -/
def nestedMatch (outer inner : String) (map1 map2 : List MapItem)
    (onlyFirst neither : Option Bool) : Option Bool :=
  match findItemInMapSlice (.str outer) map1 with
  | none => none
  | some none => neither
  | some (some (_, val1)) =>
    match findItemInMapSlice (.str outer) map2 with
    | none => none
    | some none => onlyFirst
    | some (some (_, val2)) => equalNestedValueForKey inner val1 val2

/-- What `sequenceItemMatch` does after its `switch`: the `identifyingKey` table, then full
structural equality. -/
def matchByTable (sequenceKey : String) (map1 map2 : List MapItem) : Option Bool :=
  match identifyingKey sequenceKey with
  | some idKey => equalValueForKey idKey map1 map2
  | none => deepEqual (.mapSlice map1) (.mapSlice map2)

/-- The `switch sequenceKey` of `sequenceItemMatch` and what follows it, at two mappings. -/
def matchMapSlices (sequenceKey : String) (map1 map2 : List MapItem) : Option Bool :=
  match sequenceKey with
  | "addresses" | "notReadyAddresses" =>
    trueOrElse (equalValueForKey "hostname" map1 map2) (equalValueForKey "ip" map1 map2)
  | "envFrom" =>
    let secretRef := nestedMatch "secretRef" "name" map1 map2 (some false) (some false)
    nestedMatch "configMapRef" "name" map1 map2 secretRef secretRef
  | "ingress" =>
    trueOrElse (equalValueForKey "ports" map1 map2) (equalValueForKey "from" map1 map2)
  | "items" =>
    trueOrElse (equalValueForKey "key" map1 map2) (equalValueForKey "path" map1 map2)
  | "nodeSelectorTerms" =>
    trueOrElse (equalValueForKey "matchExpressions" map1 map2)
      (equalValueForKey "matchFields" map1 map2)
  | "ownerReferences" =>
    trueOrElse (equalValueForKey "uid" map1 map2) (equalValueForKey "name" map1 map2)
  | "preferredDuringSchedulingIgnoredDuringExecution" =>
    trueOrElse (equalValueForKey "preference" map1 map2)
      (equalValueForKey "podAffinityTerm" map1 map2)
  | "ports" =>
    trueOrElse (equalValueForKey "containerPort" map1 map2) (equalValueForKey "port" map1 map2)
  | "rules" =>
    trueOrElse (equalValueForKey "resources" map1 map2)
      (trueOrElse (equalValueForKey "host" map1 map2) (matchByTable "rules" map1 map2))
  | "sources" =>
    nestedMatch "configMap" "name" map1 map2 (some false)
      (nestedMatch "downwardAPI" "items" map1 map2 (some false)
        (nestedMatch "secret" "name" map1 map2 (some false)
          (nestedMatch "serviceAccountToken" "path" map1 map2 (some false) (some false))))
  | "tls" =>
    trueOrElse (equalValueForKey "secretName" map1 map2) (equalValueForKey "hosts" map1 map2)
  | "volumeClaimTemplates" =>
    nestedMatch "metadata" "name" map1 map2 (some false) (some false)
  | _ => matchByTable sequenceKey map1 map2

/-- The function `sequenceItemMatch(sequenceKey, item1, item2)`. -/
def sequenceItemMatch (sequenceKey : String) (item1 item2 : SequenceItem) : Option Bool :=
  match item1.value with
  | .str _ => goEq item1.value item2.value
  | .int _ => goEq item1.value item2.value
  | .bool _ => goEq item1.value item2.value
  | .mapSlice map1 =>
    match item2.value with
    | .mapSlice map2 => matchMapSlices sequenceKey map1 map2
    | _ => some false
  | _ => some false

/-- The function `findItemInSequence(sequenceKey, val, slice)`; results as for
`findItemInMapSlice`. -/
def findItemInSequence (sequenceKey : String) (val : SequenceItem) :
    List SequenceItem → Option (Option (Nat × SequenceItem))
  | [] => some none
  | item :: rest =>
    if item.value.isNil then shiftFound (findItemInSequence sequenceKey val rest)
    else
      match sequenceItemMatch sequenceKey val item with
      | none => none
      | some true => some (some (0, item))
      | some false => shiftFound (findItemInSequence sequenceKey val rest)


/-! ## The merge engine -/

/-- The first loop of `mergeMapSlices`: keep the items of `origSlice` whose key is found in
`fixedSlice`, and the standalone comments. -/
def retainMapItems (fixedSlice : List MapItem) : List MapItem → Option (List MapItem)
  | [] => some []
  | item :: rest =>
    match findItemInMapSlice item.key fixedSlice with
    | none => none
    | some found =>
      match retainMapItems fixedSlice rest with
      | none => none
      | some kept => some (if found.isSome || item.isComment then item :: kept else kept)

/-- The first loop of `mergeSequences`: keep the items of `origSlice` that have a match in
`fixedSlice`, and the standalone comments. -/
def retainSequenceItems (sequenceKey : String) (fixedSlice : List SequenceItem) :
    List SequenceItem → Option (List SequenceItem)
  | [] => some []
  | item :: rest =>
    match findItemInSequence sequenceKey item fixedSlice with
    | none => none
    | some found =>
      match retainSequenceItems sequenceKey fixedSlice rest with
      | none => none
      | some kept => some (if found.isSome || item.isComment then item :: kept else kept)

/-- The assignment `mergedItem.Value = v` through `mergedItem := &mergedSlice[index]`. -/
def setMapItemValue (mergedSlice : List MapItem) (index : Nat) (v : Value) : List MapItem :=
  match mergedSlice[index]? with
  | some (.mk k _ c) => mergedSlice.set index (.mk k v c)
  | none => mergedSlice

/-- The assignment `mergedItem.Value = v` through `mergedItem := &mergedSlice[index]`. -/
def setSequenceItemValue (mergedSlice : List SequenceItem) (index : Nat) (v : Value) :
    List SequenceItem :=
  match mergedSlice[index]? with
  | some (.mk _ c) => mergedSlice.set index (.mk v c)
  | none => mergedSlice

mutual
/-- The new value of a retained map item (lines 323-336 of `mergeMapSlices`): two mappings are
merged, two sequences are merged under the item's key, which must be a string, and any other
pair gives the fixed value. -/
def mergedMapItemValue (key origValue fixedValue : Value) : Option Value :=
  match fixedValue with
  | .mapSlice fixedMap =>
    match origValue with
    | .mapSlice origMap =>
      match retainMapItems fixedMap origMap with
      | none => none
      | some kept => (mergeMapSlicesLoop kept fixedMap).map Value.mapSlice
    | _ => some (.mapSlice fixedMap)
  | .seq fixedSeq =>
    match origValue with
    | .seq origSeq =>
      match key with
      | .str sequenceKey =>
        match retainSequenceItems sequenceKey fixedSeq origSeq with
        | none => none
        | some kept => (mergeSequencesLoop sequenceKey kept fixedSeq).map Value.seq
      | _ => none
    | _ => some (.seq fixedSeq)
  | v => some v
termination_by structural fixedValue
/-- The new value of a retained sequence item (lines 365-372 of `mergeSequences`): two mappings
are merged, any other pair gives the fixed value. -/
def mergedSequenceItemValue (origValue fixedValue : Value) : Option Value :=
  match fixedValue with
  | .mapSlice fixedMap =>
    match origValue with
    | .mapSlice origMap =>
      match retainMapItems fixedMap origMap with
      | none => none
      | some kept => (mergeMapSlicesLoop kept fixedMap).map Value.mapSlice
    | _ => some (.mapSlice fixedMap)
  | v => some v
termination_by structural fixedValue
/-- The second loop of `mergeMapSlices`, over `fixedSlice`. -/
def mergeMapSlicesLoop (mergedSlice fixedSlice : List MapItem) : Option (List MapItem) :=
  match fixedSlice with
  | [] => some mergedSlice
  | (.mk fixedKey fixedValue fixedComment) :: rest =>
    match findItemInMapSlice fixedKey mergedSlice with
    | none => none
    | some none => mergeMapSlicesLoop (mergedSlice ++ [.mk fixedKey fixedValue fixedComment]) rest
    | some (some (index, mergedItem)) =>
      match mergedMapItemValue mergedItem.key mergedItem.value fixedValue with
      | none => none
      | some v => mergeMapSlicesLoop (setMapItemValue mergedSlice index v) rest
termination_by structural fixedSlice
/-- The second loop of `mergeSequences`, over `fixedSlice`. -/
def mergeSequencesLoop (sequenceKey : String) (mergedSlice fixedSlice : List SequenceItem) :
    Option (List SequenceItem) :=
  match fixedSlice with
  | [] => some mergedSlice
  | (.mk fixedValue fixedComment) :: rest =>
    match findItemInSequence sequenceKey (.mk fixedValue fixedComment) mergedSlice with
    | none => none
    | some none => mergeSequencesLoop sequenceKey (mergedSlice ++ [.mk fixedValue fixedComment]) rest
    | some (some (index, mergedItem)) =>
      match mergedSequenceItemValue mergedItem.value fixedValue with
      | none => none
      | some v => mergeSequencesLoop sequenceKey (setSequenceItemValue mergedSlice index v) rest
termination_by structural fixedSlice
end

/-- The function `mergeMapSlices(origSlice, fixedSlice)`. -/
def mergeMapSlices (origSlice fixedSlice : List MapItem) : Option (List MapItem) :=
  match retainMapItems fixedSlice origSlice with
  | none => none
  | some kept => mergeMapSlicesLoop kept fixedSlice

/-- The function `mergeSequences(sequenceKey, origSlice, fixedSlice)`. -/
def mergeSequences (sequenceKey : String) (origSlice fixedSlice : List SequenceItem) :
    Option (List SequenceItem) :=
  match retainSequenceItems sequenceKey fixedSlice origSlice with
  | none => none
  | some kept => mergeSequencesLoop sequenceKey kept fixedSlice


/-! ## Notions used to state the properties -/

/-- A scalar that Go's `==` finds equal to itself: nil, a string, an integer, a boolean, a
float other than NaN, or a `yaml.PreDoc`. -/
def Value.isComparable : Value → Bool
  | .mapSlice _ => false
  | .seq _ => false
  | .float none => false
  | _ => true

/-- The first item that satisfies `p`, with its index. -/
def lookupBy {α : Type} (p : α → Bool) : List α → Option (Nat × α)
  | [] => none
  | item :: rest =>
    if p item then some (0, item) else (lookupBy p rest).map fun r => (r.1 + 1, r.2)

/-- The entries of a mapping that are not standalone comments, as (key, value) pairs: what is
left of the mapping when comments and comment texts are dropped. -/
def semanticEntries (m : List MapItem) : List (Value × Value) :=
  (m.filter fun e => !e.isComment).map fun e => (e.key, e.value)

/-- Whether some item of the slice has the very key `k`. -/
def hasKey (k : Value) (slice : List MapItem) : Bool :=
  slice.any fun x => decide (x.key = k)

/-- The key and the comment of an item: what the merge never changes in an item it keeps. -/
def MapItem.label (x : MapItem) : Value × String :=
  (x.key, x.comment)

/-- The condition of the first loop of `mergeMapSlices` (line 309), where no lookup panics:
the key of the item is found in `fixedSlice`, or the item is a standalone comment. -/
def retainedBy (fixedSlice : List MapItem) (item : MapItem) : Bool :=
  (match findItemInMapSlice item.key fixedSlice with
    | some (some _) => true
    | _ => false) || item.isComment

/-! ### The merge of sequences in the words of the specification (§4.4) -/

/-- An identity match (§4.3) of two items: `sequenceItemMatch` returns true. -/
def identityMatch (fieldName : String) (a b : SequenceItem) : Bool :=
  decide (sequenceItemMatch fieldName a b = some true)

/-- "If a match exists and both values are Mappings, recurse into `mergeMapping`; otherwise
the fixed value replaces the retained value." -/
def updateFromFixed (retained fixed : Value) : Option Value :=
  match retained, fixed with
  | .mapSlice retainedMap, .mapSlice fixedMap =>
    (mergeMapSlices retainedMap fixedMap).map Value.mapSlice
  | _, v => some v

/-- "For every Item in `fixed`: if no Identity match exists yet in the result, append it",
otherwise update the first item of the result that it matches. -/
def mergeSequenceStep (fieldName : String) (result : List SequenceItem)
    (fixedItem : SequenceItem) : Option (List SequenceItem) :=
  match lookupBy (identityMatch fieldName fixedItem) result with
  | none => some (result ++ [fixedItem])
  | some (i, m) =>
    (updateFromFixed m.value fixedItem.value).map fun v => result.set i (.mk v m.comment)

/-- "Retain Items from `original` that are standalone comments, or that have an Identity match
somewhere in `fixed`", then take the items of `fixed` in order. -/
def mergeSequenceSpec (fieldName : String) (original fixed : List SequenceItem) :
    Option (List SequenceItem) :=
  fixed.foldlM (mergeSequenceStep fieldName)
    (original.filter fun o => o.isComment || fixed.any (identityMatch fieldName o))

/-- The state of the second loop of `mergeMapSlices` on an input that needs no fix, with the
fixed items `rest` still to come: every item of `mergedSlice` is the item of `origSlice` at its
index, either untouched (a comment, or an item whose key is still to come), or with a new value
that `deepEqual` finds equal to the old one. -/
def RoundTripInv (origSlice mergedSlice rest : List MapItem) : Prop :=
  mergedSlice.length = origSlice.length ∧
  ∀ (j : Nat) (x o : MapItem), mergedSlice[j]? = some x → origSlice[j]? = some o →
    x.key = o.key ∧ x.comment = o.comment ∧
    ((x.value = o.value ∧ (o.isComment = true ∨ ∃ g ∈ rest, g.key = o.key)) ∨
     (deepEqual x.value o.value = some true ∧ o.isComment = false ∧
        o.key.isComparable = true ∧ o.key ≠ .null ∧ ∀ g ∈ rest, g.key ≠ o.key))

/-- Every item of the sequence is found in the sequence, by `findItemInSequence`, at an item
of the same value: identity matches relate items of equal value only. -/
def selfFound (sequenceKey : String) (items : List SequenceItem) : Bool :=
  items.all fun f =>
    match findItemInSequence sequenceKey f items with
    | some (some (_, m)) => decide (m.value = f.value)
    | _ => false

mutual
/-- A value, under the key `key` of its entry, in which every mapping has pairwise distinct
non-nil scalar keys, every sequence is the value of a string key and satisfies `selfFound`, and
so on in the values below. -/
def Value.wellKeyed (v : Value) (key : Value) : Bool :=
  match v with
  | .mapSlice items =>
    wellKeyedMapItems items && decide ((items.map MapItem.key).Nodup)
  | .seq items =>
    (match key with
      | .str sequenceKey => selfFound sequenceKey items
      | _ => false) && wellKeyedSeqItems items
  | _ => true
termination_by structural v
/-- The entries have non-nil scalar keys, and values that are `wellKeyed`. -/
def wellKeyedMapItems (items : List MapItem) : Bool :=
  match items with
  | [] => true
  | (.mk k v _) :: rest =>
    k.isComparable && !k.isNil && Value.wellKeyed v k && wellKeyedMapItems rest
termination_by structural items
/-- The items that are mappings are `wellKeyed`, the other items are not sequences. -/
def wellKeyedSeqItems (items : List SequenceItem) : Bool :=
  match items with
  | [] => true
  | (.mk v _) :: rest => Value.wellKeyed v .null && wellKeyedSeqItems rest
termination_by structural items
end

/-- The field names that have a case of their own in the `switch` of `sequenceItemMatch`. -/
def specialCaseFields : List String :=
  ["addresses", "notReadyAddresses", "envFrom", "ingress", "items", "nodeSelectorTerms",
    "ownerReferences", "preferredDuringSchedulingIgnoredDuringExecution", "ports", "rules",
    "sources", "tls", "volumeClaimTemplates"]

/-- Five fields whose case of the `switch` tries two sub-keys: the field, its first sub-key and
its second sub-key. -/
def twoKeyFields : List (String × String × String) :=
  [("ports", "containerPort", "port"), ("ownerReferences", "uid", "name"),
    ("addresses", "hostname", "ip"), ("tls", "secretName", "hosts"), ("items", "key", "path")]

/-! ## The audit of the root filesystem (`readOnlyRootFilesystem.go`) -/

/-- An `Occurrence` of an audit: its fields `id`, `kind` and `message`. -/
structure Occurrence where
  id : Int
  kind : Int
  message : String
deriving DecidableEq

/-- A `Result` of an audit.  Of its fields, the functions below read and write `Occurrences`
only. -/
structure Result where
  Occurrences : List Occurrence
deriving DecidableEq

/-- The security context of a container: `nil`, or a context whose `ReadOnlyRootFilesystem` is
`nil`, `false` or `true`. -/
structure SecurityContext where
  ReadOnlyRootFilesystem : Option Bool
deriving DecidableEq

/-- A `Container`, by the one field that `checkReadOnlyRootFS` reads. -/
structure Container where
  SecurityContext : Option SecurityContext
deriving DecidableEq

/-- The constants that the two files name and another file of the package declares: the kind
`Error` and the ids of the occurrences.  They are parameters of the functions below. -/
structure Constants where
  Error : Int
  ErrorSecurityContextNIL : Int
  ErrorReadOnlyRootFilesystemNIL : Int
  ErrorAllowPrivilegeEscalationNil : Int
  ErrorAllowPrivilegeEscalationTrue : Int
  ErrorCapabilityNotDropped : Int
  ErrorCapabilityAdded : Int
  ErrorPrivilegedNil : Int
  ErrorPrivilegedTrue : Int
  ErrorReadOnlyRootFilesystemFalse : Int
  ErrorReadOnlyRootFilesystemNil : Int
  ErrorRunAsNonRootPSCTrueFalseCSCFalse : Int
  ErrorRunAsNonRootPSCNilCSCNil : Int
  ErrorRunAsNonRootPSCFalseCSCNil : Int
  ErrorServiceAccountTokenDeprecated : Int
  ErrorAutomountServiceAccountTokenTrueAndNoName : Int
  ErrorAutomountServiceAccountTokenNilAndNoName : Int
  ErrorAppArmorAnnotationMissing : Int
  ErrorAppArmorDisabled : Int
  ErrorSeccompAnnotationMissing : Int
  ErrorSeccompDeprecated : Int
  ErrorSeccompDeprecatedPod : Int
  ErrorSeccompDisabled : Int
  ErrorSeccompDisabledPod : Int
  ErrorMissingDefaultDenyIngressNetworkPolicy : Int
  ErrorMissingDefaultDenyEgressNetworkPolicy : Int
  ErrorMissingDefaultDenyIngressAndEgressNetworkPolicy : Int
  ErrorNamespaceHostIPCTrue : Int
  ErrorNamespaceHostNetworkTrue : Int
  ErrorNamespaceHostPIDTrue : Int
  ErrorMisconfiguredKubeauditAllow : Int

/-- The function `checkReadOnlyRootFS(container, result)`: the result after the call, for a
`result` pointer that is not nil. -/
def checkReadOnlyRootFS (k : Constants) (container : Container) (result : Result) : Result :=
  match container.SecurityContext with
  | none =>
    let occ : Occurrence := ⟨k.ErrorSecurityContextNIL, k.Error,
      "SecurityContext not set, please set it!"⟩
    { result with Occurrences := result.Occurrences ++ [occ] }
  | some securityContext =>
    match securityContext.ReadOnlyRootFilesystem with
    | none =>
      let occ : Occurrence := ⟨k.ErrorReadOnlyRootFilesystemNIL, k.Error,
        "ReadOnlyRootFilesystem not set which results in a writable rootFS, please set to true"⟩
      { result with Occurrences := result.Occurrences ++ [occ] }
    | some readOnlyRootFilesystem =>
      if !readOnlyRootFilesystem then
        let occ : Occurrence := ⟨k.ErrorReadOnlyRootFilesystemFalse, k.Error,
          "ReadOnlyRootFilesystem set to false, please set to true"⟩
        { result with Occurrences := result.Occurrences ++ [occ] }
      else result

/-! ## The fix dispatcher (`autofix_util.go`, lines 23-110) -/

/-- The functions that `autofix_util.go` calls and other files of the package define: the
remediations, which return the new resource, the two tests of the kind of a resource, and
`audit`, which is `mergeAuditFunctions(getAuditFunctions())`. -/
structure Fixes (Resource : Type) where
  fixSecurityContextNil : Resource → Resource
  fixCapabilitiesNil : Resource → Resource
  fixAllowPrivilegeEscalation : Result → Resource → Occurrence → Resource
  fixCapabilityNotDropped : Result → Resource → Occurrence → Resource
  fixCapabilityAdded : Result → Resource → Occurrence → Resource
  fixPrivileged : Result → Resource → Occurrence → Resource
  fixReadOnlyRootFilesystem : Result → Resource → Occurrence → Resource
  fixRunAsNonRoot : Result → Resource → Occurrence → Resource
  fixDeprecatedServiceAccount : Resource → Resource
  fixServiceAccountToken : Result → Resource → Resource
  fixAppArmor : Resource → Resource
  fixSeccomp : Resource → Resource
  fixNetworkPolicy : Resource → Occurrence → Resource
  fixNamespace : Result → Resource → Resource
  IsSupportedResourceType : Resource → Bool
  IsNamespaceType : Resource → Bool
  audit : Resource → List Result

/-- The slice `needSecurityContextDefined` of `prepareResourceForFix`. -/
def needSecurityContextDefined (k : Constants) : List Int :=
  [k.ErrorAllowPrivilegeEscalationNil, k.ErrorAllowPrivilegeEscalationTrue,
    k.ErrorPrivilegedNil, k.ErrorPrivilegedTrue, k.ErrorReadOnlyRootFilesystemFalse,
    k.ErrorReadOnlyRootFilesystemNil, k.ErrorRunAsNonRootPSCTrueFalseCSCFalse,
    k.ErrorRunAsNonRootPSCNilCSCNil, k.ErrorRunAsNonRootPSCFalseCSCNil,
    k.ErrorServiceAccountTokenDeprecated, k.ErrorAutomountServiceAccountTokenTrueAndNoName,
    k.ErrorAutomountServiceAccountTokenNilAndNoName, k.ErrorCapabilityNotDropped,
    k.ErrorCapabilityAdded, k.ErrorMisconfiguredKubeauditAllow]

/-- The slice `needCapabilitiesDefined` of `prepareResourceForFix`. -/
def needCapabilitiesDefined (k : Constants) : List Int :=
  [k.ErrorCapabilityNotDropped, k.ErrorCapabilityAdded, k.ErrorMisconfiguredKubeauditAllow]

/-- The set `errors` of `prepareResourceForFix`, by its membership test `errors[err]`: the ids
of the occurrences of the result. -/
def errorsOf (result : Result) (err : Int) : Bool :=
  result.Occurrences.any fun occurrence => occurrence.id == err

/-- A loop `for _, err := range need` of `prepareResourceForFix`: the first `err` that is in
`errors` applies `fixNil` and breaks. -/
def applyOnFirstError {Resource : Type} (errors : Int → Bool) (fixNil : Resource → Resource)
    (resource : Resource) : List Int → Resource
  | [] => resource
  | err :: rest =>
    if errors err then fixNil resource else applyOnFirstError errors fixNil resource rest

/-- The function `prepareResourceForFix(resource, result)`. -/
def prepareResourceForFix {Resource : Type} (k : Constants) (fx : Fixes Resource)
    (resource : Resource) (result : Result) : Resource :=
  let resource := applyOnFirstError (errorsOf result) fx.fixSecurityContextNil resource
    (needSecurityContextDefined k)
  applyOnFirstError (errorsOf result) fx.fixCapabilitiesNil resource (needCapabilitiesDefined k)

/-- The `switch occurrence.id` of `fixPotentialSecurityIssue`: the first case that lists the id
gives the remediation, and an id that no case lists leaves the resource as it is. -/
def fixOccurrence {Resource : Type} (k : Constants) (fx : Fixes Resource) (result : Result)
    (resource : Resource) (occurrence : Occurrence) : Resource :=
  if occurrence.id ∈ [k.ErrorAllowPrivilegeEscalationNil, k.ErrorAllowPrivilegeEscalationTrue]
  then fx.fixAllowPrivilegeEscalation result resource occurrence
  else if occurrence.id ∈ [k.ErrorCapabilityNotDropped]
  then fx.fixCapabilityNotDropped result resource occurrence
  else if occurrence.id ∈ [k.ErrorCapabilityAdded]
  then fx.fixCapabilityAdded result resource occurrence
  else if occurrence.id ∈ [k.ErrorPrivilegedNil, k.ErrorPrivilegedTrue]
  then fx.fixPrivileged result resource occurrence
  else if occurrence.id ∈ [k.ErrorReadOnlyRootFilesystemFalse, k.ErrorReadOnlyRootFilesystemNil]
  then fx.fixReadOnlyRootFilesystem result resource occurrence
  else if occurrence.id ∈ [k.ErrorRunAsNonRootPSCTrueFalseCSCFalse,
    k.ErrorRunAsNonRootPSCNilCSCNil, k.ErrorRunAsNonRootPSCFalseCSCNil]
  then fx.fixRunAsNonRoot result resource occurrence
  else if occurrence.id ∈ [k.ErrorServiceAccountTokenDeprecated]
  then fx.fixDeprecatedServiceAccount resource
  else if occurrence.id ∈ [k.ErrorAutomountServiceAccountTokenTrueAndNoName,
    k.ErrorAutomountServiceAccountTokenNilAndNoName]
  then fx.fixServiceAccountToken result resource
  else if occurrence.id ∈ [k.ErrorAppArmorAnnotationMissing, k.ErrorAppArmorDisabled]
  then fx.fixAppArmor resource
  else if occurrence.id ∈ [k.ErrorSeccompAnnotationMissing, k.ErrorSeccompDeprecated,
    k.ErrorSeccompDeprecatedPod, k.ErrorSeccompDisabled, k.ErrorSeccompDisabledPod]
  then fx.fixSeccomp resource
  else if occurrence.id ∈ [k.ErrorMissingDefaultDenyIngressNetworkPolicy,
    k.ErrorMissingDefaultDenyEgressNetworkPolicy,
    k.ErrorMissingDefaultDenyIngressAndEgressNetworkPolicy]
  then fx.fixNetworkPolicy resource occurrence
  else if occurrence.id ∈ [k.ErrorNamespaceHostIPCTrue, k.ErrorNamespaceHostNetworkTrue,
    k.ErrorNamespaceHostPIDTrue]
  then fx.fixNamespace result resource
  else resource

/-- The function `fixPotentialSecurityIssue(resource, result)`: the precondition pass, then the
remediation of every occurrence in turn. -/
def fixPotentialSecurityIssue {Resource : Type} (k : Constants) (fx : Fixes Resource)
    (resource : Resource) (result : Result) : Resource :=
  result.Occurrences.foldl (fixOccurrence k fx result) (prepareResourceForFix k fx resource result)

/-- The inner loop of `fix`, over the results of the audit of one resource: the resource and
`extraResources` after the loop. -/
def fixResults {Resource : Type} (k : Constants) (fx : Fixes Resource) :
    Resource → List Resource → List Result → Resource × List Resource
  | resource, extraResources, [] => (resource, extraResources)
  | resource, extraResources, result :: rest =>
    if fx.IsNamespaceType resource then
      let extraResource := fixPotentialSecurityIssue k fx resource result
      if !fx.IsNamespaceType extraResource then
        fixResults k fx resource (extraResources ++ [extraResource]) rest
      else fixResults k fx resource extraResources rest
    else fixResults k fx (fixPotentialSecurityIssue k fx resource result) extraResources rest

/-- The outer loop of `fix`, from the two slices built so far. -/
def fixLoop {Resource : Type} (k : Constants) (fx : Fixes Resource) :
    List Resource → List Resource → List Resource → List Resource × List Resource
  | fixedResources, extraResources, [] => (fixedResources, extraResources)
  | fixedResources, extraResources, resource :: rest =>
    if !fx.IsSupportedResourceType resource then
      fixLoop k fx (fixedResources ++ [resource]) extraResources rest
    else
      let out := fixResults k fx resource extraResources (fx.audit resource)
      fixLoop k fx (fixedResources ++ [out.1]) out.2 rest

/-- The function `fix(resources)`: the pair `(fixedResources, extraResources)`. -/
def fix {Resource : Type} (k : Constants) (fx : Fixes Resource) (resources : List Resource) :
    List Resource × List Resource :=
  fixLoop k fx [] [] resources

/-! ### A small instance of the parameters, for examples -/

/-- The kinds of resource of the example. -/
inductive SampleKind where
  | Pod
  | Namespace
  | NetworkPolicy
  | Unsupported
deriving DecidableEq

/-- A resource of the example: its kind and the names of the remediations applied to it. -/
structure SampleResource where
  kind : SampleKind
  applied : List String
deriving DecidableEq

/-- Pairwise distinct constants, numbered in the order of their declaration. -/
def sampleConstants : Constants :=
  ⟨1, 2, 3, 4, 5, 6, 7, 8, 9, 10, 11, 12, 13, 14, 15, 16, 17, 18, 19, 20, 21, 22, 23, 24, 25, 26,
    27, 28, 29, 30, 31⟩

/-- Remediations that write their name on the resource; the remediation of a missing network
policy returns a new resource of kind `NetworkPolicy`.  The audit of a pod reports a nil
`privileged` and a capability that is not dropped, the audit of a namespace reports a missing
network policy, in a result of its own each. -/
def sampleFixes : Fixes SampleResource where
  fixSecurityContextNil r := { r with applied := r.applied ++ ["fixSecurityContextNil"] }
  fixCapabilitiesNil r := { r with applied := r.applied ++ ["fixCapabilitiesNil"] }
  fixAllowPrivilegeEscalation _ r _ :=
    { r with applied := r.applied ++ ["fixAllowPrivilegeEscalation"] }
  fixCapabilityNotDropped _ r _ := { r with applied := r.applied ++ ["fixCapabilityNotDropped"] }
  fixCapabilityAdded _ r _ := { r with applied := r.applied ++ ["fixCapabilityAdded"] }
  fixPrivileged _ r _ := { r with applied := r.applied ++ ["fixPrivileged"] }
  fixReadOnlyRootFilesystem _ r _ :=
    { r with applied := r.applied ++ ["fixReadOnlyRootFilesystem"] }
  fixRunAsNonRoot _ r _ := { r with applied := r.applied ++ ["fixRunAsNonRoot"] }
  fixDeprecatedServiceAccount r :=
    { r with applied := r.applied ++ ["fixDeprecatedServiceAccount"] }
  fixServiceAccountToken _ r := { r with applied := r.applied ++ ["fixServiceAccountToken"] }
  fixAppArmor r := { r with applied := r.applied ++ ["fixAppArmor"] }
  fixSeccomp r := { r with applied := r.applied ++ ["fixSeccomp"] }
  fixNetworkPolicy r _ := ⟨.NetworkPolicy, r.applied ++ ["fixNetworkPolicy"]⟩
  fixNamespace _ r := { r with applied := r.applied ++ ["fixNamespace"] }
  IsSupportedResourceType r := decide (r.kind ≠ .Unsupported)
  IsNamespaceType r := decide (r.kind = .Namespace)
  audit r :=
    match r.kind with
    | .Pod => [⟨[⟨8, 1, "privileged"⟩]⟩, ⟨[⟨6, 1, "capability"⟩]⟩]
    | .Namespace => [⟨[⟨26, 1, "network policy"⟩]⟩]
    | _ => []

/-- The resource that `fix` appends to `fixedResources` for `resource`. -/
def fixedOf {Resource : Type} (k : Constants) (fx : Fixes Resource) (resource : Resource) :
    Resource :=
  if !fx.IsSupportedResourceType resource then resource
  else (fixResults k fx resource [] (fx.audit resource)).1

/-- The resources that `fix` appends to `extraResources` for `resource`. -/
def extraOf {Resource : Type} (k : Constants) (fx : Fixes Resource) (resource : Resource) :
    List Resource :=
  if !fx.IsSupportedResourceType resource then []
  else (fixResults k fx resource [] (fx.audit resource)).2

/-! ## Byte slices: `isCommentSlice` and `cleanupManifest`

A byte slice is the list of its characters. The three functions of Go's package `bytes` that
the code calls are written after their library source, for a separator that is not empty. -/

/-- Go's `bytes.Index(s, sep)`: the index of the first instance of `sep` in `s`, `none` for
Go's -1. -/
def bytesIndex (sep : List Char) : List Char → Option Nat
  | [] => if sep.isPrefixOf [] then some 0 else none
  | c :: rest =>
    if sep.isPrefixOf (c :: rest) then some 0 else (bytesIndex sep rest).map (· + 1)

/-- Go's `bytes.Contains(b, subslice)`. -/
def bytesContains (b subslice : List Char) : Bool :=
  (bytesIndex subslice b).isSome

/-- The loop of `bytes.Split`: cut at the first instance of `sep`, go on after it. The fuel
bounds the number of cuts. -/
def bytesSplitAux (sep : List Char) : Nat → List Char → List (List Char)
  | 0, s => [s]
  | fuel + 1, s =>
    match bytesIndex sep s with
    | none => [s]
    | some m => s.take m :: bytesSplitAux sep fuel (s.drop (m + sep.length))

/-- Go's `bytes.Split(s, sep)` for a separator that is not empty: the pieces of `s` between
the instances of `sep`, found from left to right without overlap. -/
def bytesSplit (s sep : List Char) : List (List Char) :=
  bytesSplitAux sep s.length s

/-- The loop of `bytes.Replace`: copy up to the first instance of `old`, write `new`, go on
after the instance. The fuel bounds the number of replacements. -/
def bytesReplaceAux (old new : List Char) : Nat → List Char → List Char
  | 0, s => s
  | fuel + 1, s =>
    match bytesIndex old s with
    | none => s
    | some j => s.take j ++ new ++ bytesReplaceAux old new fuel (s.drop (j + old.length))

/-- Go's `bytes.Replace(s, old, new, -1)` for an `old` that is not empty. -/
def bytesReplace (s old new : List Char) : List Char :=
  bytesReplaceAux old new s.length s

/-- The function `isCommentSlice(b)`. The separator of the split is the two characters `/`
and `n`, as in the source. -/
def isCommentSlice (b : List Char) : Bool :=
  (bytesSplit b "/n".toList).all fun line =>
    !(decide (line.length > 0) && !"#".toList.isPrefixOf line)

/-- The artifact `objectMetacreationTs` of `cleanupManifest`. -/
def objectMetacreationTs : List Char := "\n  creationTimestamp: null\n".toList

/-- The artifact `specTemplatecreationTs` of `cleanupManifest`. -/
def specTemplatecreationTs : List Char := "\n      creationTimestamp: null\n".toList

/-- The artifact `jobSpecTemplatecreationTs` of `cleanupManifest`. -/
def jobSpecTemplatecreationTs : List Char := "\n          creationTimestamp: null\n".toList

/-- The artifact `nullStatus` of `cleanupManifest`. -/
def nullStatus : List Char := "\nstatus: {}\n".toList

/-- The artifact `nullReplicaStatus` of `cleanupManifest`. -/
def nullReplicaStatus : List Char := "status:\n  replicas: 0\n".toList

/-- The artifact `nullLBStatus` of `cleanupManifest`. -/
def nullLBStatus : List Char := "status:\n  loadBalancer: {}\n".toList

/-- The artifact `nullMetaStatus` of `cleanupManifest`. -/
def nullMetaStatus : List Char := "\n    status: {}\n".toList

/-- One `if !has { finalData = bytes.Replace(finalData, artifact, "\n", -1) }` of
`cleanupManifest`. -/
def cleanupPass (has : Bool) (artifact finalData : List Char) : List Char :=
  if !has then bytesReplace finalData artifact "\n".toList else finalData

/-- The function `cleanupManifest(origFile, finalData)`. The parameter `readFile` is
`ioutil.ReadFile`, with `none` for an error, and the result `none` is the error returned. -/
def cleanupManifest (readFile : String → Option (List Char)) (origFile : String)
    (finalData : List Char) : Option (List Char) :=
  let flags : Option (Bool × Bool × Bool × Bool × Bool × Bool × Bool) :=
    if origFile ≠ "" then
      match readFile origFile with
      | none => none
      | some origData =>
        some (bytesContains origData objectMetacreationTs,
          bytesContains origData specTemplatecreationTs,
          bytesContains origData jobSpecTemplatecreationTs,
          bytesContains origData nullStatus,
          bytesContains origData nullReplicaStatus,
          bytesContains origData nullLBStatus,
          bytesContains origData nullMetaStatus)
    else some (false, false, false, false, false, false, false)
  match flags with
  | none => none
  | some (hasObjectMetacreationTs, hasSpecTemplatecreationTs, hasJobSpecTemplatecreationTs,
      hasNullStatus, hasNullReplicaStatus, hasNullLBStatus, hasNullMetaStatus) =>
    let finalData := cleanupPass hasObjectMetacreationTs objectMetacreationTs finalData
    let finalData := cleanupPass hasSpecTemplatecreationTs specTemplatecreationTs finalData
    let finalData := cleanupPass hasJobSpecTemplatecreationTs jobSpecTemplatecreationTs finalData
    let finalData := cleanupPass hasNullStatus nullStatus finalData
    let finalData := cleanupPass hasNullReplicaStatus nullReplicaStatus finalData
    let finalData := cleanupPass hasNullLBStatus nullLBStatus finalData
    let finalData := cleanupPass hasNullMetaStatus nullMetaStatus finalData
    some finalData

/-- Go's `bytes.Join(s, sep)`. -/
def bytesJoin (s : List (List Char)) (sep : List Char) : List Char :=
  match s with
  | [] => []
  | [piece] => piece
  | piece :: rest => piece ++ sep ++ bytesJoin rest sep

/-- The data `r` is the data `d` cut at instances of `artifact`, with a newline in the place
of each: `d` is pieces joined by `artifact`, `r` is the same pieces joined by a newline, and no
piece contains `artifact`. -/
def CutAt (artifact d r : List Char) : Prop :=
  ∃ pieces : List (List Char), d = bytesJoin pieces artifact ∧
    r = bytesJoin pieces "\n".toList ∧ ∀ piece ∈ pieces, ¬ artifact <:+: piece

/-- A pass of `cleanupManifest` from `d` to `r`: nothing changes when the original document
contains `artifact`, and `d` is cut at `artifact` when it does not. -/
def CleanupStep (origData artifact d r : List Char) : Prop :=
  (artifact <:+: origData ∧ r = d) ∨ (¬ artifact <:+: origData ∧ CutAt artifact d r)

/-! ## `mergeYAML` -/

/-- The condition of the loop that takes out the post-doc comments in `mergeYAML`:
`item.Key == nil && len(item.Comment) > 0`. -/
def MapItem.isPostDocComment (item : MapItem) : Bool :=
  item.key.isNil && decide (item.comment ≠ "")

/-- The loop `for origYaml[commentStart-1].Key == nil && ... { commentStart-- }` of `mergeYAML`
from a value of `commentStart`: the value after the loop, `none` when the index
`commentStart-1` is out of range. -/
def postDocCommentStart (origYaml : List MapItem) : Nat → Option Nat
  | 0 => none
  | commentStart + 1 =>
    match origYaml[commentStart]? with
    | none => none
    | some item =>
      if item.isPostDocComment then postDocCommentStart origYaml commentStart
      else some (commentStart + 1)

/-- Lines 274-288 of `mergeYAML`, from the two parsed documents to the merged one: take out
the post-doc comments of `origYaml`, merge, put the comments back. -/
def mergeYAMLDocuments (origYaml fixedYaml : List MapItem) : Option (List MapItem) :=
  match postDocCommentStart origYaml origYaml.length with
  | none => none
  | some commentStart =>
    let comments := origYaml.drop commentStart
    let origYaml := origYaml.take commentStart
    match mergeMapSlices origYaml fixedYaml with
    | none => none
    | some mergedYaml => some (mergedYaml ++ comments)

/-- The function `mergeYAML(origFile, fixedFile)`. The parameters are `ioutil.ReadFile`,
`yaml.CommentUnmarshal` and `yaml.Marshal`, each with `none` for an error; the result is `none`
for a panic, `some none` for an error returned, and the bytes of the merged document
otherwise. -/
def mergeYAML (readFile : String → Option (List Char))
    (CommentUnmarshal : List Char → Option (List MapItem))
    (Marshal : List MapItem → Option (List Char)) (origFile fixedFile : String) :
    Option (Option (List Char)) :=
  match readFile origFile with
  | none => some none
  | some origData =>
    match CommentUnmarshal origData with
    | none => some none
    | some origYaml =>
      match readFile fixedFile with
      | none => some none
      | some fixedData =>
        match CommentUnmarshal fixedData with
        | none => some none
        | some fixedYaml => (mergeYAMLDocuments origYaml fixedYaml).map Marshal

/-! ### Values on which `deepEqual` is symmetric -/

mutual
/-- A value in which, at every level, the entries of a mapping that are no standalone comments
have non-nil scalar keys (no NaN), pairwise distinct, and no item of a sequence is a standalone
comment; with `sequences = false` the value holds no sequence at all.  Standalone comments of
mappings are free. -/
def Value.isPlain (v : Value) (sequences : Bool) : Bool :=
  match v with
  | .mapSlice items =>
    isPlainMapItems items sequences &&
      decide (((items.filter fun e => !e.isComment).map MapItem.key).Nodup)
  | .seq items => sequences && isPlainSeqItems items sequences
  | _ => true
termination_by structural v
/-- The entries that are no standalone comments have non-nil scalar keys and plain values. -/
def isPlainMapItems (items : List MapItem) (sequences : Bool) : Bool :=
  match items with
  | [] => true
  | (.mk k v c) :: rest =>
    ((MapItem.mk k v c).isComment || (k.isComparable && !k.isNil && Value.isPlain v sequences)) &&
      isPlainMapItems rest sequences
termination_by structural items
/-- No item is a standalone comment, and the values of the items are plain. -/
def isPlainSeqItems (items : List SequenceItem) (sequences : Bool) : Bool :=
  match items with
  | [] => true
  | (.mk v c) :: rest =>
    !(SequenceItem.mk v c).isComment && Value.isPlain v sequences &&
      isPlainSeqItems rest sequences
termination_by structural items
end

/-- The four keys that the case `sources` of `sequenceItemMatch` looks for, in its order. -/
def sourceKinds : List String :=
  ["configMap", "downwardAPI", "secret", "serviceAccountToken"]

/-- The value is no mapping, or a mapping that has at most one of the four keys of
`sourceKinds`. -/
def atMostOneSource : Value → Bool
  | .mapSlice m => decide ((sourceKinds.filter fun kind => hasKey (.str kind) m).length ≤ 1)
  | _ => true

/-! ### Documents on which the merge gives the original back -/

mutual
/-- A value as the serializer writes it after a fix: no entry of a mapping is a standalone
comment, and the keys of every mapping are non-nil scalars (no NaN), pairwise distinct. -/
def Value.isSerialized (v : Value) : Bool :=
  match v with
  | .mapSlice items => isSerializedMapItems items && decide ((items.map MapItem.key).Nodup)
  | .seq items => isSerializedSeqItems items
  | _ => true
termination_by structural v
/-- The entries are no standalone comments, with non-nil scalar keys and serialized values. -/
def isSerializedMapItems (items : List MapItem) : Bool :=
  match items with
  | [] => true
  | (.mk k v c) :: rest =>
    !(MapItem.mk k v c).isComment && k.isComparable && !k.isNil && Value.isSerialized v &&
      isSerializedMapItems rest
termination_by structural items
/-- The values of the items are serialized. -/
def isSerializedSeqItems (items : List SequenceItem) : Bool :=
  match items with
  | [] => true
  | (.mk v _) :: rest => Value.isSerialized v && isSerializedSeqItems rest
termination_by structural items
end

/-- Every item of `fixedSeq`, from the index `index` on, is found in `origSeq` by the identity
rule of `sequenceKey`, at its own index. -/
def foundAtOwnIndex (sequenceKey : String) (origSeq : List SequenceItem) :
    Nat → List SequenceItem → Bool
  | _, [] => true
  | index, fixedItem :: rest =>
    (match findItemInSequence sequenceKey fixedItem origSeq with
      | some (some (i, _)) => decide (i = index)
      | _ => false) && foundAtOwnIndex sequenceKey origSeq (index + 1) rest

/-- The identities of two sequences are aligned: every item of `origSeq` is found in `fixedSeq`
by the identity rule of `sequenceKey`, and every item of `fixedSeq` is found in `origSeq` at its
own index, so no two items of `origSeq` share an identity with an item of `fixedSeq`. -/
def identitiesAligned (sequenceKey : String) (origSeq fixedSeq : List SequenceItem) : Bool :=
  (origSeq.all fun origItem =>
    match findItemInSequence sequenceKey origItem fixedSeq with
    | some (some _) => true
    | _ => false) && foundAtOwnIndex sequenceKey origSeq 0 fixedSeq

mutual
/-- The value `o` of `orig`, under the key `key` of its entry, is aligned with the value `f` of
`fixed`: two sequences are the value of a string key and have aligned identities, and so on
below, an entry of a mapping being paired with the entry of its key and an item of a sequence
with the item of its index. -/
def Value.alignedWith (o : Value) (key : Value) (f : Value) : Bool :=
  match o with
  | .mapSlice origMap =>
    match f with
    | .mapSlice fixedMap => alignedMapItems origMap fixedMap
    | _ => true
  | .seq origSeq =>
    match f with
    | .seq fixedSeq =>
      (match key with
        | .str sequenceKey => identitiesAligned sequenceKey origSeq fixedSeq
        | _ => false) && alignedSeqItems origSeq fixedSeq
    | _ => true
  | _ => true
termination_by structural o
/-- The value of every entry is aligned with the value of the entry of its key in
`fixedMap`. -/
def alignedMapItems (origMap : List MapItem) (fixedMap : List MapItem) : Bool :=
  match origMap with
  | [] => true
  | (.mk k v _) :: rest =>
    (match lookupBy (fun x => decide (x.key = k)) fixedMap with
      | some (_, fixedItem) => Value.alignedWith v k fixedItem.value
      | none => true) && alignedMapItems rest fixedMap
termination_by structural origMap
/-- The value of every item is aligned with the value of the item of its index in
`fixedSeq`. -/
def alignedSeqItems (origSeq : List SequenceItem) (fixedSeq : List SequenceItem) : Bool :=
  match origSeq with
  | [] => true
  | (.mk v _) :: rest =>
    match fixedSeq with
    | [] => true
    | (.mk fixedValue _) :: fixedRest =>
      Value.alignedWith v .null fixedValue && alignedSeqItems rest fixedRest
termination_by structural origSeq
end

/-! # Properties -/

/-! ## The fuel of `deepEqual` is enough -/

theorem depth_key_le {e : MapItem} {m : List MapItem} (h : e ∈ m) :
    e.key.depth ≤ depthMapItems m ∧ e.value.depth ≤ depthMapItems m := by
  induction m with
  | nil => cases h
  | cons a rest ih =>
    obtain ⟨k, v, c⟩ := a
    rcases List.mem_cons.1 h with rfl | h
    · simp [depthMapItems, MapItem.key, MapItem.value]
    · have := ih h
      simp only [depthMapItems]
      omega

theorem depth_value_le {x : SequenceItem} {s : List SequenceItem} (h : x ∈ s) :
    x.value.depth ≤ depthSeqItems s := by
  induction s with
  | nil => cases h
  | cons a rest ih =>
    obtain ⟨v, c⟩ := a
    rcases List.mem_cons.1 h with rfl | h
    · simp [depthSeqItems, SequenceItem.value]
    · have := ih h
      simp only [depthSeqItems]
      omega

theorem shiftFound_eq_some {α : Type} {r : Option (Option (Nat × α))} {i : Nat} {x : α}
    (h : shiftFound r = some (some (i, x))) : ∃ j, i = j + 1 ∧ r = some (some (j, x)) := by
  rcases r with _ | _ | ⟨j, y⟩
  · simp [shiftFound] at h
  · simp [shiftFound] at h
  · simp only [shiftFound, Option.some.injEq, Prod.mk.injEq] at h
    exact ⟨j, h.1.symm, by rw [h.2]⟩

theorem findItemInMapSliceWith_getElem {eq : Value → Value → Option Bool} {key : Value}
    {l : List MapItem} {i : Nat} {x : MapItem}
    (h : findItemInMapSliceWith eq key l = some (some (i, x))) : l[i]? = some x := by
  induction l generalizing i with
  | nil => simp [findItemInMapSliceWith] at h
  | cons a rest ih =>
    unfold findItemInMapSliceWith at h
    split at h
    · obtain ⟨j, rfl, hj⟩ := shiftFound_eq_some h
      simpa using ih hj
    · split at h
      · cases h
      · simp only [Option.some.injEq, Prod.mk.injEq] at h
        obtain ⟨rfl, rfl⟩ := h
        simp
      · obtain ⟨j, rfl, hj⟩ := shiftFound_eq_some h
        simpa using ih hj

theorem findItemInMapSliceWith_mem {eq : Value → Value → Option Bool} {key : Value}
    {l : List MapItem} {i : Nat} {x : MapItem}
    (h : findItemInMapSliceWith eq key l = some (some (i, x))) : x ∈ l :=
  List.getElem?_mem (findItemInMapSliceWith_getElem h)

theorem findItemInMapSliceWith_congr {eq eq2 : Value → Value → Option Bool} {key : Value}
    {l : List MapItem} (h : ∀ x ∈ l, eq x.key key = eq2 x.key key) :
    findItemInMapSliceWith eq key l = findItemInMapSliceWith eq2 key l := by
  induction l with
  | nil => rfl
  | cons a rest ih =>
    have ih2 := ih fun x hx => h x (List.mem_cons_of_mem _ hx)
    simp only [findItemInMapSliceWith, ih2, h a (List.mem_cons_self _ _)]

theorem mapSliceLoop_congr {eq eq2 : Value → Value → Option Bool} {map1 map2 : List MapItem}
    (h : ∀ x ∈ map2, ∀ y ∈ map1,
      eq x.key y.key = eq2 x.key y.key ∧ eq y.value x.value = eq2 y.value x.value) :
    mapSliceLoop eq map2 map1 = mapSliceLoop eq2 map2 map1 := by
  induction map1 with
  | nil => rfl
  | cons a rest ih =>
    have ih2 := ih fun x hx y hy => h x hx y (List.mem_cons_of_mem _ hy)
    have hf : findItemInMapSliceWith eq a.key map2 = findItemInMapSliceWith eq2 a.key map2 :=
      findItemInMapSliceWith_congr fun x hx => (h x hx a (List.mem_cons_self _ _)).1
    simp only [mapSliceLoop, ih2, hf]
    split
    · rfl
    · split
      · rfl
      · rfl
      · next i item2 hfound =>
        rw [(h item2 (findItemInMapSliceWith_mem hfound) a (List.mem_cons_self _ _)).2]

theorem sequenceLoop_congr (eq eq2 : Value → Value → Option Bool) (seq1 seq2 : List SequenceItem)
    (h : ∀ x ∈ seq1, ∀ y ∈ seq2, eq x.value y.value = eq2 x.value y.value)
    (fuel index1 index2 : Nat) :
    sequenceLoop eq seq1 seq2 fuel index1 index2 = sequenceLoop eq2 seq1 seq2 fuel index1 index2 := by
  induction fuel generalizing index1 index2 with
  | zero => rfl
  | succ n ih =>
    simp only [sequenceLoop]
    split
    · split
      · rfl
      · split
        · rfl
        · split
          · rfl
          · split
            · next item1 item2 h1 h2 =>
              rw [h item1 (List.getElem?_mem h1) item2 (List.getElem?_mem h2)]
              simp only [ih]
            · rfl
    · rfl

theorem skipComments_ge {seq : List SequenceItem} {len fuel index i : Nat}
    (h : skipComments seq len fuel index = some i) : index ≤ i := by
  induction fuel generalizing index with
  | zero =>
    simp only [skipComments, Option.some.injEq] at h
    omega
  | succ n ih =>
    unfold skipComments at h
    split at h
    · split at h
      · cases h
      · split at h
        · have := ih h
          omega
        · simp only [Option.some.injEq] at h
          omega
    · simp only [Option.some.injEq] at h
      omega

/-- The outer loop of the sequence case never runs out of its fuel: from `index1` on, any fuel
above `len1 - index1` gives the same result. -/
theorem sequenceLoop_fuel (eq : Value → Value → Option Bool) (seq1 seq2 : List SequenceItem)
    (fuel index1 index2 : Nat) (h1 : index1 ≤ seq1.length) (h2 : seq1.length < fuel + index1) :
    sequenceLoop eq seq1 seq2 (fuel + 1) index1 index2 =
      sequenceLoop eq seq1 seq2 fuel index1 index2 := by
  induction fuel generalizing index1 index2 with
  | zero => omega
  | succ n ih =>
    rw [sequenceLoop, sequenceLoop]
    split
    · split
      · rfl
      · next i1 hi1 =>
        split
        · rfl
        · split
          · rfl
          · split
            · next item1 item2 hg1 hg2 =>
              split
              · rfl
              · rfl
              · have hlt : i1 < seq1.length := (List.getElem?_eq_some.1 hg1).1
                have hge := skipComments_ge hi1
                exact ih (i1 + 1) _ (by omega) (by omega)
            · rfl
    · rfl

theorem deepEqualAux_succ (n : Nat) (val1 val2 : Value) (h : val1.depth ≤ n ∨ val2.depth ≤ n) :
    deepEqualAux (n + 1) val1 val2 = deepEqualAux n val1 val2 := by
  induction n generalizing val1 val2 with
  | zero =>
    cases val1 <;> cases val2 <;> simp [Value.depth] at h <;> simp [deepEqualAux]
  | succ k ih =>
    cases val1 with
    | mapSlice map1 =>
      cases val2 with
      | mapSlice map2 =>
        have hc : mapSliceLoop (deepEqualAux (k + 1)) map2 map1 =
            mapSliceLoop (deepEqualAux k) map2 map1 := by
          apply mapSliceLoop_congr
          intro x hx y hy
          have hx2 := depth_key_le hx
          have hy2 := depth_key_le hy
          simp only [Value.depth] at h
          constructor
          · apply ih; omega
          · apply ih; omega
        simp only [deepEqualAux, hc]
      | _ => simp [deepEqualAux]
    | seq seq1 =>
      cases val2 with
      | seq seq2 =>
        have hc := sequenceLoop_congr (deepEqualAux (k + 1)) (deepEqualAux k) seq1 seq2 (by
            intro x hx y hy
            have hx2 := depth_value_le hx
            have hy2 := depth_value_le hy
            simp only [Value.depth] at h
            apply ih; omega) (seq1.length + 1) 0 0
        simp only [deepEqualAux, hc]
      | _ => simp [deepEqualAux]
    | _ => simp [deepEqualAux]

theorem deepEqualAux_add (n k : Nat) (val1 val2 : Value) (h : val1.depth ≤ n ∨ val2.depth ≤ n) :
    deepEqualAux (n + k) val1 val2 = deepEqualAux n val1 val2 := by
  induction k with
  | zero => rfl
  | succ j ih =>
    rw [← ih, ← Nat.add_assoc]
    apply deepEqualAux_succ
    omega

/-- Any fuel that reaches the depth of one of the two values gives the result of `deepEqual`. -/
theorem deepEqualAux_eq_deepEqual (n : Nat) (val1 val2 : Value)
    (h : val1.depth ≤ n ∨ val2.depth ≤ n) : deepEqualAux n val1 val2 = deepEqual val1 val2 := by
  unfold deepEqual
  rcases Nat.le_total val1.depth n with h1 | h1
  · obtain ⟨k, rfl⟩ := Nat.exists_eq_add_of_le h1
    exact deepEqualAux_add _ _ _ _ (Or.inl (Nat.le_refl _))
  · rcases h with h | h
    · rw [Nat.le_antisymm h h1]
    · obtain ⟨k, hk⟩ := Nat.exists_eq_add_of_le h1
      rw [hk]
      exact (deepEqualAux_add _ _ _ _ (Or.inr h)).symm


theorem deepEqual_mapSlice (map1 map2 : List MapItem) :
    deepEqual (.mapSlice map1) (.mapSlice map2) =
      if numValues map1 ≠ numValues map2 then some false
      else mapSliceLoop deepEqual map2 map1 := by
  have hc : mapSliceLoop (deepEqualAux (depthMapItems map1)) map2 map1 =
      mapSliceLoop deepEqual map2 map1 := by
    apply mapSliceLoop_congr
    intro x hx y hy
    have hy2 := depth_key_le hy
    exact ⟨deepEqualAux_eq_deepEqual _ _ _ (Or.inr hy2.1),
      deepEqualAux_eq_deepEqual _ _ _ (Or.inl hy2.2)⟩
  simp only [deepEqual, Value.depth, deepEqualAux, hc]

theorem deepEqual_seq (seq1 seq2 : List SequenceItem) :
    deepEqual (.seq seq1) (.seq seq2) =
      sequenceLoop deepEqual seq1 seq2 (seq1.length + 1) 0 0 := by
  have hc := sequenceLoop_congr (deepEqualAux (depthSeqItems seq1)) deepEqual seq1 seq2 (by
      intro x hx y hy
      exact deepEqualAux_eq_deepEqual _ _ _ (Or.inl (depth_value_le hx))) (seq1.length + 1) 0 0
  simp only [deepEqual, Value.depth, deepEqualAux, hc]

theorem deepEqual_of_not_container {val1 : Value} (h : val1.isContainer = false) (val2 : Value) :
    deepEqual val1 val2 = goEq val1 val2 := by
  cases val1 <;> simp [Value.isContainer] at h <;> simp [deepEqual, deepEqualAux]

theorem goEq_eq_some_true {a b : Value} (h : goEq a b = some true) : a = b := by
  cases a <;> cases b <;> simp [goEq] at h <;> simp [h]

theorem deepEqual_right_of_not_container {val2 : Value} (h : val2.isContainer = false)
    (val1 : Value) : deepEqual val1 val2 = goEq val1 val2 := by
  cases val1 <;> cases val2 <;> simp [Value.isContainer] at h <;>
    simp [deepEqual, deepEqualAux, goEq]

theorem goEq_comparable_right {b : Value} (h : b.isComparable = true) (a : Value) :
    goEq a b = some (decide (a = b)) := by
  cases a <;> cases b <;> simp [Value.isComparable] at h <;> simp [goEq]
  case float.float x y =>
    cases y with
    | none => simp at h
    | some v => intro hx; simp [hx]

theorem goEq_comparable_left {a : Value} (h : a.isComparable = true) (b : Value) :
    goEq a b = some (decide (a = b)) := by
  cases a <;> cases b <;> simp [Value.isComparable] at h <;> simp [goEq]
  case float.float x y =>
    cases x with
    | none => simp at h
    | some v => intro hx; simp

theorem isContainer_of_isComparable {a : Value} (h : a.isComparable = true) :
    a.isContainer = false := by
  cases a <;> simp [Value.isComparable] at h <;> rfl

theorem deepEqual_comparable_right {b : Value} (h : b.isComparable = true) (a : Value) :
    deepEqual a b = some (decide (a = b)) := by
  rw [deepEqual_right_of_not_container (isContainer_of_isComparable h), goEq_comparable_right h]

theorem deepEqual_comparable_left {a : Value} (h : a.isComparable = true) (b : Value) :
    deepEqual a b = some (decide (a = b)) := by
  rw [deepEqual_of_not_container (isContainer_of_isComparable h), goEq_comparable_left h]


/-! ## Lookups by a scalar key -/

theorem shiftFound_some {α : Type} (r : Option (Nat × α)) :
    shiftFound (some r) = some (r.map fun r => (r.1 + 1, r.2)) := by
  rcases r with _ | ⟨i, x⟩ <;> rfl

theorem findItemInMapSliceWith_eq_lookupBy (eq : Value → Value → Option Bool) (key : Value)
    (p : Value → Bool) (h : ∀ a, eq a key = some (p a)) (l : List MapItem) :
    findItemInMapSliceWith eq key l = some (lookupBy (fun x => !x.key.isNil && p x.key) l) := by
  induction l with
  | nil => rfl
  | cons a rest ih =>
    simp only [findItemInMapSliceWith, ih, h, lookupBy, shiftFound_some]
    split
    · next hn => simp [hn]
    · next hn =>
      simp only [Bool.not_eq_true] at hn
      by_cases hp : p a.key = true
      · simp [hn, hp]
      · simp only [Bool.not_eq_true] at hp
        simp [hn, hp]

theorem lookupBy_eq_none {α : Type} {p : α → Bool} {l : List α} :
    lookupBy p l = none ↔ ∀ x ∈ l, p x = false := by
  induction l with
  | nil => simp [lookupBy]
  | cons a rest ih =>
    cases hp : p a <;> simp [lookupBy, hp, ih]

theorem lookupBy_eq_some {α : Type} {p : α → Bool} {l : List α} {i : Nat} {x : α}
    (h : lookupBy p l = some (i, x)) :
    l[i]? = some x ∧ p x = true ∧ ∀ j y, j < i → l[j]? = some y → p y = false := by
  induction l generalizing i with
  | nil => simp [lookupBy] at h
  | cons a rest ih =>
    cases hp : p a
    · simp only [lookupBy, hp, Bool.false_eq_true, if_false, Option.map_eq_some'] at h
      obtain ⟨⟨j, y⟩, hj, hij⟩ := h
      simp only [Prod.mk.injEq] at hij
      obtain ⟨rfl, rfl⟩ := hij
      obtain ⟨h1, h2, h3⟩ := ih hj
      refine ⟨by simpa using h1, h2, ?_⟩
      intro j2 z hj2 hz
      cases j2 with
      | zero =>
        simp only [List.getElem?_cons_zero, Option.some.injEq] at hz
        rw [← hz]
        exact hp
      | succ j3 =>
        simp only [List.getElem?_cons_succ] at hz
        exact h3 j3 z (by omega) hz
    · simp only [lookupBy, hp, if_true, Option.some.injEq, Prod.mk.injEq] at h
      obtain ⟨rfl, rfl⟩ := h
      exact ⟨by simp, hp, by intro j y hj; omega⟩

theorem lookupBy_isSome_of_mem {α : Type} {p : α → Bool} {l : List α} {x : α} (hx : x ∈ l)
    (hp : p x = true) : ∃ i y, lookupBy p l = some (i, y) := by
  cases h : lookupBy p l with
  | none =>
    rw [lookupBy_eq_none] at h
    rw [h x hx] at hp
    cases hp
  | some r => exact ⟨r.1, r.2, rfl⟩

/-- The lookup of a non-nil scalar key that `==` finds equal to itself: the first item with
that very key. -/
theorem findItemInMapSlice_comparable {key : Value} (hc : key.isComparable = true)
    (hn : key ≠ .null) (l : List MapItem) :
    findItemInMapSlice key l = some (lookupBy (fun x => decide (x.key = key)) l) := by
  have h := findItemInMapSliceWith_eq_lookupBy deepEqual key
    (fun a => decide (a = key)) (fun a => deepEqual_comparable_right hc a) l
  rw [findItemInMapSlice, h]
  congr 2
  funext x
  cases hk : x.key <;> simp [Value.isNil]
  exact fun h2 => hn h2.symm

theorem MapItem.isComment_eq_false {x : MapItem} (hn : x.key ≠ .null)
    (hp : ∀ s, x.key ≠ .preDoc s) : x.isComment = false := by
  obtain ⟨k, v, c⟩ := x
  cases k <;> simp [MapItem.key] at hn hp <;> simp [MapItem.isComment]

theorem MapItem.key_of_isComment_eq_false {x : MapItem} (h : x.isComment = false) :
    ∀ s, x.key ≠ .preDoc s := by
  obtain ⟨k, v, c⟩ := x
  intro s hs
  simp only [MapItem.key] at hs
  subst hs
  simp [MapItem.isComment] at h

/-! ## C1: equality of mappings -/

theorem mem_semanticEntries {m : List MapItem} {k v : Value} :
    (k, v) ∈ semanticEntries m ↔ ∃ e ∈ m, e.isComment = false ∧ e.key = k ∧ e.value = v := by
  simp [semanticEntries, and_assoc]

theorem numValues_eq_length (m : List MapItem) : numValues m = (semanticEntries m).length := by
  simp [numValues, semanticEntries]

theorem eq_of_nodup_fst {α β : Type} {l : List (α × β)} (h : (l.map Prod.fst).Nodup) {k : α}
    {v w : β} (hv : (k, v) ∈ l) (hw : (k, w) ∈ l) : v = w := by
  induction l with
  | nil => cases hv
  | cons a rest ih =>
    simp only [List.map_cons, List.nodup_cons, List.mem_map, not_exists, not_and] at h
    rcases List.mem_cons.1 hv with rfl | hv2
    · rcases List.mem_cons.1 hw with hw2 | hw2
      · exact (Prod.mk.inj hw2).2.symm
      · exact absurd rfl (h.1 (k, w) hw2)
    · rcases List.mem_cons.1 hw with rfl | hw2
      · exact absurd rfl (h.1 (k, v) hv2)
      · exact ih h.2 hv2 hw2

theorem mapSliceLoop_true_of_perm (m1 m2 : List MapItem)
    (hperm : (semanticEntries m2).Perm (semanticEntries m1))
    (hkey : ∀ e ∈ m1, e.isComment = false → e.key.isComparable = true ∧ e.key ≠ .null)
    (hnodup : ((semanticEntries m1).map Prod.fst).Nodup)
    (hrefl : ∀ e ∈ m1, e.isComment = false → deepEqual e.value e.value = some true)
    (l : List MapItem) (hl : ∀ e ∈ l, e ∈ m1) :
    mapSliceLoop deepEqual m2 l = some true := by
  induction l with
  | nil => rfl
  | cons e rest ih =>
    have ih2 := ih fun x hx => hl x (List.mem_cons_of_mem _ hx)
    have he := hl e (List.mem_cons_self _ _)
    cases hcom : e.isComment
    · obtain ⟨hc, hn⟩ := hkey e he hcom
      have hfind : findItemInMapSliceWith deepEqual e.key m2 = _ :=
        findItemInMapSlice_comparable hc hn m2
      have hmem1 : (e.key, e.value) ∈ semanticEntries m1 :=
        mem_semanticEntries.2 ⟨e, he, hcom, rfl, rfl⟩
      obtain ⟨x, hx, -, hxk, -⟩ := mem_semanticEntries.1 (hperm.mem_iff.2 hmem1)
      obtain ⟨i, y, hy⟩ := lookupBy_isSome_of_mem (p := fun x => decide (x.key = e.key)) hx
        (by simp [hxk])
      obtain ⟨hy1, hy2, -⟩ := lookupBy_eq_some hy
      have hyk : y.key = e.key := by simpa using hy2
      have hycom : y.isComment = false := by
        apply MapItem.isComment_eq_false
        · rw [hyk]; exact hn
        · rw [hyk]; exact MapItem.key_of_isComment_eq_false hcom
      have hmem2 : (e.key, y.value) ∈ semanticEntries m1 :=
        hperm.mem_iff.1 (mem_semanticEntries.2 ⟨y, List.getElem?_mem hy1, hycom, hyk, rfl⟩)
      have hval : y.value = e.value := eq_of_nodup_fst hnodup hmem2 hmem1
      simp only [mapSliceLoop, hcom, hfind, hy, hval, hrefl e he hcom, ih2]
      simp
    · simp only [mapSliceLoop, hcom, ih2]
      simp

/-- C1 (amended): for a mapping `m1` whose entries other than standalone comments have non-nil
scalar keys that `==` finds equal to themselves, pairwise distinct, and values that `deepEqual`
finds equal to themselves, and for every mapping `m2` with the same (key, value) entries in any
order (comment texts changed, standalone comments inserted, removed or moved at will),
`deepEqual(m1, m2)` returns true. -/
theorem deepEqual_mapSlice_perm (m1 m2 : List MapItem)
    (hperm : (semanticEntries m2).Perm (semanticEntries m1))
    (hkey : ∀ e ∈ m1, e.isComment = false → e.key.isComparable = true ∧ e.key ≠ .null)
    (hnodup : ((semanticEntries m1).map Prod.fst).Nodup)
    (hrefl : ∀ e ∈ m1, e.isComment = false → deepEqual e.value e.value = some true) :
    deepEqual (.mapSlice m1) (.mapSlice m2) = some true := by
  rw [deepEqual_mapSlice, numValues_eq_length, numValues_eq_length, hperm.length_eq]
  simp only [ne_eq, not_true_eq_false, if_false]
  exact mapSliceLoop_true_of_perm m1 m2 hperm hkey hnodup hrefl m1 fun _ h => h

/-- The mappings of the docstring of `deepEqual`, the second one with a standalone comment
added, are equal. -/
theorem deepEqual_mapSlice_perm_witness :
    deepEqual
      (.mapSlice [.mk (.str "k") (.str "v") "c", .mk (.str "k2") (.str "v2") "c2"])
      (.mapSlice [.mk (.str "k2") (.str "v2") "", .mk .null .null "note",
        .mk (.str "k") (.str "v") ""]) = some true :=
  deepEqual_mapSlice_perm _ _ (by decide) (by decide) (by decide) (by decide)

/-- C1 fails where a key occurs twice: the mapping `{k: 1, k: 2}` and its permutation
`{k: 2, k: 1}` are not equal for `deepEqual`. -/
theorem deepEqual_mapSlice_duplicate_key :
    (semanticEntries [.mk (.str "k") (.int 2) "", .mk (.str "k") (.int 1) ""]).Perm
        (semanticEntries [.mk (.str "k") (.int 1) "", .mk (.str "k") (.int 2) ""]) ∧
      deepEqual (.mapSlice [.mk (.str "k") (.int 1) "", .mk (.str "k") (.int 2) ""])
        (.mapSlice [.mk (.str "k") (.int 2) "", .mk (.str "k") (.int 1) ""]) = some false := by
  decide

/-! ## C2: equality of sequences -/

/-- C2 at its own examples: `deepEqual([a, b], [#comment, a, b])` and
`deepEqual([#comment, a], [a])` both return false, because the second skip loop tests
`seq1[index2]`. -/
theorem deepEqual_seq_comment_on_one_side :
    deepEqual (.seq [.mk (.str "a") "", .mk (.str "b") ""])
        (.seq [.mk .null "comment", .mk (.str "a") "", .mk (.str "b") ""]) = some false ∧
      deepEqual (.seq [.mk .null "comment", .mk (.str "a") ""])
        (.seq [.mk (.str "a") ""]) = some false := by
  decide

/-! ## C10: the static identity table -/

theorem matchMapSlices_of_identifyingKey {sequenceKey idKey : String}
    (h : identifyingKey sequenceKey = some idKey) (map1 map2 : List MapItem) :
    matchMapSlices sequenceKey map1 map2 = equalValueForKey idKey map1 map2 := by
  unfold identifyingKey at h
  split at h <;> first
    | (cases h; rfl)
    | cases h

theorem equalValueForKey_eq_some_true (key : String) (map1 map2 : List MapItem) :
    equalValueForKey key map1 map2 = some true ↔
      ∃ i1 item1 i2 item2,
        lookupBy (fun x => decide (x.key = .str key)) map1 = some (i1, item1) ∧
        lookupBy (fun x => decide (x.key = .str key)) map2 = some (i2, item2) ∧
        deepEqual item1.value item2.value = some true := by
  have hc : (Value.str key).isComparable = true := rfl
  have hn : Value.str key ≠ .null := by intro h; cases h
  unfold equalValueForKey
  rw [findItemInMapSlice_comparable hc hn, findItemInMapSlice_comparable hc hn]
  rcases h1 : lookupBy (fun x => decide (x.key = .str key)) map1 with _ | ⟨i1, x1⟩
  · simp [h1]
  · rcases h2 : lookupBy (fun x => decide (x.key = .str key)) map2 with _ | ⟨i2, x2⟩
    · simp [h1, h2]
    · simp only [h1, h2, Option.some.injEq, Prod.mk.injEq]
      constructor
      · intro h
        exact ⟨i1, x1, i2, x2, ⟨rfl, rfl⟩, ⟨rfl, rfl⟩, h⟩
      · rintro ⟨_, _, _, _, ⟨-, rfl⟩, ⟨-, rfl⟩, h⟩
        exact h

/-- C10: for every field name of the `identifyingKey` table, two mapping items match exactly
when both carry the identifying sub-key of the table (the first entry with that key counts) and
`deepEqual` finds the two values of the sub-key equal; no special case of the `switch` takes a
field name of the table. -/
theorem sequenceItemMatch_identifyingKey (sequenceKey idKey : String)
    (h : identifyingKey sequenceKey = some idKey) (map1 map2 : List MapItem) (c1 c2 : String) :
    sequenceItemMatch sequenceKey (.mk (.mapSlice map1) c1) (.mk (.mapSlice map2) c2) = some true ↔
      ∃ i1 item1 i2 item2,
        lookupBy (fun x => decide (x.key = .str idKey)) map1 = some (i1, item1) ∧
        lookupBy (fun x => decide (x.key = .str idKey)) map2 = some (i2, item2) ∧
        deepEqual item1.value item2.value = some true := by
  rw [← equalValueForKey_eq_some_true, ← matchMapSlices_of_identifyingKey h]
  rfl

/-- Two `volumeMounts` items with the same `mountPath` match, whatever their other keys. -/
theorem sequenceItemMatch_identifyingKey_witness :
    sequenceItemMatch "volumeMounts"
      (.mk (.mapSlice [.mk (.str "name") (.str "a") "", .mk (.str "mountPath") (.str "/x") ""]) "")
      (.mk (.mapSlice [.mk (.str "mountPath") (.str "/x") "", .mk (.str "name") (.str "b") ""]) "")
      = some true :=
  (sequenceItemMatch_identifyingKey "volumeMounts" "mountPath" (by decide) _ _ _ _).2
    ⟨1, .mk (.str "mountPath") (.str "/x") "", 0, .mk (.str "mountPath") (.str "/x") "",
      by decide, by decide, by decide⟩

/-! ## Lookups and assignments in the merge loops -/

theorem findItemInMapSliceWith_spec {eq : Value → Value → Option Bool} {key : Value}
    {l : List MapItem} {i : Nat} {x : MapItem}
    (h : findItemInMapSliceWith eq key l = some (some (i, x))) :
    l[i]? = some x ∧ x.key.isNil = false ∧ eq x.key key = some true := by
  induction l generalizing i with
  | nil => simp [findItemInMapSliceWith] at h
  | cons a rest ih =>
    unfold findItemInMapSliceWith at h
    split at h
    · obtain ⟨j, rfl, hj⟩ := shiftFound_eq_some h
      simpa using ih hj
    · next hnil =>
      split at h
      · cases h
      · next heq =>
        simp only [Option.some.injEq, Prod.mk.injEq] at h
        obtain ⟨rfl, rfl⟩ := h
        simp only [Bool.not_eq_true] at hnil
        simp [hnil, heq]
      · obtain ⟨j, rfl, hj⟩ := shiftFound_eq_some h
        simpa using ih hj

theorem findItemInMapSliceWith_none {eq : Value → Value → Option Bool} {key : Value}
    {l : List MapItem} (h : ∀ x ∈ l, x.key.isNil = true ∨ eq x.key key = some false) :
    findItemInMapSliceWith eq key l = some none := by
  induction l with
  | nil => rfl
  | cons a rest ih =>
    have ih2 := ih fun x hx => h x (List.mem_cons_of_mem _ hx)
    unfold findItemInMapSliceWith
    rcases h a (List.mem_cons_self _ _) with h1 | h1
    · simp [h1, ih2, shiftFound]
    · simp [h1, ih2, shiftFound]

theorem goEq_of_ne_right {a k : Value} (hk : k.isContainer = false) (h : a ≠ k) :
    goEq a k = some false := by
  cases a <;> cases k <;> simp [Value.isContainer] at hk <;> simp [goEq] <;> simp_all

theorem goEq_of_ne_left {a k : Value} (hk : k.isContainer = false) (h : k ≠ a) :
    goEq k a = some false := by
  cases a <;> cases k <;> simp [Value.isContainer] at hk <;> simp [goEq] <;> simp_all

theorem deepEqual_of_ne_right {a k : Value} (hk : k.isContainer = false) (h : a ≠ k) :
    deepEqual a k = some false := by
  rw [deepEqual_right_of_not_container hk, goEq_of_ne_right hk h]

theorem deepEqual_of_ne_left {a k : Value} (hk : k.isContainer = false) (h : k ≠ a) :
    deepEqual k a = some false := by
  rw [deepEqual_of_not_container hk, goEq_of_ne_left hk h]

theorem eq_of_deepEqual_right {a k : Value} (hk : k.isContainer = false)
    (h : deepEqual a k = some true) : a = k := by
  rw [deepEqual_right_of_not_container hk] at h
  exact goEq_eq_some_true h

theorem eq_of_deepEqual_left {a k : Value} (hk : k.isContainer = false)
    (h : deepEqual k a = some true) : k = a := by
  rw [deepEqual_of_not_container hk] at h
  exact goEq_eq_some_true h

/-- A scalar key that no item carries is not found. -/
theorem findItemInMapSlice_none_of_not_mem {k : Value} (hk : k.isContainer = false)
    {l : List MapItem} (h : ∀ x ∈ l, x.key ≠ k) : findItemInMapSlice k l = some none :=
  findItemInMapSliceWith_none fun x hx => Or.inr (deepEqual_of_ne_right hk (h x hx))

theorem setMapItemValue_length (l : List MapItem) (i : Nat) (v : Value) :
    (setMapItemValue l i v).length = l.length := by
  unfold setMapItemValue
  split <;> simp

theorem setMapItemValue_getElem?_ne (l : List MapItem) {i j : Nat} (v : Value) (h : i ≠ j) :
    (setMapItemValue l i v)[j]? = l[j]? := by
  unfold setMapItemValue
  split
  · simp [List.getElem?_set, h]
  · rfl

theorem setMapItemValue_getElem?_eq (l : List MapItem) {i : Nat} (v : Value) {x : MapItem}
    (h : l[i]? = some x) : (setMapItemValue l i v)[i]? = some (.mk x.key v x.comment) := by
  obtain ⟨k, w, c⟩ := x
  have hi : i < l.length := (List.getElem?_eq_some.1 h).1
  simp [setMapItemValue, h, List.getElem?_set, hi, MapItem.key, MapItem.comment]

theorem setMapItemValue_key_comment (l : List MapItem) (i : Nat) (v : Value) (j : Nat) :
    ((setMapItemValue l i v)[j]?).map (fun x => (x.key, x.comment)) =
      (l[j]?).map fun x => (x.key, x.comment) := by
  by_cases hij : i = j
  · subst hij
    cases h : l[i]? with
    | none =>
      have : (setMapItemValue l i v)[i]? = none := by
        simp only [setMapItemValue, h]
      rw [this]
    | some x =>
      rw [setMapItemValue_getElem?_eq l v h]
      rfl
  · rw [setMapItemValue_getElem?_ne l v hij]

theorem mem_setMapItemValue {l : List MapItem} {i : Nat} {v : Value} {e : MapItem}
    (h : e ∈ setMapItemValue l i v) : ∃ x ∈ l, x.key = e.key ∧ x.comment = e.comment := by
  obtain ⟨j, hj⟩ := List.mem_iff_getElem?.1 h
  have h2 := setMapItemValue_key_comment l i v j
  rw [hj] at h2
  cases hl : l[j]? with
  | none => rw [hl] at h2; cases h2
  | some x =>
    rw [hl] at h2
    simp only [Option.map_some', Option.some.injEq, Prod.mk.injEq] at h2
    exact ⟨x, List.getElem?_mem hl, h2.1.symm, h2.2.symm⟩

/-! ## C3: keys removed in fixed -/

theorem mem_retainMapItems {fixedSlice origSlice kept : List MapItem}
    (h : retainMapItems fixedSlice origSlice = some kept) {e : MapItem} (he : e ∈ kept) :
    e ∈ origSlice ∧
      (e.isComment = true ∨ ∃ i x, findItemInMapSlice e.key fixedSlice = some (some (i, x))) := by
  induction origSlice generalizing kept with
  | nil =>
    simp only [retainMapItems, Option.some.injEq] at h
    subst h
    cases he
  | cons a rest ih =>
    unfold retainMapItems at h
    split at h
    · cases h
    · next found hfound =>
      split at h
      · cases h
      · next kept2 hkept2 =>
        simp only [Option.some.injEq] at h
        subst h
        split at he
        · next hcond =>
          rcases List.mem_cons.1 he with rfl | he2
          · refine ⟨List.mem_cons_self _ _, ?_⟩
            simp only [Bool.or_eq_true] at hcond
            rcases hcond with hc | hc
            · right
              rcases found with _ | ⟨i, x⟩
              · cases hc
              · exact ⟨i, x, hfound⟩
            · exact Or.inl hc
          · exact ⟨List.mem_cons_of_mem _ (ih hkept2 he2).1, (ih hkept2 he2).2⟩
        · exact ⟨List.mem_cons_of_mem _ (ih hkept2 he).1, (ih hkept2 he).2⟩

theorem mergeMapSlicesLoop_key_mem {fixedSlice mergedSlice r : List MapItem}
    (h : mergeMapSlicesLoop mergedSlice fixedSlice = some r) {e : MapItem} (he : e ∈ r) :
    (∃ x ∈ mergedSlice, x.key = e.key) ∨ (∃ f ∈ fixedSlice, f.key = e.key) := by
  induction fixedSlice generalizing mergedSlice with
  | nil =>
    simp only [mergeMapSlicesLoop, Option.some.injEq] at h
    subst h
    exact Or.inl ⟨e, he, rfl⟩
  | cons f rest ih =>
    obtain ⟨fk, fv, fc⟩ := f
    rw [mergeMapSlicesLoop] at h
    split at h
    · cases h
    · rcases ih h with ⟨x, hx, hxe⟩ | ⟨g, hg, hge⟩
      · rcases List.mem_append.1 hx with hx | hx
        · exact Or.inl ⟨x, hx, hxe⟩
        · simp only [List.mem_singleton] at hx
          subst hx
          exact Or.inr ⟨_, List.mem_cons_self _ _, hxe⟩
      · exact Or.inr ⟨g, List.mem_cons_of_mem _ hg, hge⟩
    · split at h
      · cases h
      · rcases ih h with ⟨x, hx, hxe⟩ | ⟨g, hg, hge⟩
        · obtain ⟨y, hy, hyk, -⟩ := mem_setMapItemValue hx
          exact Or.inl ⟨y, hy, hyk.trans hxe⟩
        · exact Or.inr ⟨g, List.mem_cons_of_mem _ hg, hge⟩

/-- C3: a non-nil key `k` that occurs in `orig` on an entry that is not a standalone comment and
does not occur in `fixed` is the key of no entry of `mergeMapSlices(orig, fixed)`.  That `k` does
not occur in `fixed` says that no entry of `fixed` has the key `k`, nor a key that `deepEqual`
finds equal to `k`; for a scalar `k` the second follows from the first
(`deepEqual_of_ne_right`). -/
theorem mergeMapSlices_drops_removed_key (origSlice fixedSlice r : List MapItem) (k : Value)
    (hnil : k ≠ .null)
    (horig : ∃ e ∈ origSlice, e.key = k ∧ e.isComment = false)
    (hfixed : ∀ f ∈ fixedSlice, f.key ≠ k ∧ deepEqual f.key k ≠ some true)
    (hr : mergeMapSlices origSlice fixedSlice = some r) :
    ∀ e ∈ r, e.key ≠ k := by
  intro e he hek
  unfold mergeMapSlices at hr
  split at hr
  · cases hr
  · next kept hkept =>
    rcases mergeMapSlicesLoop_key_mem hr he with ⟨x, hx, hxe⟩ | ⟨f, hf, hfe⟩
    · obtain ⟨-, hcase⟩ := mem_retainMapItems hkept hx
      have hxk : x.key = k := hxe.trans hek
      rcases hcase with hc | ⟨i, y, hy⟩
      · obtain ⟨e0, -, he0k, he0c⟩ := horig
        have hp := MapItem.key_of_isComment_eq_false he0c
        have : x.isComment = false :=
          MapItem.isComment_eq_false (by rw [hxk]; exact hnil)
            (by intro s; rw [hxk, ← he0k]; exact hp s)
        rw [this] at hc
        cases hc
      · obtain ⟨hy1, -, hy3⟩ := findItemInMapSliceWith_spec hy
        rw [hxk] at hy3
        exact (hfixed y (List.getElem?_mem hy1)).2 hy3
    · exact (hfixed f hf).1 (hfe.trans hek)

/-- The key `b`, which `fixed` no longer has, is dropped; the comment and `a` stay. -/
theorem mergeMapSlices_drops_removed_key_witness :
    mergeMapSlices
        [.mk .null .null "note", .mk (.str "a") (.int 1) "c", .mk (.str "b") (.int 1) ""]
        [.mk (.str "a") (.int 2) ""]
      = some [.mk .null .null "note", .mk (.str "a") (.int 2) "c"] ∧
    ∀ e ∈ [MapItem.mk .null .null "note", .mk (.str "a") (.int 2) "c"], e.key ≠ .str "b" :=
  ⟨by decide, mergeMapSlices_drops_removed_key
    [.mk .null .null "note", .mk (.str "a") (.int 1) "c", .mk (.str "b") (.int 1) ""]
    [.mk (.str "a") (.int 2) ""] _ (.str "b") (by decide) (by decide) (by decide)
    (by decide)⟩

/-! ## The second loop of `mergeMapSlices` -/

theorem hasKey_eq_true {k : Value} {l : List MapItem} :
    hasKey k l = true ↔ ∃ x ∈ l, x.key = k := by
  simp [hasKey]

theorem hasKey_eq_false {k : Value} {l : List MapItem} :
    hasKey k l = false ↔ ∀ x ∈ l, x.key ≠ k := by
  simp [hasKey]

theorem lookupBy_of_first {α : Type} {p : α → Bool} {l : List α} {i : Nat} {x : α}
    (h1 : l[i]? = some x) (h2 : p x = true)
    (h3 : ∀ j y, j < i → l[j]? = some y → p y = false) : lookupBy p l = some (i, x) := by
  induction l generalizing i with
  | nil => simp at h1
  | cons a rest ih =>
    cases i with
    | zero =>
      simp only [List.getElem?_cons_zero, Option.some.injEq] at h1
      subst h1
      simp [lookupBy, h2]
    | succ j =>
      have ha : p a = false := h3 0 a (by omega) (by simp)
      simp only [List.getElem?_cons_succ] at h1
      have := ih h1 fun j2 y hj hy => h3 (j2 + 1) y (by omega) (by simpa using hy)
      simp [lookupBy, ha, this]

theorem setMapItemValue_map_label (l : List MapItem) (i : Nat) (v : Value) :
    (setMapItemValue l i v).map MapItem.label = l.map MapItem.label := by
  apply List.ext_getElem?
  intro j
  simp only [List.getElem?_map]
  exact setMapItemValue_key_comment l i v j

theorem hasKey_setMapItemValue (k : Value) (l : List MapItem) (i : Nat) (v : Value) :
    hasKey k (setMapItemValue l i v) = hasKey k l := by
  have h := setMapItemValue_map_label l i v
  have h2 : ∀ m : List MapItem, hasKey k m = (m.map MapItem.label).any fun p => decide (p.1 = k) := by
    intro m
    induction m with
    | nil => rfl
    | cons a rest ih =>
      simp only [hasKey, List.any_cons, List.map_cons, MapItem.label] at ih ⊢
      rw [ih]
  rw [h2, h2, h]

theorem mergeMapSlicesLoop_append (mergedSlice pre post : List MapItem) :
    mergeMapSlicesLoop mergedSlice (pre ++ post) =
      (mergeMapSlicesLoop mergedSlice pre).bind fun m => mergeMapSlicesLoop m post := by
  induction pre generalizing mergedSlice with
  | nil => simp [mergeMapSlicesLoop]
  | cons f rest ih =>
    obtain ⟨fk, fv, fc⟩ := f
    simp only [List.cons_append]
    rw [mergeMapSlicesLoop, mergeMapSlicesLoop]
    split
    · rfl
    · exact ih _
    · split
      · rfl
      · exact ih _

theorem mergeMapSlicesLoop_take {fixedSlice mergedSlice r : List MapItem}
    (h : mergeMapSlicesLoop mergedSlice fixedSlice = some r) :
    mergedSlice.length ≤ r.length ∧
      (r.take mergedSlice.length).map MapItem.label = mergedSlice.map MapItem.label := by
  induction fixedSlice generalizing mergedSlice with
  | nil =>
    simp only [mergeMapSlicesLoop, Option.some.injEq] at h
    subst h
    simp
  | cons f rest ih =>
    obtain ⟨fk, fv, fc⟩ := f
    rw [mergeMapSlicesLoop] at h
    split at h
    · cases h
    · obtain ⟨h1, h2⟩ := ih h
      simp only [List.length_append, List.length_singleton] at h1 h2
      refine ⟨by omega, ?_⟩
      have h3 := congrArg (List.take mergedSlice.length) h2
      simp only [← List.map_take, List.take_take, List.take_append_eq_append_take,
        List.take_length, Nat.sub_self, List.take_zero, List.append_nil] at h3
      rw [Nat.min_eq_left (by omega)] at h3
      simpa using h3
    · split at h
      · cases h
      · obtain ⟨h1, h2⟩ := ih h
        rw [setMapItemValue_length] at h1 h2
        rw [setMapItemValue_map_label] at h2
        exact ⟨h1, h2⟩

/-- An item with a scalar key is left as it is by the fixed items that have another key. -/
theorem mergeMapSlicesLoop_untouched {fixedSlice mergedSlice r : List MapItem} {j : Nat}
    {x : MapItem} (hx : mergedSlice[j]? = some x) (hk : x.key.isContainer = false)
    (hf : ∀ f ∈ fixedSlice, f.key ≠ x.key)
    (h : mergeMapSlicesLoop mergedSlice fixedSlice = some r) : r[j]? = some x := by
  induction fixedSlice generalizing mergedSlice with
  | nil =>
    simp only [mergeMapSlicesLoop, Option.some.injEq] at h
    subst h
    exact hx
  | cons f rest ih =>
    obtain ⟨fk, fv, fc⟩ := f
    have hf2 : ∀ f ∈ rest, f.key ≠ x.key := fun f hf3 => hf f (List.mem_cons_of_mem _ hf3)
    have hfk : fk ≠ x.key := hf _ (List.mem_cons_self _ _)
    rw [mergeMapSlicesLoop] at h
    split at h
    · cases h
    · refine ih ?_ hf2 h
      rw [List.getElem?_append_left (List.getElem?_eq_some.1 hx).1]
      exact hx
    · next i y hy =>
      split at h
      · cases h
      · refine ih ?_ hf2 h
        obtain ⟨hy1, -, hy3⟩ := findItemInMapSliceWith_spec hy
        have hij : i ≠ j := by
          rintro rfl
          rw [hx] at hy1
          cases hy1
          exact hfk (eq_of_deepEqual_left hk hy3).symm
        rw [setMapItemValue_getElem?_ne _ _ hij]
        exact hx

/-! ## C4: keys that fixed introduces -/

theorem mergeMapSlices_eq_some {origSlice fixedSlice r : List MapItem}
    (h : mergeMapSlices origSlice fixedSlice = some r) :
    ∃ kept, retainMapItems fixedSlice origSlice = some kept ∧
      mergeMapSlicesLoop kept fixedSlice = some r := by
  unfold mergeMapSlices at h
  split at h
  · cases h
  · next kept hkept => exact ⟨kept, hkept, h⟩

/-- C4 (amended): a scalar key that occurs in `fixed` on one entry only, and not in `orig`, is
in `mergeMapSlices(orig, fixed)` on that very entry of `fixed` (key, value and comment), at an
index after the entries retained from `orig`, which are the first entries of the result. -/
theorem mergeMapSlices_adds_new_key (origSlice pre post r : List MapItem) (f : MapItem)
    (hscalar : f.key.isContainer = false)
    (honce : ∀ x ∈ pre ++ post, x.key ≠ f.key)
    (horig : ∀ e ∈ origSlice, e.key ≠ f.key)
    (hr : mergeMapSlices origSlice (pre ++ f :: post) = some r) :
    ∃ kept i, retainMapItems (pre ++ f :: post) origSlice = some kept ∧
      (r.take kept.length).map MapItem.label = kept.map MapItem.label ∧
      kept.length ≤ i ∧ r[i]? = some f := by
  obtain ⟨kept, hkept, hloop⟩ := mergeMapSlices_eq_some hr
  refine ⟨kept, ?_⟩
  have hpre := (mergeMapSlicesLoop_take hloop).2
  rw [mergeMapSlicesLoop_append] at hloop
  cases h1 : mergeMapSlicesLoop kept pre with
  | none => simp [h1] at hloop
  | some m1 =>
    simp only [h1, Option.some_bind] at hloop
    have hnot : ∀ x ∈ m1, x.key ≠ f.key := by
      intro x hx
      rcases mergeMapSlicesLoop_key_mem h1 hx with ⟨y, hy, hyx⟩ | ⟨g, hg, hgx⟩
      · rw [← hyx]
        exact horig y (mem_retainMapItems hkept hy).1
      · rw [← hgx]
        exact honce g (List.mem_append_left _ hg)
    obtain ⟨fk, fv, fc⟩ := f
    rw [mergeMapSlicesLoop] at hloop
    have hfind : findItemInMapSlice fk m1 = some none :=
      findItemInMapSlice_none_of_not_mem hscalar hnot
    simp only [hfind] at hloop
    refine ⟨m1.length, hkept, hpre, (mergeMapSlicesLoop_take h1).1, ?_⟩
    exact mergeMapSlicesLoop_untouched (by simp) hscalar
      (fun g hg => honce g (List.mem_append_right _ hg)) hloop

/-- The new key `b` of `fixed` comes after the retained comment and key `a`. -/
theorem mergeMapSlices_adds_new_key_witness :
    ∃ kept i,
      retainMapItems ([.mk (.str "a") (.int 2) ""] ++ .mk (.str "b") (.int 3) "" :: [])
        [.mk .null .null "note", .mk (.str "a") (.int 1) "c"] = some kept ∧
      (List.take kept.length
          [MapItem.mk .null .null "note", .mk (.str "a") (.int 2) "c",
            .mk (.str "b") (.int 3) ""]).map MapItem.label = kept.map MapItem.label ∧
      kept.length ≤ i ∧
      [MapItem.mk .null .null "note", .mk (.str "a") (.int 2) "c",
        .mk (.str "b") (.int 3) ""][i]? = some (.mk (.str "b") (.int 3) "") :=
  mergeMapSlices_adds_new_key [.mk .null .null "note", .mk (.str "a") (.int 1) "c"]
    [.mk (.str "a") (.int 2) ""] [] _ (.mk (.str "b") (.int 3) "") (by decide) (by decide)
    (by decide) (by decide)

/-- C4 fails where the new key occurs twice in `fixed`: the second entry is merged into the
first, and the value of `k` in the result is a value that `fixed` gives to `k` nowhere. -/
theorem mergeMapSlices_new_key_twice :
    mergeMapSlices []
        [.mk (.str "k") (.mapSlice [.mk (.str "a") (.int 1) "", .mk (.str "b") (.int 2) ""]) "",
         .mk (.str "k") (.mapSlice [.mk (.str "b") (.int 3) "", .mk (.str "a") (.int 1) ""]) ""]
      = some [.mk (.str "k")
          (.mapSlice [.mk (.str "a") (.int 1) "", .mk (.str "b") (.int 3) ""]) ""] ∧
    ∀ f ∈ [MapItem.mk (.str "k")
            (.mapSlice [.mk (.str "a") (.int 1) "", .mk (.str "b") (.int 2) ""]) "",
          .mk (.str "k") (.mapSlice [.mk (.str "b") (.int 3) "", .mk (.str "a") (.int 1) ""]) ""],
      f.value ≠ .mapSlice [.mk (.str "a") (.int 1) "", .mk (.str "b") (.int 3) ""] := by
  decide

/-! ## C5: the order of the merged mapping -/

theorem findItemInMapSliceWith_eq_lookupBy_of_mem (eq : Value → Value → Option Bool)
    (key : Value) (p : MapItem → Bool) (l : List MapItem)
    (h : ∀ x ∈ l, eq x.key key = some (p x)) :
    findItemInMapSliceWith eq key l = some (lookupBy (fun x => !x.key.isNil && p x) l) := by
  induction l with
  | nil => rfl
  | cons a rest ih =>
    have ih2 := ih fun x hx => h x (List.mem_cons_of_mem _ hx)
    simp only [findItemInMapSliceWith, ih2, h a (List.mem_cons_self _ _), lookupBy,
      shiftFound_some]
    split
    · next hn => simp [hn]
    · next hn =>
      simp only [Bool.not_eq_true] at hn
      by_cases hp : p a = true
      · simp [hn, hp]
      · simp only [Bool.not_eq_true] at hp
        simp [hn, hp]

theorem MapItem.key_mk (k v : Value) (c : String) : (MapItem.mk k v c).key = k := rfl

theorem MapItem.value_mk (k v : Value) (c : String) : (MapItem.mk k v c).value = v := rfl

theorem MapItem.comment_mk (k v : Value) (c : String) : (MapItem.mk k v c).comment = c := rfl

theorem any_congr_of_mem {α : Type} {p q : α → Bool} {l : List α} (h : ∀ x ∈ l, p x = q x) :
    l.any p = l.any q := by
  induction l with
  | nil => rfl
  | cons a rest ih =>
    simp only [List.any_cons, h a (List.mem_cons_self _ _),
      ih fun x hx => h x (List.mem_cons_of_mem _ hx)]

theorem lookupBy_isSome {α : Type} (p : α → Bool) (l : List α) :
    (lookupBy p l).isSome = l.any p := by
  induction l with
  | nil => rfl
  | cons a rest ih =>
    cases hp : p a <;> simp [lookupBy, hp, ← ih]

/-- In a slice whose keys are non-nil scalars, a key is found exactly when an item has it. -/
theorem findItemInMapSlice_isSome_of_comparable {fixedSlice : List MapItem}
    (hkeys : ∀ f ∈ fixedSlice, f.key.isComparable = true ∧ f.key ≠ .null) (key : Value) :
    ∃ found, findItemInMapSlice key fixedSlice = some found ∧
      found.isSome = hasKey key fixedSlice := by
  refine ⟨_, findItemInMapSliceWith_eq_lookupBy_of_mem deepEqual key
    (fun x => decide (x.key = key)) fixedSlice
    (fun x hx => deepEqual_comparable_left (hkeys x hx).1 key), ?_⟩
  rw [lookupBy_isSome, hasKey]
  apply any_congr_of_mem
  intro x hx
  have hn := (hkeys x hx).2
  have hnil : x.key.isNil = false := by
    cases hk : x.key <;> first | rfl | exact absurd hk hn
  simp [hnil]

theorem retainMapItems_eq_filter {fixedSlice : List MapItem}
    (hkeys : ∀ f ∈ fixedSlice, f.key.isComparable = true ∧ f.key ≠ .null)
    (origSlice : List MapItem) :
    retainMapItems fixedSlice origSlice =
      some (origSlice.filter fun e => hasKey e.key fixedSlice || e.isComment) := by
  induction origSlice with
  | nil => rfl
  | cons a rest ih =>
    obtain ⟨found, h1, h2⟩ := findItemInMapSlice_isSome_of_comparable hkeys a.key
    simp only [retainMapItems, h1, ih, h2, List.filter_cons]

theorem mergeMapSlicesLoop_labels {fixedSlice mergedSlice r : List MapItem}
    (hkeys : ∀ f ∈ fixedSlice, f.key.isComparable = true ∧ f.key ≠ .null)
    (hnodup : (fixedSlice.map MapItem.key).Nodup)
    (h : mergeMapSlicesLoop mergedSlice fixedSlice = some r) :
    r.map MapItem.label = mergedSlice.map MapItem.label ++
      (fixedSlice.filter fun f => !hasKey f.key mergedSlice).map MapItem.label := by
  induction fixedSlice generalizing mergedSlice with
  | nil =>
    simp only [mergeMapSlicesLoop, Option.some.injEq] at h
    subst h
    simp
  | cons f rest ih =>
    obtain ⟨fk, fv, fc⟩ := f
    have hkeys2 : ∀ f ∈ rest, f.key.isComparable = true ∧ f.key ≠ .null :=
      fun f hf => hkeys f (List.mem_cons_of_mem _ hf)
    simp only [List.map_cons, List.nodup_cons, List.mem_map, not_exists, not_and,
      MapItem.key_mk] at hnodup
    obtain ⟨hfresh, hnodup2⟩ := hnodup
    obtain ⟨hc, hn⟩ := hkeys _ (List.mem_cons_self _ _)
    rw [MapItem.key_mk] at hc hn
    rw [mergeMapSlicesLoop, findItemInMapSlice_comparable hc hn] at h
    cases hl : lookupBy (fun x => decide (x.key = fk)) mergedSlice with
    | none =>
      have hhas : hasKey fk mergedSlice = false := by
        rw [hasKey, ← lookupBy_isSome, hl]
        rfl
      simp only [hl] at h
      rw [ih hkeys2 hnodup2 h]
      have hfilter : (rest.filter fun g => !hasKey g.key (mergedSlice ++ [.mk fk fv fc])) =
          rest.filter fun g => !hasKey g.key mergedSlice := by
        apply List.filter_congr
        intro g hg
        have hne : fk ≠ g.key := fun he => hfresh g hg he.symm
        simp [hasKey, MapItem.key_mk, hne]
      rw [hfilter]
      simp [List.filter_cons, MapItem.key_mk, hhas]
    | some found =>
      obtain ⟨i, y⟩ := found
      have hhas : hasKey fk mergedSlice = true := by
        rw [hasKey, ← lookupBy_isSome, hl]
        rfl
      simp only [hl] at h
      split at h
      · cases h
      · next v hv =>
        rw [ih hkeys2 hnodup2 h, setMapItemValue_map_label]
        have hfilter : (rest.filter fun g => !hasKey g.key (setMapItemValue mergedSlice i v)) =
            rest.filter fun g => !hasKey g.key mergedSlice := by
          apply List.filter_congr
          intro g hg
          rw [hasKey_setMapItemValue]
        rw [hfilter]
        simp [List.filter_cons, MapItem.key_mk, hhas]

/-- C5 (amended): when the keys of `fixed` are non-nil scalars, pairwise distinct, the entries of
`mergeMapSlices(orig, fixed)`, read by key and comment, are the entries of `orig` that are
standalone comments or whose key exists in `fixed`, in the order of `orig`, followed by the
entries of `fixed` whose key does not exist in `orig`, in the order of `fixed`. -/
theorem mergeMapSlices_labels (origSlice fixedSlice r : List MapItem)
    (hkeys : ∀ f ∈ fixedSlice, f.key.isComparable = true ∧ f.key ≠ .null)
    (hnodup : (fixedSlice.map MapItem.key).Nodup)
    (hr : mergeMapSlices origSlice fixedSlice = some r) :
    r.map MapItem.label =
      (origSlice.filter fun e => hasKey e.key fixedSlice || e.isComment).map MapItem.label ++
        (fixedSlice.filter fun f => !hasKey f.key origSlice).map MapItem.label := by
  obtain ⟨kept, hkept, hloop⟩ := mergeMapSlices_eq_some hr
  rw [retainMapItems_eq_filter hkeys] at hkept
  cases hkept
  rw [mergeMapSlicesLoop_labels hkeys hnodup hloop]
  congr 2
  apply List.filter_congr
  intro f hf
  congr 1
  rw [Bool.eq_iff_iff, hasKey_eq_true, hasKey_eq_true]
  constructor
  · rintro ⟨x, hx, hxk⟩
    exact ⟨x, (List.mem_filter.1 hx).1, hxk⟩
  · rintro ⟨x, hx, hxk⟩
    refine ⟨x, List.mem_filter.2 ⟨hx, ?_⟩, hxk⟩
    have : hasKey x.key fixedSlice = true := hasKey_eq_true.2 ⟨f, hf, hxk.symm⟩
    simp [this]

/-- The comment, `c` and `a` stay in the order of `orig` (`b` is dropped), `d` is appended. -/
theorem mergeMapSlices_labels_witness :
    [MapItem.mk .null .null "note", .mk (.str "c") (.int 1) "", .mk (.str "a") (.int 9) "x",
        .mk (.str "d") (.int 4) ""].map MapItem.label =
      ([MapItem.mk .null .null "note", .mk (.str "c") (.int 1) "", .mk (.str "b") (.int 2) "",
          .mk (.str "a") (.int 3) "x"].filter fun e =>
            hasKey e.key [.mk (.str "a") (.int 9) "", .mk (.str "d") (.int 4) "",
              .mk (.str "c") (.int 1) ""] || e.isComment).map MapItem.label ++
        ([MapItem.mk (.str "a") (.int 9) "", .mk (.str "d") (.int 4) "",
          .mk (.str "c") (.int 1) ""].filter fun f =>
            !hasKey f.key [.mk .null .null "note", .mk (.str "c") (.int 1) "",
              .mk (.str "b") (.int 2) "", .mk (.str "a") (.int 3) "x"]).map MapItem.label :=
  mergeMapSlices_labels _ _ _ (by decide) (by decide) (by decide)

/-- C5 fails where a new key occurs twice in `fixed`: it is appended once, not twice. -/
theorem mergeMapSlices_labels_duplicate_key :
    (mergeMapSlices [] [.mk (.str "k") (.int 1) "", .mk (.str "k") (.int 2) ""]).map
        (List.map MapItem.key) = some [.str "k"] ∧
      ([MapItem.mk (.str "k") (.int 1) "", .mk (.str "k") (.int 2) ""].filter fun f =>
        !hasKey f.key []).map MapItem.key = [.str "k", .str "k"] := by
  decide

/-! ## C6: the value of a key that both mappings have -/

theorem mergedMapItemValue_eq (key origValue fixedValue : Value) :
    mergedMapItemValue key origValue fixedValue =
      match origValue, fixedValue with
      | .mapSlice origMap, .mapSlice fixedMap =>
        (mergeMapSlices origMap fixedMap).map Value.mapSlice
      | .seq origSeq, .seq fixedSeq =>
        match key with
        | .str sequenceKey => (mergeSequences sequenceKey origSeq fixedSeq).map Value.seq
        | _ => none
      | _, v => some v := by
  cases fixedValue <;> cases origValue <;>
    simp only [mergedMapItemValue, mergeMapSlices, mergeSequences]
  case mapSlice.mapSlice fm om =>
    cases retainMapItems fm om <;> rfl
  case seq.seq fs os =>
    cases key <;> simp only []
    case str s =>
      cases retainSequenceItems s fs os <;> rfl

theorem retainMapItems_eq_filter_retainedBy {fixedSlice origSlice kept : List MapItem}
    (h : retainMapItems fixedSlice origSlice = some kept) :
    kept = origSlice.filter (retainedBy fixedSlice) := by
  induction origSlice generalizing kept with
  | nil =>
    simp only [retainMapItems, Option.some.injEq] at h
    subst h
    rfl
  | cons a rest ih =>
    unfold retainMapItems at h
    split at h
    · cases h
    · next found hfound =>
      split at h
      · cases h
      · next kept2 hkept2 =>
        simp only [Option.some.injEq] at h
        subst h
        rw [List.filter_cons, ← ih hkept2]
        have : retainedBy fixedSlice a = (found.isSome || a.isComment) := by
          unfold retainedBy
          rw [hfound]
          cases found <;> rfl
        rw [this]

theorem lookupBy_filter {α : Type} {p q : α → Bool} {l : List α} {i : Nat} {x : α}
    (h : lookupBy p l = some (i, x)) (hq : q x = true) :
    ∃ j, lookupBy p (l.filter q) = some (j, x) := by
  induction l generalizing i with
  | nil => simp [lookupBy] at h
  | cons a rest ih =>
    cases hp : p a
    · simp only [lookupBy, hp, Bool.false_eq_true, if_false, Option.map_eq_some'] at h
      obtain ⟨⟨j, y⟩, hj, hij⟩ := h
      simp only [Prod.mk.injEq] at hij
      obtain ⟨-, rfl⟩ := hij
      obtain ⟨j2, hj2⟩ := ih hj
      cases hqa : q a
      · exact ⟨j2, by simp [List.filter_cons, hqa, hj2]⟩
      · exact ⟨j2 + 1, by simp [List.filter_cons, hqa, lookupBy, hp, hj2]⟩
    · simp only [lookupBy, hp, if_true, Option.some.injEq, Prod.mk.injEq] at h
      obtain ⟨-, rfl⟩ := h
      exact ⟨0, by simp [List.filter_cons, hq, lookupBy, hp]⟩

theorem key_of_take_label {r m : List MapItem}
    (h : (r.take m.length).map MapItem.label = m.map MapItem.label) {j : Nat} {y : MapItem}
    (hj : j < m.length) (hy : r[j]? = some y) : ∃ x, m[j]? = some x ∧ x.key = y.key := by
  have h2 := congrArg (fun l => l[j]?) h
  simp only [List.getElem?_map, List.getElem?_take, hj, if_true, hy, Option.map_some'] at h2
  cases hm : m[j]? with
  | none => rw [hm] at h2; cases h2
  | some x =>
    rw [hm] at h2
    simp only [Option.map_some', Option.some.injEq, MapItem.label, Prod.mk.injEq] at h2
    exact ⟨x, rfl, h2.1.symm⟩

theorem lookupBy_key_of_take {k : Value} {m r : List MapItem} {i : Nat} {o x : MapItem}
    (hm : lookupBy (fun x => decide (x.key = k)) m = some (i, o))
    (hpre : (r.take m.length).map MapItem.label = m.map MapItem.label)
    (hx : r[i]? = some x) (hxk : x.key = k) :
    lookupBy (fun x => decide (x.key = k)) r = some (i, x) := by
  obtain ⟨h1, -, h3⟩ := lookupBy_eq_some hm
  have hi : i < m.length := (List.getElem?_eq_some.1 h1).1
  apply lookupBy_of_first hx (by simp [hxk])
  intro j y hj hy
  obtain ⟨z, hz, hzk⟩ := key_of_take_label hpre (by omega) hy
  have := h3 j z hj hz
  simpa [hzk] using this

/-- The entry of a key that `orig` has and that occurs once in `fixed`: the first entry of the
result with the key; it has the comment of `orig` and the value that lines 323-336 give. -/
theorem mergeMapSlices_entry_of_common_key (origSlice pre post r : List MapItem)
    (f o : MapItem) (i : Nat)
    (hc : f.key.isComparable = true) (hn : f.key ≠ .null)
    (honce : ∀ x ∈ pre ++ post, x.key ≠ f.key)
    (horig : lookupBy (fun x => decide (x.key = f.key)) origSlice = some (i, o))
    (hr : mergeMapSlices origSlice (pre ++ f :: post) = some r) :
    ∃ j e, lookupBy (fun x => decide (x.key = f.key)) r = some (j, e) ∧
      e.comment = o.comment ∧
      mergedMapItemValue f.key o.value f.value = some e.value := by
  obtain ⟨kept, hkept, hloop⟩ := mergeMapSlices_eq_some hr
  have htake := (mergeMapSlicesLoop_take hloop).2
  have hscalar := isContainer_of_isComparable hc
  have hok : o.key = f.key := by simpa using (lookupBy_eq_some horig).2.1
  -- the entry of `orig` is retained
  have hret : retainedBy (pre ++ f :: post) o = true := by
    unfold retainedBy
    rw [hok, findItemInMapSlice_comparable hc hn]
    obtain ⟨a, b, hab⟩ := lookupBy_isSome_of_mem (l := pre ++ f :: post)
      (p := fun x => decide (x.key = f.key)) (x := f) (by simp) (by simp)
    rw [hab]
    rfl
  rw [retainMapItems_eq_filter_retainedBy hkept] at hloop htake
  obtain ⟨j, hj⟩ := lookupBy_filter horig hret
  generalize origSlice.filter (retainedBy (pre ++ f :: post)) = kept2 at hloop htake hj
  have hj1 := (lookupBy_eq_some hj).1
  -- the fixed entries before `f` leave it alone
  rw [mergeMapSlicesLoop_append] at hloop
  cases h1 : mergeMapSlicesLoop kept2 pre with
  | none => simp [h1] at hloop
  | some m1 =>
    simp only [h1, Option.some_bind] at hloop
    have hm1 : m1[j]? = some o :=
      mergeMapSlicesLoop_untouched hj1 (by rw [hok]; exact hscalar)
        (fun g hg => by rw [hok]; exact honce g (List.mem_append_left _ hg)) h1
    have hlook1 := lookupBy_key_of_take hj (mergeMapSlicesLoop_take h1).2 hm1 hok
    obtain ⟨fk, fv, fc⟩ := f
    rw [MapItem.key_mk] at hc hn hok hlook1 honce hj
    rw [mergeMapSlicesLoop, findItemInMapSlice_comparable hc hn, hlook1] at hloop
    simp only [] at hloop
    cases hv : mergedMapItemValue o.key o.value fv with
    | none => simp [hv] at hloop
    | some v =>
      simp only [hv] at hloop
      have hm2 : (setMapItemValue m1 j v)[j]? = some (.mk o.key v o.comment) :=
        setMapItemValue_getElem?_eq m1 v hm1
      have hrj : r[j]? = some (.mk o.key v o.comment) :=
        mergeMapSlicesLoop_untouched hm2 (by rw [MapItem.key_mk, hok]; exact hscalar)
          (fun g hg => by
            rw [MapItem.key_mk, hok]; exact honce g (List.mem_append_right _ hg)) hloop
      refine ⟨j, .mk o.key v o.comment, ?_, rfl, ?_⟩
      · rw [MapItem.key_mk]
        exact lookupBy_key_of_take hj htake hrj (by rw [MapItem.key_mk, hok])
      · rw [MapItem.value_mk, MapItem.value_mk, MapItem.key_mk, ← hv, hok]

/-- C6 (amended): for a non-nil scalar key that `orig` has and that occurs in `fixed` on one
entry only, the entry of the key in `mergeMapSlices(orig, fixed)` keeps the comment of `orig`
and has for value: `mergeMapSlices` of the two values if both are mappings,
`mergeSequences(k, origValue, fixedValue)` if both are sequences (the key must then be a
string), and the value of `fixed` otherwise.  The entry of a key is the first one with it. -/
theorem mergeMapSlices_value_of_common_key (origSlice pre post r : List MapItem)
    (f o : MapItem) (i : Nat)
    (hc : f.key.isComparable = true) (hn : f.key ≠ .null)
    (honce : ∀ x ∈ pre ++ post, x.key ≠ f.key)
    (horig : lookupBy (fun x => decide (x.key = f.key)) origSlice = some (i, o))
    (hr : mergeMapSlices origSlice (pre ++ f :: post) = some r) :
    ∃ j e, lookupBy (fun x => decide (x.key = f.key)) r = some (j, e) ∧
      e.comment = o.comment ∧
      some e.value =
        match o.value, f.value with
        | .mapSlice origMap, .mapSlice fixedMap =>
          (mergeMapSlices origMap fixedMap).map Value.mapSlice
        | .seq origSeq, .seq fixedSeq =>
          match f.key with
          | .str sequenceKey => (mergeSequences sequenceKey origSeq fixedSeq).map Value.seq
          | _ => none
        | _, v => some v := by
  obtain ⟨j, e, h1, h2, h3⟩ :=
    mergeMapSlices_entry_of_common_key origSlice pre post r f o i hc hn honce horig hr
  exact ⟨j, e, h1, h2, by rw [← h3]; exact mergedMapItemValue_eq f.key o.value f.value⟩

/-- The mapping under `m` is merged (`x` updated), and the entry keeps its comment. -/
theorem mergeMapSlices_value_of_common_key_witness :
    ∃ j e,
      lookupBy (fun x => decide (x.key = (MapItem.mk (.str "m")
          (.mapSlice [.mk (.str "x") (.int 2) ""]) "").key))
        [MapItem.mk (.str "a") (.int 5) "c",
          .mk (.str "m") (.mapSlice [.mk (.str "x") (.int 2) "d"]) "e"] = some (j, e) ∧
      e.comment = (MapItem.mk (.str "m") (.mapSlice [.mk (.str "x") (.int 1) "d"]) "e").comment ∧
      some e.value =
        match (MapItem.mk (.str "m") (.mapSlice [.mk (.str "x") (.int 1) "d"]) "e").value,
          (MapItem.mk (.str "m") (.mapSlice [.mk (.str "x") (.int 2) ""]) "").value with
        | .mapSlice origMap, .mapSlice fixedMap =>
          (mergeMapSlices origMap fixedMap).map Value.mapSlice
        | .seq origSeq, .seq fixedSeq =>
          match (MapItem.mk (.str "m") (.mapSlice [.mk (.str "x") (.int 2) ""]) "").key with
          | .str sequenceKey => (mergeSequences sequenceKey origSeq fixedSeq).map Value.seq
          | _ => none
        | _, v => some v :=
  mergeMapSlices_value_of_common_key
    [.mk (.str "a") (.int 1) "c", .mk (.str "m") (.mapSlice [.mk (.str "x") (.int 1) "d"]) "e"]
    [] [.mk (.str "a") (.int 5) ""] _ _ _ 1 (by decide) (by decide) (by decide) (by decide)
    (by decide)

/-- C6 fails where the key occurs twice in `fixed`: both entries are merged in turn into the
entry of `orig`, and the value of `k` in the result is `mergeMapSlices` of the value of `orig`
with neither of the two values of `fixed`. -/
theorem mergeMapSlices_common_key_twice :
    mergeMapSlices [.mk (.str "k") (.mapSlice [.mk (.str "a") (.int 1) ""]) ""]
        [.mk (.str "k") (.mapSlice [.mk (.str "a") (.int 1) "", .mk (.str "b") (.int 2) "",
            .mk (.str "c") (.int 3) ""]) "",
         .mk (.str "k") (.mapSlice [.mk (.str "c") (.int 4) "", .mk (.str "b") (.int 2) "",
            .mk (.str "a") (.int 1) ""]) ""]
      = some [.mk (.str "k") (.mapSlice [.mk (.str "a") (.int 1) "", .mk (.str "b") (.int 2) "",
            .mk (.str "c") (.int 4) ""]) ""] ∧
    mergeMapSlices [.mk (.str "a") (.int 1) ""]
        [.mk (.str "a") (.int 1) "", .mk (.str "b") (.int 2) "", .mk (.str "c") (.int 3) ""]
      = some [.mk (.str "a") (.int 1) "", .mk (.str "b") (.int 2) "",
          .mk (.str "c") (.int 3) ""] ∧
    mergeMapSlices [.mk (.str "a") (.int 1) ""]
        [.mk (.str "c") (.int 4) "", .mk (.str "b") (.int 2) "", .mk (.str "a") (.int 1) ""]
      = some [.mk (.str "a") (.int 1) "", .mk (.str "c") (.int 4) "",
          .mk (.str "b") (.int 2) ""] := by
  decide

theorem mergedMapItemValue_of_not_container (key : Value) {v : Value}
    (h : v.isContainer = false) (origValue : Value) :
    mergedMapItemValue key origValue v = some v := by
  cases v <;> simp [Value.isContainer] at h <;> simp [mergedMapItemValue]

/-! ## C9: the merge of sequences -/

theorem sequenceItemMatch_nil_right (sequenceKey : String) (val item : SequenceItem)
    (h : item.value.isNil = true) : sequenceItemMatch sequenceKey val item ≠ some true := by
  obtain ⟨v, c⟩ := item
  cases v <;> simp [SequenceItem.value, Value.isNil] at h
  obtain ⟨w, d⟩ := val
  cases w <;> simp [sequenceItemMatch, SequenceItem.value, goEq]

theorem findItemInSequence_eq_some {sequenceKey : String} {val : SequenceItem}
    {l : List SequenceItem} {found : Option (Nat × SequenceItem)}
    (h : findItemInSequence sequenceKey val l = some found) :
    found = lookupBy (identityMatch sequenceKey val) l := by
  induction l generalizing found with
  | nil =>
    simp only [findItemInSequence, Option.some.injEq] at h
    subst h
    rfl
  | cons a rest ih =>
    unfold findItemInSequence at h
    split at h
    · next hnil =>
      have hm : identityMatch sequenceKey val a = false := by
        simp only [identityMatch, decide_eq_false_iff_not]
        exact sequenceItemMatch_nil_right sequenceKey val a hnil
      cases hrec : findItemInSequence sequenceKey val rest with
      | none => rw [hrec] at h; cases h
      | some found2 =>
        rw [hrec, shiftFound_some] at h
        simp only [Option.some.injEq] at h
        subst h
        simp [lookupBy, hm, ih hrec]
    · split at h
      · cases h
      · next hmatch =>
        simp only [Option.some.injEq] at h
        subst h
        simp [lookupBy, identityMatch, hmatch]
      · next hmatch =>
        have hm : identityMatch sequenceKey val a = false := by
          simp [identityMatch, hmatch]
        cases hrec : findItemInSequence sequenceKey val rest with
        | none => rw [hrec] at h; cases h
        | some found2 =>
          rw [hrec, shiftFound_some] at h
          simp only [Option.some.injEq] at h
          subst h
          simp [lookupBy, hm, ih hrec]

theorem retainSequenceItems_eq_filter {sequenceKey : String}
    {fixedSlice origSlice kept : List SequenceItem}
    (h : retainSequenceItems sequenceKey fixedSlice origSlice = some kept) :
    kept = origSlice.filter fun o =>
      o.isComment || fixedSlice.any (identityMatch sequenceKey o) := by
  induction origSlice generalizing kept with
  | nil =>
    simp only [retainSequenceItems, Option.some.injEq] at h
    subst h
    rfl
  | cons a rest ih =>
    unfold retainSequenceItems at h
    split at h
    · cases h
    · next found hfound =>
      split at h
      · cases h
      · next kept2 hkept2 =>
        simp only [Option.some.injEq] at h
        subst h
        rw [List.filter_cons, ← ih hkept2, findItemInSequence_eq_some hfound, lookupBy_isSome,
          Bool.or_comm]

theorem SequenceItem.value_mk_seq (v : Value) (c : String) : (SequenceItem.mk v c).value = v := rfl

theorem mergedSequenceItemValue_eq (origValue fixedValue : Value) :
    mergedSequenceItemValue origValue fixedValue = updateFromFixed origValue fixedValue := by
  cases fixedValue <;> cases origValue <;>
    simp only [mergedSequenceItemValue, updateFromFixed, mergeMapSlices]
  case mapSlice.mapSlice fm om =>
    cases retainMapItems fm om <;> rfl

theorem setSequenceItemValue_eq_set {l : List SequenceItem} {i : Nat} {m : SequenceItem}
    (h : l[i]? = some m) (v : Value) :
    setSequenceItemValue l i v = l.set i (.mk v m.comment) := by
  obtain ⟨w, c⟩ := m
  simp [setSequenceItemValue, h, SequenceItem.comment]

theorem mergeSequencesLoop_eq_foldlM {sequenceKey : String}
    {fixedSlice mergedSlice r : List SequenceItem}
    (h : mergeSequencesLoop sequenceKey mergedSlice fixedSlice = some r) :
    fixedSlice.foldlM (mergeSequenceStep sequenceKey) mergedSlice = some r := by
  induction fixedSlice generalizing mergedSlice with
  | nil =>
    simp only [mergeSequencesLoop, Option.some.injEq] at h
    subst h
    rfl
  | cons f rest ih =>
    obtain ⟨fv, fc⟩ := f
    rw [mergeSequencesLoop] at h
    simp only [List.foldlM_cons]
    split at h
    · cases h
    · next hfind =>
      have hl := findItemInSequence_eq_some hfind
      simp only [mergeSequenceStep, ← hl]
      exact ih h
    · next i m hfind =>
      have hl := findItemInSequence_eq_some hfind
      have hm := (lookupBy_eq_some hl.symm).1
      split at h
      · cases h
      · next v hv =>
        rw [mergedSequenceItemValue_eq] at hv
        rw [setSequenceItemValue_eq_set hm] at h
        simp only [mergeSequenceStep, ← hl, SequenceItem.value_mk_seq, hv, Option.map_some']
        exact ih h

/-- C9 (amended): a result of `mergeSequences` is the items of `orig` that are standalone
comments or have an identity match in `fixed`, in the order of `orig`, into which the items of
`fixed` are taken in order: a fixed item updates the first item that it matches in the result
built so far (two mappings are merged by `mergeMapSlices`, any other value is replaced, the
comment stays), and is appended when it matches none.  In particular the `containers` example
gives `[{name: b, x: 20}, {name: c, x: 3}]`. -/
theorem mergeSequences_refines_spec :
    (∀ (sequenceKey : String) (origSlice fixedSlice r : List SequenceItem),
      mergeSequences sequenceKey origSlice fixedSlice = some r →
        mergeSequenceSpec sequenceKey origSlice fixedSlice = some r) ∧
    mergeSequences "containers"
        [.mk (.mapSlice [.mk (.str "name") (.str "a") "", .mk (.str "x") (.int 1) ""]) "",
         .mk (.mapSlice [.mk (.str "name") (.str "b") "", .mk (.str "x") (.int 2) ""]) ""]
        [.mk (.mapSlice [.mk (.str "name") (.str "b") "", .mk (.str "x") (.int 20) ""]) "",
         .mk (.mapSlice [.mk (.str "name") (.str "c") "", .mk (.str "x") (.int 3) ""]) ""]
      = some
        [.mk (.mapSlice [.mk (.str "name") (.str "b") "", .mk (.str "x") (.int 20) ""]) "",
         .mk (.mapSlice [.mk (.str "name") (.str "c") "", .mk (.str "x") (.int 3) ""]) ""] := by
  refine ⟨?_, by decide⟩
  intro sequenceKey origSlice fixedSlice r h
  unfold mergeSequences at h
  split at h
  · cases h
  · next kept hkept =>
    rw [mergeSequenceSpec, ← retainSequenceItems_eq_filter hkept]
    exact mergeSequencesLoop_eq_foldlM h

/-- The `volumeMounts` of the original keep their order and comments; `/tmp` is appended. -/
theorem mergeSequences_refines_spec_witness :
    mergeSequences "volumeMounts"
        [.mk .null "mounts", .mk (.mapSlice [.mk (.str "mountPath") (.str "/data") ""]) "d"]
        [.mk (.mapSlice [.mk (.str "mountPath") (.str "/tmp") ""]) "",
         .mk (.mapSlice [.mk (.str "mountPath") (.str "/data") "",
           .mk (.str "readOnly") (.bool true) ""]) ""]
      = some [.mk .null "mounts",
          .mk (.mapSlice [.mk (.str "mountPath") (.str "/data") "",
            .mk (.str "readOnly") (.bool true) ""]) "d",
          .mk (.mapSlice [.mk (.str "mountPath") (.str "/tmp") ""]) ""] ∧
    mergeSequenceSpec "volumeMounts"
        [.mk .null "mounts", .mk (.mapSlice [.mk (.str "mountPath") (.str "/data") ""]) "d"]
        [.mk (.mapSlice [.mk (.str "mountPath") (.str "/tmp") ""]) "",
         .mk (.mapSlice [.mk (.str "mountPath") (.str "/data") "",
           .mk (.str "readOnly") (.bool true) ""]) ""]
      = some [.mk .null "mounts",
          .mk (.mapSlice [.mk (.str "mountPath") (.str "/data") "",
            .mk (.str "readOnly") (.bool true) ""]) "d",
          .mk (.mapSlice [.mk (.str "mountPath") (.str "/tmp") ""]) ""] :=
  ⟨by decide, mergeSequences_refines_spec.1 _ _ _ _ (by decide)⟩

/-- C9 fails for two fixed items of one identity that match no item of `orig`: the claim has
both follow the retained items, the code appends the first and merges the second into it. -/
theorem mergeSequences_two_new_items_one_identity :
    mergeSequences "ports" []
        [.mk (.mapSlice [.mk (.str "containerPort") (.int 53) "",
          .mk (.str "protocol") (.str "UDP") ""]) "",
         .mk (.mapSlice [.mk (.str "containerPort") (.int 53) "",
          .mk (.str "protocol") (.str "TCP") ""]) ""]
      = some [.mk (.mapSlice [.mk (.str "containerPort") (.int 53) "",
          .mk (.str "protocol") (.str "TCP") ""]) ""] ∧
    ([SequenceItem.mk (.mapSlice [.mk (.str "containerPort") (.int 53) "",
          .mk (.str "protocol") (.str "UDP") ""]) "",
        .mk (.mapSlice [.mk (.str "containerPort") (.int 53) "",
          .mk (.str "protocol") (.str "TCP") ""]) ""].filter fun f =>
        !([] : List SequenceItem).any (identityMatch "ports" f)).length = 2 := by
  decide

/-! ## C8: round trip on input that needs no fix -/

theorem mapSliceLoop_eq_true {eq : Value → Value → Option Bool} {map2 l : List MapItem}
    (h : mapSliceLoop eq map2 l = some true) {e : MapItem} (he : e ∈ l)
    (hcom : e.isComment = false) :
    ∃ i x, findItemInMapSliceWith eq e.key map2 = some (some (i, x)) ∧
      eq e.value x.value = some true := by
  induction l with
  | nil => cases he
  | cons a rest ih =>
    unfold mapSliceLoop at h
    split at h
    · next hca =>
      rcases List.mem_cons.1 he with rfl | he2
      · rw [hcom] at hca
        cases hca
      · exact ih h he2
    · split at h
      · cases h
      · cases h
      · next i x hfind =>
        split at h
        · cases h
        · cases h
        · next hval =>
          rcases List.mem_cons.1 he with rfl | he2
          · exact ⟨i, x, hfind, hval⟩
          · exact ih h he2

theorem mapSliceLoop_true_of_forall {map2 l : List MapItem}
    (h : ∀ e ∈ l, e.isComment = false →
      e.key.isComparable = true ∧ e.key ≠ .null ∧ (∃ x ∈ map2, x.key = e.key) ∧
        ∀ x ∈ map2, x.key = e.key → deepEqual e.value x.value = some true) :
    mapSliceLoop deepEqual map2 l = some true := by
  induction l with
  | nil => rfl
  | cons e rest ih =>
    have ih2 := ih fun x hx => h x (List.mem_cons_of_mem _ hx)
    cases hcom : e.isComment
    · obtain ⟨hc, hn, ⟨x, hx, hxk⟩, hall⟩ := h e (List.mem_cons_self _ _) hcom
      have hfind : findItemInMapSliceWith deepEqual e.key map2 = _ :=
        findItemInMapSlice_comparable hc hn map2
      obtain ⟨i, y, hy⟩ := lookupBy_isSome_of_mem (p := fun x => decide (x.key = e.key)) hx
        (by simp [hxk])
      obtain ⟨hy1, hy2, -⟩ := lookupBy_eq_some hy
      have hyk : y.key = e.key := by simpa using hy2
      simp only [mapSliceLoop, hcom, hfind, hy, hall y (List.getElem?_mem hy1) hyk, ih2]
      simp
    · simp only [mapSliceLoop, hcom, ih2]
      simp

theorem index_eq_of_nodup_filter_map {α β : Type} {p : α → Bool} {g : α → β} {l : List α}
    (h : ((l.filter p).map g).Nodup) {i j : Nat} {a b : α} (ha : l[i]? = some a)
    (hb : l[j]? = some b) (hpa : p a = true) (hpb : p b = true) (hab : g a = g b) : i = j := by
  induction l generalizing i j with
  | nil => simp at ha
  | cons c rest ih =>
    have htail : ((rest.filter p).map g).Nodup := by
      cases hpc : p c
      · simpa [List.filter_cons, hpc] using h
      · simp only [List.filter_cons, hpc, if_true, List.map_cons, List.nodup_cons] at h
        exact h.2
    cases i with
    | zero =>
      cases j with
      | zero => rfl
      | succ j2 =>
        simp only [List.getElem?_cons_zero, Option.some.injEq] at ha
        simp only [List.getElem?_cons_succ] at hb
        subst ha
        simp only [List.filter_cons, hpa, if_true, List.map_cons, List.nodup_cons] at h
        exact absurd (List.mem_map.2 ⟨b, List.mem_filter.2 ⟨List.getElem?_mem hb, hpb⟩,
          hab.symm⟩) h.1
    | succ i2 =>
      cases j with
      | zero =>
        simp only [List.getElem?_cons_zero, Option.some.injEq] at hb
        simp only [List.getElem?_cons_succ] at ha
        subst hb
        simp only [List.filter_cons, hpb, if_true, List.map_cons, List.nodup_cons] at h
        exact absurd (List.mem_map.2 ⟨a, List.mem_filter.2 ⟨List.getElem?_mem ha, hpa⟩,
          hab⟩) h.1
      | succ j2 =>
        simp only [List.getElem?_cons_succ] at ha hb
        rw [ih htail ha hb]

theorem eq_of_nodup_map_key {l : List MapItem} (h : (l.map MapItem.key).Nodup) {a b : MapItem}
    (ha : a ∈ l) (hb : b ∈ l) (hab : a.key = b.key) : a = b :=
  List.inj_on_of_nodup_map h ha hb hab

/-- What `deepEqual(orig, fixed) = true` says about the keys, when the entries of `fixed` have
distinct non-nil scalar keys and are no comments, and the keys of `orig` are distinct. -/
theorem keys_of_deepEqual_true {origSlice fixedSlice : List MapItem}
    (hfixed : ∀ f ∈ fixedSlice,
      f.key.isComparable = true ∧ f.key ≠ .null ∧ f.isComment = false)
    (hnodupO : ((semanticEntries origSlice).map Prod.fst).Nodup)
    (heq : deepEqual (.mapSlice origSlice) (.mapSlice fixedSlice) = some true) :
    (∀ o ∈ origSlice, o.isComment = false →
      ∃ f ∈ fixedSlice, f.key = o.key ∧ deepEqual o.value f.value = some true) ∧
    ∀ f ∈ fixedSlice, ∃ o ∈ origSlice, o.isComment = false ∧ o.key = f.key := by
  rw [deepEqual_mapSlice] at heq
  split at heq
  · cases heq
  · next hnum =>
    simp only [ne_eq, not_not] at hnum
    have h1 : ∀ o ∈ origSlice, o.isComment = false →
        ∃ f ∈ fixedSlice, f.key = o.key ∧ deepEqual o.value f.value = some true := by
      intro o ho hcom
      obtain ⟨i, x, hfind, hval⟩ := mapSliceLoop_eq_true heq ho hcom
      obtain ⟨hx1, -, hx3⟩ := findItemInMapSliceWith_spec hfind
      have hxm := List.getElem?_mem hx1
      rw [deepEqual_comparable_left (hfixed x hxm).1] at hx3
      exact ⟨x, hxm, by simpa using hx3, hval⟩
    refine ⟨h1, ?_⟩
    have hsub : (semanticEntries origSlice).map Prod.fst ⊆ fixedSlice.map MapItem.key := by
      intro k hk
      obtain ⟨⟨k2, v⟩, hkv, rfl⟩ := List.mem_map.1 hk
      obtain ⟨o, ho, hcom, rfl, -⟩ := mem_semanticEntries.1 hkv
      obtain ⟨f, hf, hfk, -⟩ := h1 o ho hcom
      exact List.mem_map.2 ⟨f, hf, hfk⟩
    have hlen : (fixedSlice.map MapItem.key).length ≤
        ((semanticEntries origSlice).map Prod.fst).length := by
      have hall : fixedSlice.filter (fun e => !e.isComment) = fixedSlice := by
        apply List.filter_eq_self.2
        intro f hf
        simp [(hfixed f hf).2.2]
      rw [List.length_map, List.length_map, ← numValues_eq_length, hnum, numValues, hall]
    have hperm := (List.subperm_of_subset hnodupO hsub).perm_of_length_le hlen
    intro f hf
    have hmem := hperm.mem_iff.2 (List.mem_map.2 ⟨f, hf, rfl⟩)
    obtain ⟨⟨k2, v⟩, hkv, hk⟩ := List.mem_map.1 hmem
    obtain ⟨o, ho, hcom, hok, -⟩ := mem_semanticEntries.1 hkv
    exact ⟨o, ho, hcom, hok.trans hk⟩

theorem semanticEntries_map_fst (l : List MapItem) :
    (semanticEntries l).map Prod.fst = (l.filter fun e => !e.isComment).map MapItem.key := by
  simp [semanticEntries, Function.comp_def]

theorem deepEqual_symm_of_not_container {a b : Value} (ha : a.isContainer = false)
    (h : deepEqual a b = some true) : b = a ∧ deepEqual b a = some true := by
  have hab := eq_of_deepEqual_left ha h
  subst hab
  exact ⟨rfl, h⟩

theorem mergeMapSlicesLoop_round_trip {origSlice fixedSlice : List MapItem}
    (hfixed : ∀ f ∈ fixedSlice,
      f.key.isComparable = true ∧ f.key ≠ .null ∧ f.isComment = false)
    (hnodupF : (fixedSlice.map MapItem.key).Nodup)
    (hnodupO : ((semanticEntries origSlice).map Prod.fst).Nodup)
    (h1 : ∀ o ∈ origSlice, o.isComment = false →
      ∃ f ∈ fixedSlice, f.key = o.key ∧ deepEqual o.value f.value = some true)
    (h2 : ∀ f ∈ fixedSlice, ∃ o ∈ origSlice, o.isComment = false ∧ o.key = f.key)
    (hnested : ∀ o ∈ origSlice, ∀ f ∈ fixedSlice, o.key = f.key → o.value.isContainer = true →
      ∃ v, mergedMapItemValue f.key o.value f.value = some v ∧
        deepEqual v o.value = some true)
    (rest mergedSlice : List MapItem) (hrest : ∀ f ∈ rest, f ∈ fixedSlice)
    (hnodupR : (rest.map MapItem.key).Nodup)
    (hinv : RoundTripInv origSlice mergedSlice rest) :
    ∃ r, mergeMapSlicesLoop mergedSlice rest = some r ∧ RoundTripInv origSlice r [] := by
  induction rest generalizing mergedSlice with
  | nil => exact ⟨mergedSlice, by simp [mergeMapSlicesLoop], hinv⟩
  | cons f rest ih =>
    obtain ⟨fk, fv, fc⟩ := f
    have hf : MapItem.mk fk fv fc ∈ fixedSlice := hrest _ (List.mem_cons_self _ _)
    obtain ⟨hc, hn, hfcom⟩ := hfixed _ hf
    rw [MapItem.key_mk] at hc hn
    have hpre := MapItem.key_of_isComment_eq_false hfcom
    rw [MapItem.key_mk] at hpre
    simp only [List.map_cons, List.nodup_cons, List.mem_map, not_exists, not_and,
      MapItem.key_mk] at hnodupR
    obtain ⟨hfresh, hnodupR2⟩ := hnodupR
    obtain ⟨hlen, hall⟩ := hinv
    -- the key is found in the merged slice
    obtain ⟨o0, ho0, -, ho0k⟩ := h2 _ hf
    rw [MapItem.key_mk] at ho0k
    obtain ⟨j0, hj0⟩ := List.mem_iff_getElem?.1 ho0
    have hj0lt : j0 < mergedSlice.length := by
      rw [hlen]; exact (List.getElem?_eq_some.1 hj0).1
    have hx0 : mergedSlice[j0]? = some mergedSlice[j0] := List.getElem?_eq_getElem hj0lt
    have hx0k : (mergedSlice[j0]).key = fk := (hall j0 _ o0 hx0 hj0).1.trans ho0k
    obtain ⟨j, x, hl⟩ := lookupBy_isSome_of_mem (p := fun x => decide (x.key = fk))
      (List.getElem?_mem hx0) (by simp [hx0k])
    obtain ⟨hx, hxk, -⟩ := lookupBy_eq_some hl
    have hxk2 : x.key = fk := by simpa using hxk
    have hjlt : j < origSlice.length := by
      rw [← hlen]; exact (List.getElem?_eq_some.1 hx).1
    have ho : origSlice[j]? = some origSlice[j] := List.getElem?_eq_getElem hjlt
    generalize origSlice[j] = o at ho
    obtain ⟨hk, hcm, hcase⟩ := hall j x o hx ho
    have hok : o.key = fk := hk.symm.trans hxk2
    have hocom : o.isComment = false :=
      MapItem.isComment_eq_false (by rw [hok]; exact hn) (by rw [hok]; exact hpre)
    have hom : o ∈ origSlice := List.getElem?_mem ho
    -- the item has not been updated yet
    have hxv : x.value = o.value := by
      rcases hcase with ⟨hv, -⟩ | ⟨-, -, -, -, hne⟩
      · exact hv
      · exact absurd hok.symm (hne _ (List.mem_cons_self _ _))
    -- the new value
    obtain ⟨f2, hf2, hf2k, hf2v⟩ := h1 o hom hocom
    have hff : f2 = MapItem.mk fk fv fc :=
      eq_of_nodup_map_key hnodupF hf2 hf (by rw [hf2k, hok, MapItem.key_mk])
    rw [hff, MapItem.value_mk] at hf2v
    have hval : ∃ v, mergedMapItemValue fk o.value fv = some v ∧
        deepEqual v o.value = some true := by
      cases hcont : o.value.isContainer
      · obtain ⟨hfo, hsym⟩ := deepEqual_symm_of_not_container hcont hf2v
        exact ⟨fv, mergedMapItemValue_of_not_container _ (by rw [hfo]; exact hcont) _, hsym⟩
      · exact hnested o hom _ hf (by rw [hok, MapItem.key_mk]) hcont
    obtain ⟨v, hv1, hv2⟩ := hval
    rw [mergeMapSlicesLoop, findItemInMapSlice_comparable hc hn, hl]
    simp only [hxk2, hxv, hv1]
    apply ih _ (fun g hg => hrest g (List.mem_cons_of_mem _ hg)) hnodupR2
    refine ⟨by rw [setMapItemValue_length, hlen], ?_⟩
    intro j2 x2 o2 hx2 ho2
    by_cases hj : j = j2
    · subst hj
      rw [setMapItemValue_getElem?_eq _ _ hx] at hx2
      rw [ho] at ho2
      cases hx2
      cases ho2
      refine ⟨hk, hcm, Or.inr ⟨hv2, hocom, ?_, ?_, ?_⟩⟩
      · rw [hok]; exact hc
      · rw [hok]; exact hn
      · intro g hg
        rw [hok]
        exact hfresh g hg
    · rw [setMapItemValue_getElem?_ne _ _ hj] at hx2
      obtain ⟨hk2, hcm2, hcase2⟩ := hall j2 x2 o2 hx2 ho2
      refine ⟨hk2, hcm2, ?_⟩
      rcases hcase2 with ⟨hv, hor⟩ | ⟨hd, hcom2, hcomp2, hnn2, hne⟩
      · refine Or.inl ⟨hv, ?_⟩
        rcases hor with hcom2 | ⟨g, hg, hgk⟩
        · exact Or.inl hcom2
        · rcases List.mem_cons.1 hg with rfl | hg2
          · exfalso
            rw [MapItem.key_mk] at hgk
            have ho2com : o2.isComment = false :=
              MapItem.isComment_eq_false (by rw [← hgk]; exact hn) (by rw [← hgk]; exact hpre)
            rw [semanticEntries_map_fst] at hnodupO
            exact hj (index_eq_of_nodup_filter_map hnodupO ho ho2 (by simp [hocom])
              (by simp [ho2com]) (by rw [hok, hgk]))
          · exact Or.inr ⟨g, hg2, hgk⟩
      · exact Or.inr ⟨hd, hcom2, hcomp2, hnn2, fun g hg => hne g (List.mem_cons_of_mem _ hg)⟩

theorem MapItem.eq_of_fields {x o : MapItem} (hk : x.key = o.key) (hv : x.value = o.value)
    (hc : x.comment = o.comment) : x = o := by
  obtain ⟨k, v, c⟩ := x
  obtain ⟨k2, v2, c2⟩ := o
  simp only [MapItem.key_mk, MapItem.value_mk, MapItem.comment_mk] at hk hv hc
  rw [hk, hv, hc]

theorem numValues_eq_of_map_isComment {r m : List MapItem}
    (h : r.map MapItem.isComment = m.map MapItem.isComment) : numValues r = numValues m := by
  have h2 : ∀ l : List MapItem,
      numValues l = ((l.map MapItem.isComment).filter fun b => !b).length := by
    intro l
    simp [numValues, List.filter_map, Function.comp_def]
  rw [h2, h2, h]

theorem deepEqual_of_roundTripInv {origSlice r : List MapItem}
    (hnodupO : ((semanticEntries origSlice).map Prod.fst).Nodup)
    (hinv : RoundTripInv origSlice r []) :
    deepEqual (.mapSlice r) (.mapSlice origSlice) = some true := by
  obtain ⟨hlen, hall⟩ := hinv
  -- item by item, the same comment status
  have hstatus : ∀ (j : Nat) (x o : MapItem), r[j]? = some x → origSlice[j]? = some o →
      x.isComment = o.isComment ∧ (x.isComment = false →
        x.key.isComparable = true ∧ x.key ≠ .null ∧ x.key = o.key ∧ o.isComment = false ∧
          deepEqual x.value o.value = some true) := by
    intro j x o hx ho
    obtain ⟨hk, hc, hcase⟩ := hall j x o hx ho
    rcases hcase with ⟨hv, hor⟩ | ⟨hd, hcom, hcomp, hnn, -⟩
    · rcases hor with hcom | ⟨g, hg, -⟩
      · have := MapItem.eq_of_fields hk hv hc
        subst this
        exact ⟨rfl, fun h => by rw [hcom] at h; cases h⟩
      · cases hg
    · have hxcom : x.isComment = false :=
        MapItem.isComment_eq_false (by rw [hk]; exact hnn)
          (by rw [hk]; exact MapItem.key_of_isComment_eq_false hcom)
      exact ⟨by rw [hxcom, hcom], fun _ => ⟨by rw [hk]; exact hcomp, by rw [hk]; exact hnn, hk,
        hcom, hd⟩⟩
  have hmap : r.map MapItem.isComment = origSlice.map MapItem.isComment := by
    apply List.ext_getElem?
    intro j
    simp only [List.getElem?_map]
    cases hx : r[j]? with
    | none =>
      have : origSlice[j]? = none := by
        rw [List.getElem?_eq_none_iff] at hx ⊢
        omega
      rw [this]
    | some x =>
      have hj : j < origSlice.length := by
        rw [← hlen]; exact (List.getElem?_eq_some.1 hx).1
      rw [List.getElem?_eq_getElem hj]
      simp only [Option.map_some', Option.some.injEq]
      exact (hstatus j x _ hx (List.getElem?_eq_getElem hj)).1
  rw [deepEqual_mapSlice, numValues_eq_of_map_isComment hmap]
  simp only [ne_eq, not_true_eq_false, if_false]
  apply mapSliceLoop_true_of_forall
  intro x hx hxcom
  obtain ⟨j, hj⟩ := List.mem_iff_getElem?.1 hx
  have hjlt : j < origSlice.length := by
    rw [← hlen]; exact (List.getElem?_eq_some.1 hj).1
  have ho := List.getElem?_eq_getElem hjlt
  generalize origSlice[j] = o at ho
  obtain ⟨hcomp, hnn, hk, hocom, hd⟩ := (hstatus j x o hj ho).2 hxcom
  have hom := List.getElem?_mem ho
  refine ⟨hcomp, hnn, ⟨o, hom, hk.symm⟩, ?_⟩
  intro y hy hyk
  have hycom : y.isComment = false :=
    MapItem.isComment_eq_false (by rw [hyk]; exact hnn)
      (by rw [hyk]; exact MapItem.key_of_isComment_eq_false hxcom)
  have hval : y.value = o.value :=
    eq_of_nodup_fst hnodupO (mem_semanticEntries.2 ⟨y, hy, hycom, hyk, rfl⟩)
      (mem_semanticEntries.2 ⟨o, hom, hocom, hk.symm, rfl⟩)
  rw [hval]
  exact hd

/-- One level of the round trip: let the entries of `fixed` have pairwise distinct non-nil
scalar keys and be no comments, let the entries of `orig` other than comments have pairwise
distinct keys, and let `deepEqual(orig, fixed)` hold.  If, for every key whose value in `orig`
is a mapping or a sequence, the merge of the two values of the key returns a value that
`deepEqual` finds equal to the value in `orig`, then `mergeMapSlices(orig, fixed)` returns a
mapping `r` and `deepEqual(r, orig)` holds. -/
theorem mergeMapSlices_round_trip_one_level (origSlice fixedSlice : List MapItem)
    (hfixed : ∀ f ∈ fixedSlice,
      f.key.isComparable = true ∧ f.key ≠ .null ∧ f.isComment = false)
    (hnodupF : (fixedSlice.map MapItem.key).Nodup)
    (hnodupO : ((semanticEntries origSlice).map Prod.fst).Nodup)
    (heq : deepEqual (.mapSlice origSlice) (.mapSlice fixedSlice) = some true)
    (hnested : ∀ o ∈ origSlice, ∀ f ∈ fixedSlice, o.key = f.key → o.value.isContainer = true →
      ∃ v, mergedMapItemValue f.key o.value f.value = some v ∧
        deepEqual v o.value = some true) :
    ∃ r, mergeMapSlices origSlice fixedSlice = some r ∧
      deepEqual (.mapSlice r) (.mapSlice origSlice) = some true := by
  obtain ⟨h1, h2⟩ := keys_of_deepEqual_true hfixed hnodupO heq
  have hkeys : ∀ f ∈ fixedSlice, f.key.isComparable = true ∧ f.key ≠ .null :=
    fun f hf => ⟨(hfixed f hf).1, (hfixed f hf).2.1⟩
  have hkept : origSlice.filter (fun e => hasKey e.key fixedSlice || e.isComment) =
      origSlice := by
    apply List.filter_eq_self.2
    intro e he
    cases hcom : e.isComment
    · obtain ⟨f, hf, hfk, -⟩ := h1 e he hcom
      simp [hasKey_eq_true.2 ⟨f, hf, hfk⟩]
    · simp
  have hinv : RoundTripInv origSlice origSlice fixedSlice := by
    refine ⟨rfl, ?_⟩
    intro j x o hx ho
    rw [hx] at ho
    cases ho
    refine ⟨rfl, rfl, Or.inl ⟨rfl, ?_⟩⟩
    cases hcom : x.isComment
    · obtain ⟨f, hf, hfk, -⟩ := h1 x (List.getElem?_mem hx) hcom
      exact Or.inr ⟨f, hf, hfk⟩
    · exact Or.inl rfl
  obtain ⟨r, hr, hinv2⟩ := mergeMapSlicesLoop_round_trip hfixed hnodupF hnodupO h1 h2 hnested
    fixedSlice origSlice (fun _ h => h) hnodupF hinv
  refine ⟨r, ?_, deepEqual_of_roundTripInv hnodupO hinv2⟩
  rw [mergeMapSlices, retainMapItems_eq_filter hkeys, hkept]
  exact hr

/-- A document whose keys come back reordered and without comments from the fix is equal to
the merge of the two. -/
theorem mergeMapSlices_round_trip_one_level_example :
    deepEqual
      (.mapSlice [.mk .null .null "note", .mk (.str "a") (.int 1) "c",
        .mk (.str "m") (.mapSlice [.mk (.str "x") (.int 1) "d"]) ""])
      (.mapSlice [.mk (.str "m") (.mapSlice [.mk (.str "x") (.int 1) ""]) "",
        .mk (.str "a") (.int 1) ""]) = some true ∧
    ∃ r,
      mergeMapSlices
        [.mk .null .null "note", .mk (.str "a") (.int 1) "c",
          .mk (.str "m") (.mapSlice [.mk (.str "x") (.int 1) "d"]) ""]
        [.mk (.str "m") (.mapSlice [.mk (.str "x") (.int 1) ""]) "",
          .mk (.str "a") (.int 1) ""] = some r ∧
      deepEqual (.mapSlice r)
        (.mapSlice [.mk .null .null "note", .mk (.str "a") (.int 1) "c",
          .mk (.str "m") (.mapSlice [.mk (.str "x") (.int 1) "d"]) ""]) = some true :=
  ⟨by decide, mergeMapSlices_round_trip_one_level _ _ (by decide) (by decide) (by decide)
    (by decide) (by
    intro o ho f hf hk hcont
    simp only [List.mem_cons, List.mem_singleton, List.not_mem_nil, or_false] at ho hf
    rcases ho with rfl | rfl | rfl <;> rcases hf with rfl | rfl <;>
      first
        | exact absurd hk (by decide)
        | exact absurd hcont (by decide)
        | exact ⟨.mapSlice [.mk (.str "x") (.int 1) "d"], by decide, by decide⟩)⟩

/-- C8 fails on a sequence with two items of one identity: with port 53 for UDP and for TCP
in `orig` and in `fixed`, `deepEqual(orig, fixed)` holds, the merge returns port 53 for TCP
twice, and `deepEqual` of the merge and `orig` does not hold. -/
theorem mergeMapSlices_round_trip_ports :
    deepEqual
      (.mapSlice [.mk (.str "ports") (.seq [
        .mk (.mapSlice [.mk (.str "containerPort") (.int 53) "",
          .mk (.str "protocol") (.str "UDP") ""]) "",
        .mk (.mapSlice [.mk (.str "containerPort") (.int 53) "",
          .mk (.str "protocol") (.str "TCP") ""]) ""]) ""])
      (.mapSlice [.mk (.str "ports") (.seq [
        .mk (.mapSlice [.mk (.str "protocol") (.str "UDP") "",
          .mk (.str "containerPort") (.int 53) ""]) "",
        .mk (.mapSlice [.mk (.str "protocol") (.str "TCP") "",
          .mk (.str "containerPort") (.int 53) ""]) ""]) ""]) = some true ∧
    (mergeMapSlices
      [.mk (.str "ports") (.seq [
        .mk (.mapSlice [.mk (.str "containerPort") (.int 53) "",
          .mk (.str "protocol") (.str "UDP") ""]) "",
        .mk (.mapSlice [.mk (.str "containerPort") (.int 53) "",
          .mk (.str "protocol") (.str "TCP") ""]) ""]) ""]
      [.mk (.str "ports") (.seq [
        .mk (.mapSlice [.mk (.str "protocol") (.str "UDP") "",
          .mk (.str "containerPort") (.int 53) ""]) "",
        .mk (.mapSlice [.mk (.str "protocol") (.str "TCP") "",
          .mk (.str "containerPort") (.int 53) ""]) ""]) ""]).bind
      (fun r => deepEqual (.mapSlice r)
        (.mapSlice [.mk (.str "ports") (.seq [
          .mk (.mapSlice [.mk (.str "containerPort") (.int 53) "",
            .mk (.str "protocol") (.str "UDP") ""]) "",
          .mk (.mapSlice [.mk (.str "containerPort") (.int 53) "",
            .mk (.str "protocol") (.str "TCP") ""]) ""]) ""])) = some false := by
  decide

/-! ## Values that the merge with themselves gives back -/

theorem setMapItemValue_self {l : List MapItem} {i : Nat} {x : MapItem} (h : l[i]? = some x) :
    setMapItemValue l i x.value = l := by
  apply List.ext_getElem?
  intro j
  by_cases hij : i = j
  · subst hij
    rw [setMapItemValue_getElem?_eq l _ h, h]
    obtain ⟨k, v, c⟩ := x
    rfl
  · rw [setMapItemValue_getElem?_ne l _ hij]

theorem setSequenceItemValue_self {l : List SequenceItem} {i : Nat} {x : SequenceItem}
    (h : l[i]? = some x) : setSequenceItemValue l i x.value = l := by
  rw [setSequenceItemValue_eq_set h]
  obtain ⟨v, c⟩ := x
  have hi : i < l.length := (List.getElem?_eq_some.1 h).1
  have hx : l[i] = SequenceItem.mk v c := (List.getElem?_eq_some.1 h).2
  rw [SequenceItem.value_mk_seq, show (SequenceItem.mk v c).comment = c from rfl]
  apply List.ext_getElem?
  intro j
  rw [List.getElem?_set]
  split
  · next hij =>
    subst hij
    simp [hi, h]
  · rfl

theorem mem_wellKeyedMapItems {m : List MapItem} (h : wellKeyedMapItems m = true) {e : MapItem}
    (he : e ∈ m) :
    e.key.isComparable = true ∧ e.key ≠ .null ∧ e.value.wellKeyed e.key = true := by
  induction m with
  | nil => cases he
  | cons a rest ih =>
    obtain ⟨k, v, c⟩ := a
    simp only [wellKeyedMapItems, Bool.and_eq_true, Bool.not_eq_true'] at h
    rcases List.mem_cons.1 he with rfl | he2
    · refine ⟨h.1.1.1, ?_, h.1.2⟩
      intro hk
      rw [MapItem.key_mk] at hk
      rw [hk] at h
      simp [Value.isNil] at h
    · exact ih h.2 he2

theorem mem_wellKeyedSeqItems {s : List SequenceItem} (h : wellKeyedSeqItems s = true)
    {f : SequenceItem} (hf : f ∈ s) : f.value.wellKeyed .null = true := by
  induction s with
  | nil => cases hf
  | cons a rest ih =>
    obtain ⟨v, c⟩ := a
    simp only [wellKeyedSeqItems, Bool.and_eq_true] at h
    rcases List.mem_cons.1 hf with rfl | hf2
    · exact h.1
    · exact ih h.2 hf2

/-- A mapping with pairwise distinct non-nil scalar keys whose values merge with themselves
into themselves merges with itself into itself. -/
theorem mergeMapSlices_self {m : List MapItem}
    (hkeys : ∀ e ∈ m, e.key.isComparable = true ∧ e.key ≠ .null)
    (hnodup : (m.map MapItem.key).Nodup)
    (hval : ∀ e ∈ m, mergedMapItemValue e.key e.value e.value = some e.value) :
    mergeMapSlices m m = some m := by
  have hkept : m.filter (fun e => hasKey e.key m || e.isComment) = m := by
    apply List.filter_eq_self.2
    intro e he
    simp [hasKey_eq_true.2 ⟨e, he, rfl⟩]
  rw [mergeMapSlices, retainMapItems_eq_filter hkeys, hkept]
  have hloop : ∀ rest : List MapItem, (∀ f ∈ rest, f ∈ m) →
      mergeMapSlicesLoop m rest = some m := by
    intro rest
    induction rest with
    | nil => intro _; simp [mergeMapSlicesLoop]
    | cons f rest ih =>
      intro hrest
      have hf := hrest f (List.mem_cons_self _ _)
      obtain ⟨hc, hn⟩ := hkeys f hf
      obtain ⟨i, y, hl⟩ := lookupBy_isSome_of_mem (p := fun x => decide (x.key = f.key)) hf
        (by simp)
      obtain ⟨hy1, hy2, -⟩ := lookupBy_eq_some hl
      have hyf : y = f :=
        eq_of_nodup_map_key hnodup (List.getElem?_mem hy1) hf (by simpa using hy2)
      subst hyf
      obtain ⟨fk, fv, fc⟩ := y
      rw [MapItem.key_mk] at hc hn hl
      have hv := hval _ hf
      rw [MapItem.key_mk, MapItem.value_mk] at hv
      rw [mergeMapSlicesLoop, findItemInMapSlice_comparable hc hn, hl]
      simp only [MapItem.key_mk, MapItem.value_mk, hv]
      have hset := setMapItemValue_self hy1
      rw [MapItem.value_mk] at hset
      rw [hset]
      exact ih fun g hg => hrest g (List.mem_cons_of_mem _ hg)
  exact hloop m fun _ h => h

theorem findItemInSequence_getElem {sequenceKey : String} {val : SequenceItem}
    {l : List SequenceItem} {i : Nat} {m : SequenceItem}
    (h : findItemInSequence sequenceKey val l = some (some (i, m))) : l[i]? = some m :=
  (lookupBy_eq_some (findItemInSequence_eq_some h).symm).1

theorem mem_selfFound {sequenceKey : String} {l : List SequenceItem}
    (h : selfFound sequenceKey l = true) {f : SequenceItem} (hf : f ∈ l) :
    ∃ i m, findItemInSequence sequenceKey f l = some (some (i, m)) ∧ m.value = f.value := by
  simp only [selfFound, List.all_eq_true] at h
  have := h f hf
  split at this
  · next i m hfind => exact ⟨i, m, hfind, by simpa using this⟩
  · cases this

/-- A sequence that satisfies `selfFound` and whose items merge with themselves into
themselves merges with itself into itself. -/
theorem mergeSequences_self {sequenceKey : String} {l : List SequenceItem}
    (hself : selfFound sequenceKey l = true)
    (hval : ∀ f ∈ l, mergedSequenceItemValue f.value f.value = some f.value) :
    mergeSequences sequenceKey l l = some l := by
  have hretain : ∀ rest : List SequenceItem, (∀ f ∈ rest, f ∈ l) →
      retainSequenceItems sequenceKey l rest = some rest := by
    intro rest
    induction rest with
    | nil => intro _; rfl
    | cons f rest ih =>
      intro hrest
      obtain ⟨i, m, hfind, -⟩ := mem_selfFound hself (hrest f (List.mem_cons_self _ _))
      simp [retainSequenceItems, hfind, ih fun g hg => hrest g (List.mem_cons_of_mem _ hg)]
  have hloop : ∀ rest : List SequenceItem, (∀ f ∈ rest, f ∈ l) →
      mergeSequencesLoop sequenceKey l rest = some l := by
    intro rest
    induction rest with
    | nil => intro _; simp [mergeSequencesLoop]
    | cons f rest ih =>
      intro hrest
      have hf := hrest f (List.mem_cons_self _ _)
      obtain ⟨i, m, hfind, hmv⟩ := mem_selfFound hself hf
      have hm := findItemInSequence_getElem hfind
      have hv := hval f hf
      obtain ⟨fv, fc⟩ := f
      rw [SequenceItem.value_mk_seq] at hmv hv
      rw [mergeSequencesLoop, hfind]
      simp only [hmv, hv]
      have hset := setSequenceItemValue_self hm
      rw [hmv] at hset
      rw [hset]
      exact ih fun g hg => hrest g (List.mem_cons_of_mem _ hg)
  rw [mergeSequences, hretain l fun _ h => h]
  exact hloop l fun _ h => h

theorem mergedSequenceItemValue_of_not_mapSlice {v : Value} (h : ∀ m, v ≠ .mapSlice m)
    (origValue : Value) : mergedSequenceItemValue origValue v = some v := by
  cases v <;> first
    | exact absurd rfl (h _)
    | simp [mergedSequenceItemValue]

theorem merged_self_of_wellKeyed (n : Nat) :
    ∀ v : Value, v.depth ≤ n →
      (∀ key, v.wellKeyed key = true → mergedMapItemValue key v v = some v) ∧
      (v.wellKeyed .null = true → mergedSequenceItemValue v v = some v) := by
  induction n with
  | zero =>
    intro v hd
    cases v <;> simp [Value.depth] at hd <;>
      simp [mergedMapItemValue, mergedSequenceItemValue]
  | succ n ih =>
    intro v hd
    have hmap : ∀ m : List MapItem, (Value.mapSlice m).depth ≤ n + 1 →
        ∀ key, (Value.mapSlice m).wellKeyed key = true → mergeMapSlices m m = some m := by
      intro m hd key hw
      simp only [Value.wellKeyed, Bool.and_eq_true, decide_eq_true_eq] at hw
      simp only [Value.depth] at hd
      apply mergeMapSlices_self
      · exact fun e he =>
          ⟨(mem_wellKeyedMapItems hw.1 he).1, (mem_wellKeyedMapItems hw.1 he).2.1⟩
      · exact hw.2
      · intro e he
        have := depth_key_le he
        exact (ih e.value (by omega)).1 e.key (mem_wellKeyedMapItems hw.1 he).2.2
    cases v with
    | mapSlice m =>
      constructor
      · intro key hw
        rw [mergedMapItemValue_eq]
        simp only [hmap m hd key hw, Option.map_some']
      · intro hw
        rw [mergedSequenceItemValue_eq]
        simp only [updateFromFixed, hmap m hd .null hw, Option.map_some']
    | seq l =>
      constructor
      · intro key hw
        simp only [Value.wellKeyed, Bool.and_eq_true] at hw
        cases key <;> simp only [Bool.false_eq_true, false_and] at hw
        case str s =>
          rw [mergedMapItemValue_eq]
          simp only [Value.depth] at hd
          have hs : mergeSequences s l l = some l := by
            apply mergeSequences_self hw.1
            intro f hf
            have := depth_value_le hf
            exact (ih f.value (by omega)).2 (mem_wellKeyedSeqItems hw.2 hf)
          simp only [hs, Option.map_some']
      · intro _
        exact mergedSequenceItemValue_of_not_mapSlice (by intro m h; cases h) _
    | _ => simp [mergedMapItemValue, mergedSequenceItemValue]

/-- A `wellKeyed` value merges with itself into itself. -/
theorem mergedMapItemValue_self_of_wellKeyed {key v : Value} (h : v.wellKeyed key = true) :
    mergedMapItemValue key v v = some v :=
  (merged_self_of_wellKeyed v.depth v (Nat.le_refl _)).1 key h

/-! ## C7: keys that the remediation did not touch -/

/-- C7 (amended): for a non-nil scalar key that `orig` and `fixed` have with the same value,
on one entry only of `fixed`, the value of the key in `mergeMapSlices(orig, fixed)` is the value
in `orig`, when that value is a scalar, or a mapping or sequence that is `wellKeyed`: in it and
below, mappings have pairwise distinct non-nil scalar keys, and every item of a sequence is
found in the sequence, by the identity rule of its key, at an item of the same value. -/
theorem mergeMapSlices_preserves_untouched_key (origSlice pre post r : List MapItem)
    (f o : MapItem) (i : Nat)
    (hc : f.key.isComparable = true) (hn : f.key ≠ .null)
    (honce : ∀ x ∈ pre ++ post, x.key ≠ f.key)
    (horig : lookupBy (fun x => decide (x.key = f.key)) origSlice = some (i, o))
    (hsame : f.value = o.value)
    (hwell : o.value.wellKeyed f.key = true)
    (hr : mergeMapSlices origSlice (pre ++ f :: post) = some r) :
    ∃ j e, lookupBy (fun x => decide (x.key = f.key)) r = some (j, e) ∧
      e.value = o.value ∧ e.comment = o.comment := by
  obtain ⟨j, e, h1, h2, h3⟩ :=
    mergeMapSlices_entry_of_common_key origSlice pre post r f o i hc hn honce horig hr
  refine ⟨j, e, h1, ?_, h2⟩
  rw [hsame, mergedMapItemValue_self_of_wellKeyed hwell] at h3
  exact (Option.some.inj h3).symm

/-- The untouched key `ports`, a sequence of two mappings, keeps its value and its comment
while `runAsNonRoot` is fixed. -/
theorem mergeMapSlices_preserves_untouched_key_witness :
    ∃ j e,
      lookupBy (fun x => decide (x.key = (MapItem.mk (.str "ports") (.seq [
          .mk (.mapSlice [.mk (.str "containerPort") (.int 80) ""]) "http",
          .mk (.mapSlice [.mk (.str "containerPort") (.int 443) ""]) ""]) "").key))
        [MapItem.mk (.str "ports") (.seq [
            .mk (.mapSlice [.mk (.str "containerPort") (.int 80) ""]) "http",
            .mk (.mapSlice [.mk (.str "containerPort") (.int 443) ""]) ""]) "open",
          .mk (.str "runAsNonRoot") (.bool true) ""] = some (j, e) ∧
      e.value = (MapItem.mk (.str "ports") (.seq [
          .mk (.mapSlice [.mk (.str "containerPort") (.int 80) ""]) "http",
          .mk (.mapSlice [.mk (.str "containerPort") (.int 443) ""]) ""]) "open").value ∧
      e.comment = (MapItem.mk (.str "ports") (.seq [
          .mk (.mapSlice [.mk (.str "containerPort") (.int 80) ""]) "http",
          .mk (.mapSlice [.mk (.str "containerPort") (.int 443) ""]) ""]) "open").comment :=
  mergeMapSlices_preserves_untouched_key
    [.mk (.str "ports") (.seq [
        .mk (.mapSlice [.mk (.str "containerPort") (.int 80) ""]) "http",
        .mk (.mapSlice [.mk (.str "containerPort") (.int 443) ""]) ""]) "open",
      .mk (.str "runAsNonRoot") (.bool false) ""]
    [.mk (.str "runAsNonRoot") (.bool true) ""] [] _ _ _ 0 (by decide) (by decide) (by decide)
    (by decide) (by decide) (by decide) (by decide)

/-- C7 fails on a sequence with two items of one identity: `ports` is the same in `orig` and
`fixed`, with port 53 for UDP and for TCP; the merge matches both fixed items with the first
port and returns port 53 for TCP twice. -/
theorem mergeMapSlices_ports_same_containerPort :
    mergeMapSlices
      [.mk (.str "ports") (.seq [
        .mk (.mapSlice [.mk (.str "containerPort") (.int 53) "",
          .mk (.str "protocol") (.str "UDP") ""]) "",
        .mk (.mapSlice [.mk (.str "containerPort") (.int 53) "",
          .mk (.str "protocol") (.str "TCP") ""]) ""]) ""]
      [.mk (.str "ports") (.seq [
        .mk (.mapSlice [.mk (.str "containerPort") (.int 53) "",
          .mk (.str "protocol") (.str "UDP") ""]) "",
        .mk (.mapSlice [.mk (.str "containerPort") (.int 53) "",
          .mk (.str "protocol") (.str "TCP") ""]) ""]) ""]
    = some [.mk (.str "ports") (.seq [
        .mk (.mapSlice [.mk (.str "containerPort") (.int 53) "",
          .mk (.str "protocol") (.str "TCP") ""]) "",
        .mk (.mapSlice [.mk (.str "containerPort") (.int 53) "",
          .mk (.str "protocol") (.str "TCP") ""]) ""]) ""] := by
  decide

/-! ## C11: items that are scalars -/

/-- C11 fails on floats: the type switch of `sequenceItemMatch` has the cases `string`, `int`
and `bool` only, so two items that both hold the float `2.0`, equal for `==`, do not match,
under any field name. -/
theorem sequenceItemMatch_float_items (sequenceKey : String) :
    goEq (.float (some 2)) (.float (some 2)) = some true ∧
    sequenceItemMatch sequenceKey (.mk (.float (some 2)) "") (.mk (.float (some 2)) "") =
      some false :=
  ⟨by decide, rfl⟩

/-- Items that hold a string, an integer or a boolean match exactly when `==` holds of the two
values. -/
theorem sequenceItemMatch_of_scalar (sequenceKey : String) (item1 item2 : SequenceItem)
    (h : (∃ s, item1.value = .str s) ∨ (∃ n, item1.value = .int n) ∨
      (∃ b, item1.value = .bool b)) :
    sequenceItemMatch sequenceKey item1 item2 = goEq item1.value item2.value := by
  rcases h with ⟨s, h⟩ | ⟨n, h⟩ | ⟨b, h⟩ <;> simp [sequenceItemMatch, h]

/-! ## C12: fields with two identifying sub-keys -/

/-- C12 (amended): for the five fields with two identifying sub-keys, two mapping items match
exactly when the comparison of the first sub-key holds (both items carry it, with values that
`deepEqual` finds equal), or that comparison is false, be it for a missing sub-key or for
different values, and the comparison of the second sub-key holds. -/
theorem sequenceItemMatch_two_keys (t : String × String × String) (ht : t ∈ twoKeyFields)
    (map1 map2 : List MapItem) (c1 c2 : String) :
    sequenceItemMatch t.1 (.mk (.mapSlice map1) c1) (.mk (.mapSlice map2) c2) = some true ↔
      equalValueForKey t.2.1 map1 map2 = some true ∨
        (equalValueForKey t.2.1 map1 map2 = some false ∧
          equalValueForKey t.2.2 map1 map2 = some true) := by
  have h : sequenceItemMatch t.1 (.mk (.mapSlice map1) c1) (.mk (.mapSlice map2) c2) =
      trueOrElse (equalValueForKey t.2.1 map1 map2) (equalValueForKey t.2.2 map1 map2) := by
    simp only [twoKeyFields, List.mem_cons, List.mem_singleton, List.not_mem_nil, or_false] at ht
    rcases ht with rfl | rfl | rfl | rfl | rfl <;> rfl
  rw [h]
  rcases equalValueForKey t.2.1 map1 map2 with _ | _ | _ <;> simp [trueOrElse]

/-- Two `ports` items without `containerPort` and with the same `port` match. -/
theorem sequenceItemMatch_two_keys_witness :
    sequenceItemMatch "ports"
      (.mk (.mapSlice [.mk (.str "port") (.int 80) "", .mk (.str "name") (.str "a") ""]) "")
      (.mk (.mapSlice [.mk (.str "name") (.str "b") "", .mk (.str "port") (.int 80) ""]) "")
      = some true :=
  (sequenceItemMatch_two_keys ("ports", "containerPort", "port") (by decide) _ _ _ _).2
    (Or.inr ⟨by decide, by decide⟩)

/-- C12 fails when both items carry the first sub-key with different values: two
`ownerReferences` items with different `uid` and the same `name` match, by the second
sub-key. -/
theorem sequenceItemMatch_ownerReferences_same_name :
    lookupBy (fun x => decide (x.key = .str "uid"))
      [MapItem.mk (.str "uid") (.str "u1") "", .mk (.str "name") (.str "web") ""] =
        some (0, .mk (.str "uid") (.str "u1") "") ∧
    lookupBy (fun x => decide (x.key = .str "uid"))
      [MapItem.mk (.str "uid") (.str "u2") "", .mk (.str "name") (.str "web") ""] =
        some (0, .mk (.str "uid") (.str "u2") "") ∧
    deepEqual (.str "u1") (.str "u2") = some false ∧
    sequenceItemMatch "ownerReferences"
      (.mk (.mapSlice [.mk (.str "uid") (.str "u1") "", .mk (.str "name") (.str "web") ""]) "")
      (.mk (.mapSlice [.mk (.str "uid") (.str "u2") "", .mk (.str "name") (.str "web") ""]) "")
      = some true := by
  decide

/-! ## C13: the fallback of the identity rule -/

/-- C13: for every field name that has no case in the `switch` of `sequenceItemMatch` and is
no key of the `identifyingKey` table, `sequenceItemMatch` of two mapping items is `deepEqual`
of their two values. -/
theorem sequenceItemMatch_fallback (sequenceKey : String)
    (hswitch : sequenceKey ∉ specialCaseFields) (htable : identifyingKey sequenceKey = none)
    (map1 map2 : List MapItem) (c1 c2 : String) :
    sequenceItemMatch sequenceKey (.mk (.mapSlice map1) c1) (.mk (.mapSlice map2) c2) =
      deepEqual (SequenceItem.mk (.mapSlice map1) c1).value
        (SequenceItem.mk (.mapSlice map2) c2).value := by
  simp only [specialCaseFields, List.mem_cons, List.mem_singleton, List.not_mem_nil, or_false,
    not_or] at hswitch
  simp only [sequenceItemMatch, SequenceItem.value]
  unfold matchMapSlices
  split <;> first
    | (exfalso; simp_all; done)
    | simp only [matchByTable, htable]

/-- Two `tolerations` items are matched by `deepEqual` of their values. -/
theorem sequenceItemMatch_fallback_witness :
    sequenceItemMatch "tolerations"
      (.mk (.mapSlice [.mk (.str "key") (.str "k") "", .mk (.str "operator") (.str "Exists") ""])
        "")
      (.mk (.mapSlice [.mk (.str "operator") (.str "Exists") "", .mk (.str "key") (.str "k") ""])
        "note") =
      deepEqual
        (SequenceItem.mk (.mapSlice [.mk (.str "key") (.str "k") "",
          .mk (.str "operator") (.str "Exists") ""]) "").value
        (SequenceItem.mk (.mapSlice [.mk (.str "operator") (.str "Exists") "",
          .mk (.str "key") (.str "k") ""]) "note").value :=
  sequenceItemMatch_fallback "tolerations" (by decide) (by decide) _ _ _ _

/-! ## C20: keys and comments of the retained items -/

theorem findItemInMapSliceWith_filter {eq : Value → Value → Option Bool} {key : Value}
    {q : MapItem → Bool} {l : List MapItem} {i : Nat} {o : MapItem}
    (h : findItemInMapSliceWith eq key l = some (some (i, o))) (hq : q o = true) :
    ∃ j, findItemInMapSliceWith eq key (l.filter q) = some (some (j, o)) := by
  induction l generalizing i with
  | nil => simp [findItemInMapSliceWith] at h
  | cons a rest ih =>
    unfold findItemInMapSliceWith at h
    have hshift : ∀ i, shiftFound (findItemInMapSliceWith eq key rest) = some (some (i, o)) →
        (a.key.isNil = true ∨ eq a.key key = some false) →
        ∃ j, findItemInMapSliceWith eq key ((a :: rest).filter q) = some (some (j, o)) := by
      intro i h ha
      obtain ⟨j, -, hj⟩ := shiftFound_eq_some h
      obtain ⟨j2, hj2⟩ := ih hj
      rw [List.filter_cons]
      split
      · refine ⟨j2 + 1, ?_⟩
        unfold findItemInMapSliceWith
        rcases ha with ha | ha
        · simp [ha, hj2, shiftFound]
        · split
          · simp [hj2, shiftFound]
          · simp [ha, hj2, shiftFound]
      · exact ⟨j2, hj2⟩
    split at h
    · next hnil => exact hshift i h (Or.inl hnil)
    · split at h
      · cases h
      · next htrue =>
        simp only [Option.some.injEq, Prod.mk.injEq] at h
        obtain ⟨-, rfl⟩ := h
        refine ⟨0, ?_⟩
        rw [List.filter_cons, if_pos hq]
        unfold findItemInMapSliceWith
        simp_all
      · next hfalse => exact hshift i h (Or.inr hfalse)

theorem findItemInMapSliceWith_of_take_label {eq : Value → Value → Option Bool} {key : Value}
    {m r : List MapItem} {j : Nat} {o : MapItem}
    (h : findItemInMapSliceWith eq key m = some (some (j, o)))
    (hpre : (r.take m.length).map MapItem.label = m.map MapItem.label) :
    ∃ e, findItemInMapSliceWith eq key r = some (some (j, e)) ∧ e.label = o.label := by
  induction m generalizing r j with
  | nil => simp [findItemInMapSliceWith] at h
  | cons a rest ih =>
    cases r with
    | nil => simp at hpre
    | cons b r2 =>
      simp only [List.length_cons, List.take_succ_cons, List.map_cons, List.cons.injEq] at hpre
      obtain ⟨hb, hrest⟩ := hpre
      have hkey : b.key = a.key := congrArg Prod.fst hb
      unfold findItemInMapSliceWith at h ⊢
      rw [hkey]
      have hshift : ∀ j, shiftFound (findItemInMapSliceWith eq key rest) = some (some (j, o)) →
          ∃ e, shiftFound (findItemInMapSliceWith eq key r2) = some (some (j, e)) ∧
            e.label = o.label := by
        intro j h
        obtain ⟨j2, rfl, hj2⟩ := shiftFound_eq_some h
        obtain ⟨e, he, hl⟩ := ih hj2 hrest
        exact ⟨e, by simp [he, shiftFound], hl⟩
      split at h
      · next hnil =>
        rw [if_pos hnil]
        exact hshift j h
      · next hnil =>
        rw [if_neg hnil]
        split at h
        · cases h
        · next htrue =>
          simp only [Option.some.injEq, Prod.mk.injEq] at h
          obtain ⟨rfl, rfl⟩ := h
          exact ⟨b, by simp [htrue], hb⟩
        · exact hshift j h

theorem setSequenceItemValue_length (l : List SequenceItem) (i : Nat) (v : Value) :
    (setSequenceItemValue l i v).length = l.length := by
  unfold setSequenceItemValue
  split <;> simp

theorem setSequenceItemValue_map_comment (l : List SequenceItem) (i : Nat) (v : Value) :
    (setSequenceItemValue l i v).map SequenceItem.comment = l.map SequenceItem.comment := by
  unfold setSequenceItemValue
  split
  · next w c h =>
    apply List.ext_getElem?
    intro j
    simp only [List.getElem?_map, List.getElem?_set]
    split
    · next hij =>
      subst hij
      have hi : i < l.length := (List.getElem?_eq_some.1 h).1
      simp [hi, h, SequenceItem.comment]
    · rfl
  · rfl

theorem mergeSequencesLoop_take {sequenceKey : String}
    {fixedSlice mergedSlice r : List SequenceItem}
    (h : mergeSequencesLoop sequenceKey mergedSlice fixedSlice = some r) :
    mergedSlice.length ≤ r.length ∧
      (r.take mergedSlice.length).map SequenceItem.comment =
        mergedSlice.map SequenceItem.comment := by
  induction fixedSlice generalizing mergedSlice with
  | nil =>
    simp only [mergeSequencesLoop, Option.some.injEq] at h
    subst h
    simp
  | cons f rest ih =>
    obtain ⟨fv, fc⟩ := f
    rw [mergeSequencesLoop] at h
    split at h
    · cases h
    · obtain ⟨h1, h2⟩ := ih h
      simp only [List.length_append, List.length_singleton] at h1 h2
      refine ⟨by omega, ?_⟩
      have h3 := congrArg (List.take mergedSlice.length) h2
      simp only [← List.map_take, List.take_take, List.take_append_eq_append_take,
        List.take_length, Nat.sub_self, List.take_zero, List.append_nil] at h3
      rw [Nat.min_eq_left (by omega)] at h3
      simpa using h3
    · split at h
      · cases h
      · obtain ⟨h1, h2⟩ := ih h
        rw [setSequenceItemValue_length] at h1 h2
        rw [setSequenceItemValue_map_comment] at h2
        exact ⟨h1, h2⟩

/-- C20: when `findItemInMapSlice` finds the key `k` in `orig`, at the entry `o`, and finds the
key of `o` in `fixed`, it finds `k` in `mergeMapSlices(orig, fixed)` at an entry with the key
and the comment of `o`.  And the result of `mergeSequences` starts with the retained items of
`orig` (the comments, and the items with a match in `fixed`), in their order and each with its
comment of `orig`. -/
theorem merge_keeps_key_and_comment :
    (∀ (origSlice fixedSlice r : List MapItem) (k : Value) (i : Nat) (o : MapItem),
      findItemInMapSlice k origSlice = some (some (i, o)) →
      (∃ j f, findItemInMapSlice o.key fixedSlice = some (some (j, f))) →
      mergeMapSlices origSlice fixedSlice = some r →
      ∃ j e, findItemInMapSlice k r = some (some (j, e)) ∧ e.key = o.key ∧
        e.comment = o.comment) ∧
    (∀ (sequenceKey : String) (origSlice fixedSlice r : List SequenceItem),
      mergeSequences sequenceKey origSlice fixedSlice = some r →
      (r.take (origSlice.filter fun o =>
          o.isComment || fixedSlice.any (identityMatch sequenceKey o)).length).map
        SequenceItem.comment =
      (origSlice.filter fun o =>
          o.isComment || fixedSlice.any (identityMatch sequenceKey o)).map
        SequenceItem.comment) := by
  constructor
  · intro origSlice fixedSlice r k i o horig hfixed hr
    obtain ⟨kept, hkept, hloop⟩ := mergeMapSlices_eq_some hr
    have hfilter := retainMapItems_eq_filter_retainedBy hkept
    have hret : retainedBy fixedSlice o = true := by
      obtain ⟨j, f, hf⟩ := hfixed
      simp [retainedBy, hf]
    obtain ⟨j, hj⟩ := findItemInMapSliceWith_filter (q := retainedBy fixedSlice) horig hret
    rw [← hfilter] at hj
    obtain ⟨e, he, hl⟩ := findItemInMapSliceWith_of_take_label hj (mergeMapSlicesLoop_take hloop).2
    simp only [MapItem.label, Prod.mk.injEq] at hl
    exact ⟨j, e, he, hl.1, hl.2⟩
  · intro sequenceKey origSlice fixedSlice r hr
    unfold mergeSequences at hr
    split at hr
    · cases hr
    · next kept hkept =>
      rw [← retainSequenceItems_eq_filter hkept]
      exact (mergeSequencesLoop_take hr).2

/-- The key `a` keeps its comment of `orig` under a new value, and the item `x` of a sequence
keeps its comment before the new item `y`. -/
theorem merge_keeps_key_and_comment_witness :
    (∃ j e, findItemInMapSlice (.str "a")
        [.mk (.str "a") (.int 2) "old", .mk (.str "b") (.int 3) "new"] = some (some (j, e)) ∧
      e.key = (MapItem.mk (.str "a") (.int 1) "old").key ∧
      e.comment = (MapItem.mk (.str "a") (.int 1) "old").comment) ∧
    (([SequenceItem.mk (.str "x") "keep", .mk (.str "y") "added"].take
        ([SequenceItem.mk (.str "x") "keep", .mk (.str "z") "gone"].filter fun o =>
          o.isComment || [SequenceItem.mk (.str "x") "other", .mk (.str "y") "added"].any
            (identityMatch "args" o)).length).map SequenceItem.comment =
      ([SequenceItem.mk (.str "x") "keep", .mk (.str "z") "gone"].filter fun o =>
          o.isComment || [SequenceItem.mk (.str "x") "other", .mk (.str "y") "added"].any
            (identityMatch "args" o)).map SequenceItem.comment) :=
  ⟨merge_keeps_key_and_comment.1 [.mk (.str "a") (.int 1) "old"]
      [.mk (.str "a") (.int 2) "fixed", .mk (.str "b") (.int 3) "new"]
      [.mk (.str "a") (.int 2) "old", .mk (.str "b") (.int 3) "new"] (.str "a") 0
      (.mk (.str "a") (.int 1) "old") (by decide)
      ⟨0, .mk (.str "a") (.int 2) "fixed", by decide⟩ (by decide),
    merge_keeps_key_and_comment.2 "args"
      [.mk (.str "x") "keep", .mk (.str "z") "gone"]
      [.mk (.str "x") "other", .mk (.str "y") "added"]
      [.mk (.str "x") "keep", .mk (.str "y") "added"] (by decide)⟩

/-! ## C18: the audit of the root filesystem -/

/-- C18: `checkReadOnlyRootFS` leaves the occurrences of the result as they are exactly when
the security context of the container is set and its `ReadOnlyRootFilesystem` is set to true;
in every other case it appends one occurrence of kind `Error` after them, whose id tells the
first failure that holds of: security context nil, `ReadOnlyRootFilesystem` nil,
`ReadOnlyRootFilesystem` false. -/
theorem checkReadOnlyRootFS_occurrences (k : Constants) (container : Container)
    (result : Result) :
    ((checkReadOnlyRootFS k container result).Occurrences = result.Occurrences ↔
      ∃ sc, container.SecurityContext = some sc ∧ sc.ReadOnlyRootFilesystem = some true) ∧
    ((∃ sc, container.SecurityContext = some sc ∧ sc.ReadOnlyRootFilesystem = some true) ∨
      ∃ occ, (checkReadOnlyRootFS k container result).Occurrences =
          result.Occurrences ++ [occ] ∧
        occ.kind = k.Error ∧
        ((container.SecurityContext = none ∧ occ.id = k.ErrorSecurityContextNIL) ∨
          (∃ sc, container.SecurityContext = some sc ∧ sc.ReadOnlyRootFilesystem = none ∧
            occ.id = k.ErrorReadOnlyRootFilesystemNIL) ∨
          (∃ sc, container.SecurityContext = some sc ∧
            sc.ReadOnlyRootFilesystem = some false ∧
            occ.id = k.ErrorReadOnlyRootFilesystemFalse))) := by
  obtain ⟨sc⟩ := container
  rcases sc with _ | ⟨_ | _ | _⟩ <;> simp [checkReadOnlyRootFS]

/-! ## C15: a result without occurrences -/

theorem applyOnFirstError_of_no_error {Resource : Type} (errors : Int → Bool)
    (fixNil : Resource → Resource) (resource : Resource) (need : List Int)
    (h : ∀ err ∈ need, errors err = false) :
    applyOnFirstError errors fixNil resource need = resource := by
  induction need with
  | nil => rfl
  | cons err rest ih =>
    simp only [applyOnFirstError, h err (List.mem_cons_self _ _)]
    exact ih fun e he => h e (List.mem_cons_of_mem _ he)

/-- C15: for a result whose list of occurrences is empty, `fixPotentialSecurityIssue` returns
the resource as it is, and so does the precondition pass `prepareResourceForFix`. -/
theorem fixPotentialSecurityIssue_no_occurrences {Resource : Type} (k : Constants)
    (fx : Fixes Resource) (resource : Resource) (result : Result)
    (h : result.Occurrences = []) :
    fixPotentialSecurityIssue k fx resource result = resource ∧
      prepareResourceForFix k fx resource result = resource := by
  have hno : ∀ err, errorsOf result err = false := by
    intro err
    simp [errorsOf, h]
  have hprep : prepareResourceForFix k fx resource result = resource := by
    simp only [prepareResourceForFix]
    rw [applyOnFirstError_of_no_error _ _ _ _ fun e _ => hno e,
      applyOnFirstError_of_no_error _ _ _ _ fun e _ => hno e]
  refine ⟨?_, hprep⟩
  rw [fixPotentialSecurityIssue, hprep, h]
  rfl

/-- A pod with no finding comes back as it is. -/
theorem fixPotentialSecurityIssue_no_occurrences_witness :
    fixPotentialSecurityIssue sampleConstants sampleFixes (⟨.Pod, []⟩ : SampleResource) ⟨[]⟩ =
        ⟨.Pod, []⟩ ∧
      prepareResourceForFix sampleConstants sampleFixes (⟨.Pod, []⟩ : SampleResource) ⟨[]⟩ =
        ⟨.Pod, []⟩ :=
  fixPotentialSecurityIssue_no_occurrences sampleConstants sampleFixes ⟨.Pod, []⟩ ⟨[]⟩ rfl

/-! ## C19: namespaces in `fix` -/

theorem fixResults_eq {Resource : Type} (k : Constants) (fx : Fixes Resource)
    (results : List Result) (resource : Resource) (extraResources : List Resource) :
    fixResults k fx resource extraResources results =
      ((fixResults k fx resource [] results).1,
        extraResources ++ (fixResults k fx resource [] results).2) := by
  induction results generalizing resource extraResources with
  | nil => simp [fixResults]
  | cons result rest ih =>
    simp only [fixResults]
    split
    · split
      · rw [ih resource (extraResources ++ _), ih resource ([] ++ _)]
        simp
      · exact ih resource extraResources
    · exact ih _ extraResources

theorem fixResults_of_namespace {Resource : Type} (k : Constants) (fx : Fixes Resource)
    (results : List Result) (resource : Resource) (h : fx.IsNamespaceType resource = true) :
    fixResults k fx resource [] results =
      (resource, (results.map (fixPotentialSecurityIssue k fx resource)).filter
        fun extraResource => !fx.IsNamespaceType extraResource) := by
  induction results with
  | nil => rfl
  | cons result rest ih =>
    simp only [fixResults, h, if_true, List.map_cons, List.filter_cons]
    split
    · rw [fixResults_eq, ih]
      simp
    · exact ih

theorem fixResults_extra_not_namespace {Resource : Type} (k : Constants) (fx : Fixes Resource)
    (results : List Result) (resource : Resource) :
    ∀ e ∈ (fixResults k fx resource [] results).2, fx.IsNamespaceType e = false := by
  induction results generalizing resource with
  | nil => simp [fixResults]
  | cons result rest ih =>
    simp only [fixResults]
    split
    · split
      · next hns =>
        rw [fixResults_eq]
        intro e he
        simp only [List.nil_append, List.mem_append, List.mem_singleton] at he
        rcases he with rfl | he
        · simpa using hns
        · exact ih resource e he
      · exact ih resource
    · exact ih _

theorem fixLoop_eq {Resource : Type} (k : Constants) (fx : Fixes Resource)
    (resources fixedResources extraResources : List Resource) :
    fixLoop k fx fixedResources extraResources resources =
      (fixedResources ++ resources.map (fixedOf k fx),
        extraResources ++ resources.flatMap (extraOf k fx)) := by
  induction resources generalizing fixedResources extraResources with
  | nil => simp [fixLoop]
  | cons resource rest ih =>
    simp only [fixLoop, List.map_cons, List.flatMap_cons]
    split
    · next h =>
      rw [ih]
      simp [fixedOf, extraOf, h]
    · next h =>
      rw [ih, fixResults_eq]
      simp [fixedOf, extraOf, h]

/-- C19: `fixedResources` has the length of the input, and holds at every index the outcome of
the resource of the input at that index, which is the resource itself when it is not supported
and when it is of Namespace type; no resource of `extraResources` is of Namespace type; and
what `fixPotentialSecurityIssue` returns for a supported resource of Namespace type and a
result of its audit is in `extraResources`, unless it is of Namespace type. -/
theorem fix_namespace (Resource : Type) (k : Constants) (fx : Fixes Resource)
    (resources : List Resource) :
    (fix k fx resources).1.length = resources.length ∧
    (fix k fx resources).1 = resources.map (fixedOf k fx) ∧
    (∀ r, fx.IsSupportedResourceType r = false ∨ fx.IsNamespaceType r = true →
      fixedOf k fx r = r) ∧
    (∀ e ∈ (fix k fx resources).2, fx.IsNamespaceType e = false) ∧
    (∀ r ∈ resources, fx.IsSupportedResourceType r = true → fx.IsNamespaceType r = true →
      ∀ result ∈ fx.audit r,
        fx.IsNamespaceType (fixPotentialSecurityIssue k fx r result) = false →
        fixPotentialSecurityIssue k fx r result ∈ (fix k fx resources).2) := by
  have hfix := fixLoop_eq k fx resources [] []
  simp only [List.nil_append] at hfix
  refine ⟨?_, ?_, ?_, ?_, ?_⟩
  · simp [fix, hfix]
  · simp [fix, hfix]
  · intro r hr
    unfold fixedOf
    split
    · rfl
    · next hs =>
      rcases hr with hr | hr
      · simp [hr] at hs
      · rw [fixResults_of_namespace k fx _ r hr]
  · intro e he
    simp only [fix, hfix, List.mem_flatMap] at he
    obtain ⟨r, -, her⟩ := he
    unfold extraOf at her
    split at her
    · cases her
    · exact fixResults_extra_not_namespace k fx _ r e her
  · intro r hr hs hns result hresult hextra
    simp only [fix, hfix, List.mem_flatMap]
    refine ⟨r, hr, ?_⟩
    simp only [extraOf, hs, Bool.not_true, Bool.false_eq_true, if_false]
    rw [fixResults_of_namespace k fx _ r hns]
    simp only [List.mem_filter, List.mem_map]
    exact ⟨⟨result, hresult, rfl⟩, by simp [hextra]⟩

/-- A pod, a namespace and an unsupported resource: the pod is fixed in place, the namespace
and the unsupported resource stay as they are, and the network policy made for the namespace
is the one extra resource. -/
theorem fix_namespace_witness :
    fix sampleConstants sampleFixes
        [⟨.Pod, []⟩, ⟨.Namespace, []⟩, ⟨.Unsupported, []⟩] =
      ([⟨.Pod, ["fixSecurityContextNil", "fixPrivileged", "fixSecurityContextNil",
          "fixCapabilitiesNil", "fixCapabilityNotDropped"]⟩, ⟨.Namespace, []⟩,
        ⟨.Unsupported, []⟩],
        [⟨.NetworkPolicy, ["fixNetworkPolicy"]⟩]) ∧
    (⟨.NetworkPolicy, ["fixNetworkPolicy"]⟩ : SampleResource) ∈
      (fix sampleConstants sampleFixes
        [⟨.Pod, []⟩, ⟨.Namespace, []⟩, ⟨.Unsupported, []⟩]).2 :=
  ⟨by decide,
    (fix_namespace SampleResource sampleConstants sampleFixes
      [⟨.Pod, []⟩, ⟨.Namespace, []⟩, ⟨.Unsupported, []⟩]).2.2.2.2 ⟨.Namespace, []⟩
      (by decide) (by decide) (by decide) ⟨[⟨26, 1, "network policy"⟩]⟩ (by decide)
      (by decide)⟩

/-! ## C17: `isCommentSlice` -/

/-- C17 fails on the example of the claim: the split is at the two characters `/n`, not at
the newline, so the slice is one line, which starts with `#`, and `isCommentSlice` returns
true for a slice whose second line is `kind: Pod`. -/
theorem isCommentSlice_header_and_key :
    bytesSplit "# header\nkind: Pod".toList "/n".toList = ["# header\nkind: Pod".toList] ∧
    isCommentSlice "# header\nkind: Pod".toList = true := by
  decide

/-! ## C16: the passes of `cleanupManifest` -/

theorem bytesIndex_eq_none {sep s : List Char} :
    bytesIndex sep s = none ↔ ¬ sep <:+: s := by
  induction s with
  | nil =>
    simp only [bytesIndex, List.infix_nil]
    by_cases h : sep = []
    · simp [h]
    · have : sep.isPrefixOf [] = false := by
        cases sep with
        | nil => exact absurd rfl h
        | cons a t => rfl
      simp [this, h]
  | cons c rest ih =>
    simp only [bytesIndex, List.infix_cons_iff]
    by_cases hp : sep.isPrefixOf (c :: rest) = true
    · simp [hp, List.isPrefixOf_iff_prefix.1 hp]
    · have hp2 : ¬ sep <+: c :: rest := fun h => hp (List.isPrefixOf_iff_prefix.2 h)
      simp [hp, hp2, ih]

theorem bytesContains_eq (b subslice : List Char) :
    bytesContains b subslice = decide (subslice <:+: b) := by
  unfold bytesContains
  by_cases h : subslice <:+: b
  · have : bytesIndex subslice b ≠ none := fun hn => bytesIndex_eq_none.1 hn h
    rcases hb : bytesIndex subslice b with _ | j
    · exact absurd hb this
    · simp [h]
  · simp [bytesIndex_eq_none.2 h, h]

theorem bytesIndex_eq_some {sep s : List Char} {j : Nat} (h : bytesIndex sep s = some j) :
    s = s.take j ++ sep ++ s.drop (j + sep.length) ∧ (sep ≠ [] → ¬ sep <:+: s.take j) := by
  induction s generalizing j with
  | nil =>
    simp only [bytesIndex] at h
    split at h
    · next hp =>
      cases h
      have : sep = [] := by
        cases sep with
        | nil => rfl
        | cons a t => cases hp
      subst this
      simp
    · cases h
  | cons c rest ih =>
    simp only [bytesIndex] at h
    split at h
    · next hp =>
      cases h
      obtain ⟨t, ht⟩ := List.isPrefixOf_iff_prefix.1 hp
      refine ⟨?_, fun hne => by simpa using hne⟩
      rw [← ht]
      simp
    · next hp =>
      rcases hr : bytesIndex sep rest with _ | j2
      · simp [hr] at h
      · simp only [hr, Option.map_some', Option.some.injEq] at h
        subst h
        obtain ⟨h1, h2⟩ := ih hr
        refine ⟨?_, ?_⟩
        · simp only [List.take_succ_cons, List.cons_append]
          rw [show j2 + 1 + sep.length = (j2 + sep.length) + 1 by omega, List.drop_succ_cons]
          exact congrArg (c :: ·) h1
        · intro hne hinf
          rw [List.take_succ_cons, List.infix_cons_iff] at hinf
          rcases hinf with hpre | hinf
          · apply hp
            apply List.isPrefixOf_iff_prefix.2
            refine hpre.trans ?_
            exact (List.prefix_cons_inj c).2 (List.take_prefix _ _)
          · exact h2 hne hinf

theorem bytesJoin_cons (piece : List Char) (rest : List (List Char)) (sep : List Char)
    (h : rest ≠ []) : bytesJoin (piece :: rest) sep = piece ++ sep ++ bytesJoin rest sep := by
  cases rest with
  | nil => exact absurd rfl h
  | cons a t => rfl

theorem bytesSplitAux_ne_nil (sep : List Char) (fuel : Nat) (s : List Char) :
    bytesSplitAux sep fuel s ≠ [] := by
  cases fuel with
  | zero => simp [bytesSplitAux]
  | succ n =>
    unfold bytesSplitAux
    split <;> simp

/-- Replacing is splitting and joining. -/
theorem bytesReplaceAux_eq_join (old new : List Char) (fuel : Nat) (s : List Char) :
    bytesReplaceAux old new fuel s = bytesJoin (bytesSplitAux old fuel s) new := by
  induction fuel generalizing s with
  | zero => rfl
  | succ n ih =>
    unfold bytesReplaceAux bytesSplitAux
    split
    · rfl
    · rw [bytesJoin_cons _ _ _ (bytesSplitAux_ne_nil _ _ _), ih]

/-- The pieces of a split, joined by the separator, are the slice, and no piece contains the
separator. -/
theorem bytesSplitAux_spec {sep : List Char} (hsep : sep ≠ []) (fuel : Nat) (s : List Char)
    (hfuel : s.length ≤ fuel) :
    s = bytesJoin (bytesSplitAux sep fuel s) sep ∧
      ∀ piece ∈ bytesSplitAux sep fuel s, ¬ sep <:+: piece := by
  induction fuel generalizing s with
  | zero =>
    have hs : s = [] := List.length_eq_zero.1 (by omega)
    subst hs
    refine ⟨rfl, ?_⟩
    intro piece hp
    simp only [bytesSplitAux, List.mem_singleton] at hp
    subst hp
    simpa using hsep
  | succ n ih =>
    unfold bytesSplitAux
    split
    · next hnone =>
      refine ⟨rfl, ?_⟩
      intro piece hp
      simp only [List.mem_singleton] at hp
      subst hp
      exact bytesIndex_eq_none.1 hnone
    · next m hsome =>
      obtain ⟨h1, h2⟩ := bytesIndex_eq_some hsome
      have hlen : 0 < sep.length := List.length_pos.2 hsep
      have hdrop : (s.drop (m + sep.length)).length ≤ n := by
        rw [List.length_drop]
        omega
      obtain ⟨h3, h4⟩ := ih (s.drop (m + sep.length)) hdrop
      refine ⟨?_, ?_⟩
      · rw [bytesJoin_cons _ _ _ (bytesSplitAux_ne_nil _ _ _), ← h3]
        exact h1
      · intro piece hp
        rcases List.mem_cons.1 hp with rfl | hp
        · exact h2 hsep
        · exact h4 piece hp

theorem cutAt_bytesReplace {artifact : List Char} (h : artifact ≠ []) (d : List Char) :
    CutAt artifact d (bytesReplace d artifact "\n".toList) := by
  obtain ⟨h1, h2⟩ := bytesSplitAux_spec h d.length d (Nat.le_refl _)
  exact ⟨bytesSplitAux artifact d.length d, h1, bytesReplaceAux_eq_join _ _ _ _, h2⟩

theorem cleanupStep_cleanupPass {artifact : List Char} (h : artifact ≠ [])
    (origData d : List Char) :
    CleanupStep origData artifact d (cleanupPass (bytesContains origData artifact) artifact d) := by
  rw [bytesContains_eq]
  by_cases hin : artifact <:+: origData
  · exact Or.inl ⟨hin, by simp [cleanupPass, hin]⟩
  · refine Or.inr ⟨hin, ?_⟩
    simp only [cleanupPass, hin, decide_False, Bool.not_false, if_true]
    exact cutAt_bytesReplace h d

/-- C16 (amended): `cleanupManifest` returns the last of seven data, made from `finalData` in
seven passes, one for each artifact in the order of the source. The pass of an artifact that
the original document contains changes nothing (with an empty `origFile`, the original
document is empty). The pass of an artifact that the original document does not contain cuts
its input at the instances of the artifact, found from left to right without overlap, and puts
a newline in the place of each: no piece between two cuts contains the artifact. -/
theorem cleanupManifest_passes (readFile : String → Option (List Char)) (origFile : String)
    (finalData origData : List Char)
    (horig : (origFile = "" ∧ origData = []) ∨
      (origFile ≠ "" ∧ readFile origFile = some origData)) :
    ∃ d1 d2 d3 d4 d5 d6 d7,
      cleanupManifest readFile origFile finalData = some d7 ∧
      CleanupStep origData objectMetacreationTs finalData d1 ∧
      CleanupStep origData specTemplatecreationTs d1 d2 ∧
      CleanupStep origData jobSpecTemplatecreationTs d2 d3 ∧
      CleanupStep origData nullStatus d3 d4 ∧
      CleanupStep origData nullReplicaStatus d4 d5 ∧
      CleanupStep origData nullLBStatus d5 d6 ∧
      CleanupStep origData nullMetaStatus d6 d7 := by
  have hclean : cleanupManifest readFile origFile finalData =
      some (cleanupPass (bytesContains origData nullMetaStatus) nullMetaStatus
        (cleanupPass (bytesContains origData nullLBStatus) nullLBStatus
        (cleanupPass (bytesContains origData nullReplicaStatus) nullReplicaStatus
        (cleanupPass (bytesContains origData nullStatus) nullStatus
        (cleanupPass (bytesContains origData jobSpecTemplatecreationTs)
          jobSpecTemplatecreationTs
        (cleanupPass (bytesContains origData specTemplatecreationTs) specTemplatecreationTs
        (cleanupPass (bytesContains origData objectMetacreationTs) objectMetacreationTs
          finalData))))))) := by
    rcases horig with ⟨h1, h2⟩ | ⟨h1, h2⟩
    · subst h1 h2
      simp only [cleanupManifest, ne_eq, not_true_eq_false, if_false]
      rfl
    · simp only [cleanupManifest, ne_eq, h1, not_false_eq_true, if_true, h2]
  exact ⟨_, _, _, _, _, _, _, hclean,
    cleanupStep_cleanupPass (by decide) origData finalData,
    cleanupStep_cleanupPass (by decide) origData _,
    cleanupStep_cleanupPass (by decide) origData _,
    cleanupStep_cleanupPass (by decide) origData _,
    cleanupStep_cleanupPass (by decide) origData _,
    cleanupStep_cleanupPass (by decide) origData _,
    cleanupStep_cleanupPass (by decide) origData _⟩

/-- Without an original file, the null creation timestamp and the empty status of a manifest
are cut out. -/
theorem cleanupManifest_passes_witness :
    cleanupManifest (fun _ => none) ""
        "metadata:\n  creationTimestamp: null\n  name: web\nstatus: {}\n".toList =
      some "metadata:\n  name: web\n".toList ∧
    ∃ d1 d2 d3 d4 d5 d6 d7,
      cleanupManifest (fun _ => none) ""
        "metadata:\n  creationTimestamp: null\n  name: web\nstatus: {}\n".toList = some d7 ∧
      CleanupStep [] objectMetacreationTs
        "metadata:\n  creationTimestamp: null\n  name: web\nstatus: {}\n".toList d1 ∧
      CleanupStep [] specTemplatecreationTs d1 d2 ∧
      CleanupStep [] jobSpecTemplatecreationTs d2 d3 ∧
      CleanupStep [] nullStatus d3 d4 ∧
      CleanupStep [] nullReplicaStatus d4 d5 ∧
      CleanupStep [] nullLBStatus d5 d6 ∧
      CleanupStep [] nullMetaStatus d6 d7 :=
  ⟨by decide, cleanupManifest_passes (fun _ => none) "" _ [] (Or.inl ⟨rfl, rfl⟩)⟩

/-- C16 fails when the artifact stands twice in a row: the scan replaces the first instance of
the empty status, the newline it writes completes the second one, and the returned bytes are
the artifact itself. -/
theorem cleanupManifest_status_twice :
    ¬ nullStatus <:+: ([] : List Char) ∧
    cleanupManifest (fun _ => none) "" "\nstatus: {}\nstatus: {}\n".toList =
      some "\nstatus: {}\n".toList ∧
    nullStatus <:+: "\nstatus: {}\n".toList := by
  decide

/-! ## C14: the post-doc comments in `mergeYAML` -/

theorem postDocCommentStart_append (o c : List MapItem)
    (hc : ∀ e ∈ c, e.isPostDocComment = true) (n : Nat) (hn : n ≤ c.length) :
    postDocCommentStart (o ++ c) (o.length + n) = postDocCommentStart (o ++ c) o.length := by
  induction n with
  | zero => rfl
  | succ n ih =>
    have hlt : n < c.length := by omega
    obtain ⟨item, hitem⟩ : ∃ item, (c)[n]? = some item :=
      ⟨c.get ⟨n, hlt⟩, List.getElem?_eq_getElem hlt⟩
    have hget : (o ++ c)[o.length + n]? = some item := by
      rw [List.getElem?_append_right (by omega), ← hitem]
      congr 1
      omega
    rw [← Nat.add_assoc, postDocCommentStart, hget]
    simp only [hc _ (List.getElem?_mem hitem), if_true]
    exact ih (by omega)

theorem postDocCommentStart_of_last (init c : List MapItem) (e : MapItem)
    (he : e.isPostDocComment = false) :
    postDocCommentStart ((init ++ [e]) ++ c) (init ++ [e]).length =
      some (init ++ [e]).length := by
  have hget : ((init ++ [e]) ++ c)[init.length]? = some e := by
    rw [List.append_assoc, List.getElem?_append_right (Nat.le_refl _)]
    simp
  rw [List.length_append, List.length_singleton, postDocCommentStart, hget]
  simp [he]

/-- What the scan takes out: for every parsed original `o ++ c` in which `c` is the trailing
run of the entries with a nil key and a comment that is not empty, and the last entry of `o` is
no such entry, and for every fixed mapping `f`, the merged document of `mergeYAML` is
`mergeMapSlices(o, f) ++ c`. -/
theorem mergeYAML_post_doc_comments (o c fixedYaml : List MapItem) (e : MapItem)
    (hc : ∀ x ∈ c, x.key = .null ∧ x.comment ≠ "")
    (hlast : o.getLast? = some e) (he : ¬ (e.key = .null ∧ e.comment ≠ "")) :
    mergeYAMLDocuments (o ++ c) fixedYaml =
      (mergeMapSlices o fixedYaml).map fun mergedYaml => mergedYaml ++ c := by
  have hc2 : ∀ x ∈ c, x.isPostDocComment = true := by
    intro x hx
    obtain ⟨h1, h2⟩ := hc x hx
    simp [MapItem.isPostDocComment, h1, h2, Value.isNil]
  have he2 : e.isPostDocComment = false := by
    cases hk : e.key <;> simp_all [MapItem.isPostDocComment, Value.isNil]
  have ho : o = o.dropLast ++ [e] := by
    have := List.dropLast_append_getLast? e hlast
    exact this.symm
  have hstart : postDocCommentStart (o ++ c) (o ++ c).length = some o.length := by
    rw [List.length_append, postDocCommentStart_append o c hc2 c.length (Nat.le_refl _)]
    rw [ho]
    exact postDocCommentStart_of_last _ c e he2
  simp only [mergeYAMLDocuments, hstart, List.take_left', List.drop_left']
  cases mergeMapSlices o fixedYaml <;> rfl

/-- The comment at the end of the document stays at the end, after the new key `b`. -/
theorem mergeYAML_post_doc_comments_example :
    mergeYAMLDocuments
        ([.mk (.str "a") (.int 1) "x"] ++ [.mk .null .null "the end"])
        [.mk (.str "a") (.int 2) "", .mk (.str "b") (.int 3) ""] =
      (some [.mk (.str "a") (.int 2) "x", .mk (.str "b") (.int 3) ""]).map
        fun mergedYaml => mergedYaml ++ [.mk .null .null "the end"] :=
  (mergeYAML_post_doc_comments [.mk (.str "a") (.int 1) "x"] [.mk .null .null "the end"]
    [.mk (.str "a") (.int 2) "", .mk (.str "b") (.int 3) ""] (.mk (.str "a") (.int 1) "x")
    (by decide) (by decide) (by decide)).trans (by decide)

/-- C14 fails on a last entry with a nil key, a value and a comment: the scan tests the key
and the comment and not the value, as `isComment` does, so it takes the entry, which is no
standalone comment, out before the merge and puts it back after, where the trailing run of
comments is empty and `mergeMapSlices` of the whole document and `fixed` drops the entry. -/
theorem mergeYAML_nil_key_with_value :
    (MapItem.mk .null (.int 2) "c").isComment = false ∧
    mergeMapSlices [.mk (.str "a") (.int 1) "", .mk .null (.int 2) "c"]
        [.mk (.str "a") (.int 1) ""] = some [.mk (.str "a") (.int 1) ""] ∧
    mergeYAMLDocuments [.mk (.str "a") (.int 1) "", .mk .null (.int 2) "c"]
        [.mk (.str "a") (.int 1) ""] =
      some [.mk (.str "a") (.int 1) "", .mk .null (.int 2) "c"] := by
  decide

/-- With both files read and parsed, `mergeYAML` serialises what `mergeYAMLDocuments` makes
of the two documents. -/
theorem mergeYAML_of_parsed (readFile : String → Option (List Char))
    (CommentUnmarshal : List Char → Option (List MapItem))
    (Marshal : List MapItem → Option (List Char)) (origFile fixedFile : String)
    (origData fixedData : List Char) (origYaml fixedYaml : List MapItem)
    (h1 : readFile origFile = some origData) (h2 : CommentUnmarshal origData = some origYaml)
    (h3 : readFile fixedFile = some fixedData)
    (h4 : CommentUnmarshal fixedData = some fixedYaml) :
    mergeYAML readFile CommentUnmarshal Marshal origFile fixedFile =
      (mergeYAMLDocuments origYaml fixedYaml).map Marshal := by
  simp only [mergeYAML, h1, h2, h3, h4]

/-! ## C21: the precondition pass -/

theorem applyOnFirstError_eq {Resource : Type} (errors : Int → Bool)
    (fixNil : Resource → Resource) (resource : Resource) (need : List Int) :
    applyOnFirstError errors fixNil resource need =
      if need.any errors then fixNil resource else resource := by
  induction need with
  | nil => rfl
  | cons err rest ih =>
    cases h : errors err <;> simp [applyOnFirstError, h, ih]

theorem any_errorsOf (result : Result) (need : List Int) :
    need.any (errorsOf result) = true ↔
      ∃ occurrence ∈ result.Occurrences, occurrence.id ∈ need := by
  simp only [List.any_eq_true, errorsOf, beq_iff_eq]
  constructor
  · rintro ⟨err, herr, occurrence, hocc, rfl⟩
    exact ⟨occurrence, hocc, herr⟩
  · rintro ⟨occurrence, hocc, herr⟩
    exact ⟨occurrence.id, herr, occurrence, hocc, rfl⟩

/-- C21: `prepareResourceForFix` returns `fixCapabilitiesNil(fixSecurityContextNil(resource))`
when some occurrence has an id of the capabilities list, `fixSecurityContextNil(resource)` when
none has but some occurrence has an id of the security-context list, and the resource itself
when no occurrence has an id of either list; every id of the capabilities list is in the
security-context list. -/
theorem prepareResourceForFix_cases (Resource : Type) (k : Constants) (fx : Fixes Resource)
    (resource : Resource) (result : Result) :
    (∀ err ∈ needCapabilitiesDefined k, err ∈ needSecurityContextDefined k) ∧
    ((∃ occurrence ∈ result.Occurrences, occurrence.id ∈ needCapabilitiesDefined k) ∧
        prepareResourceForFix k fx resource result =
          fx.fixCapabilitiesNil (fx.fixSecurityContextNil resource) ∨
      (¬ ∃ occurrence ∈ result.Occurrences, occurrence.id ∈ needCapabilitiesDefined k) ∧
        (∃ occurrence ∈ result.Occurrences, occurrence.id ∈ needSecurityContextDefined k) ∧
        prepareResourceForFix k fx resource result = fx.fixSecurityContextNil resource ∨
      (¬ ∃ occurrence ∈ result.Occurrences, occurrence.id ∈ needSecurityContextDefined k) ∧
        prepareResourceForFix k fx resource result = resource) := by
  have hsub : ∀ err ∈ needCapabilitiesDefined k, err ∈ needSecurityContextDefined k := by
    intro err herr
    simp only [needCapabilitiesDefined, List.mem_cons, List.mem_singleton, List.not_mem_nil,
      or_false] at herr
    simp only [needSecurityContextDefined, List.mem_cons, List.mem_singleton, List.not_mem_nil,
      or_false]
    rcases herr with rfl | rfl | rfl <;> simp
  refine ⟨hsub, ?_⟩
  simp only [prepareResourceForFix, applyOnFirstError_eq]
  by_cases hcap : ∃ occurrence ∈ result.Occurrences, occurrence.id ∈ needCapabilitiesDefined k
  · have hsc : ∃ occurrence ∈ result.Occurrences,
        occurrence.id ∈ needSecurityContextDefined k := by
      obtain ⟨occurrence, h1, h2⟩ := hcap
      exact ⟨occurrence, h1, hsub _ h2⟩
    refine Or.inl ⟨hcap, ?_⟩
    rw [if_pos ((any_errorsOf result _).2 hsc), if_pos ((any_errorsOf result _).2 hcap)]
  · have hcap2 : ¬ (needCapabilitiesDefined k).any (errorsOf result) = true :=
      fun h => hcap ((any_errorsOf result _).1 h)
    by_cases hsc : ∃ occurrence ∈ result.Occurrences,
        occurrence.id ∈ needSecurityContextDefined k
    · refine Or.inr (Or.inl ⟨hcap, hsc, ?_⟩)
      rw [if_pos ((any_errorsOf result _).2 hsc), if_neg hcap2]
    · have hsc2 : ¬ (needSecurityContextDefined k).any (errorsOf result) = true :=
        fun h => hsc ((any_errorsOf result _).1 h)
      refine Or.inr (Or.inr ⟨hsc, ?_⟩)
      rw [if_neg hsc2, if_neg hcap2]

/-! ## C22: the case `rules` -/

theorem sequenceItemMatch_rules_eq (map1 map2 : List MapItem) (c1 c2 : String) :
    sequenceItemMatch "rules" (.mk (.mapSlice map1) c1) (.mk (.mapSlice map2) c2) =
      trueOrElse (equalValueForKey "resources" map1 map2)
        (trueOrElse (equalValueForKey "host" map1 map2)
          (deepEqual (.mapSlice map1) (.mapSlice map2))) :=
  rfl

/-- The case `rules` compares `resources`, then `host`, then the two items by `deepEqual`,
each comparison being made when the ones before it are false.  When the match returns, it is
true exactly when one of the three comparisons is; and for an item without `resources` and
without `host` the match is `deepEqual` of the two values. -/
theorem sequenceItemMatch_rules (map1 map2 : List MapItem) (c1 c2 : String) :
    (sequenceItemMatch "rules" (.mk (.mapSlice map1) c1) (.mk (.mapSlice map2) c2) = some true ↔
      equalValueForKey "resources" map1 map2 = some true ∨
      (equalValueForKey "resources" map1 map2 = some false ∧
        equalValueForKey "host" map1 map2 = some true) ∨
      (equalValueForKey "resources" map1 map2 = some false ∧
        equalValueForKey "host" map1 map2 = some false ∧
        deepEqual (SequenceItem.mk (.mapSlice map1) c1).value
          (SequenceItem.mk (.mapSlice map2) c2).value = some true)) ∧
    (sequenceItemMatch "rules" (.mk (.mapSlice map1) c1) (.mk (.mapSlice map2) c2) ≠ none →
      (sequenceItemMatch "rules" (.mk (.mapSlice map1) c1) (.mk (.mapSlice map2) c2) =
          some true ↔
        equalValueForKey "resources" map1 map2 = some true ∨
        equalValueForKey "host" map1 map2 = some true ∨
        deepEqual (SequenceItem.mk (.mapSlice map1) c1).value
          (SequenceItem.mk (.mapSlice map2) c2).value = some true)) ∧
    (findItemInMapSlice (.str "resources") map1 = some none →
      findItemInMapSlice (.str "host") map1 = some none →
      sequenceItemMatch "rules" (.mk (.mapSlice map1) c1) (.mk (.mapSlice map2) c2) =
        deepEqual (SequenceItem.mk (.mapSlice map1) c1).value
          (SequenceItem.mk (.mapSlice map2) c2).value) := by
  rw [sequenceItemMatch_rules_eq]
  simp only [SequenceItem.value]
  refine ⟨?_, ?_, ?_⟩
  · rcases equalValueForKey "resources" map1 map2 with _ | _ | _ <;>
      rcases equalValueForKey "host" map1 map2 with _ | _ | _ <;> simp [trueOrElse]
  · rcases equalValueForKey "resources" map1 map2 with _ | _ | _ <;>
      rcases equalValueForKey "host" map1 map2 with _ | _ | _ <;> simp [trueOrElse]
  · intro h1 h2
    simp [equalValueForKey, h1, h2, trueOrElse]

/-- Two equal rules of an ingress that carry `http` only, in another order of the keys below,
match. -/
theorem sequenceItemMatch_rules_example :
    sequenceItemMatch "rules"
      (.mk (.mapSlice [.mk (.str "http") (.mapSlice [.mk (.str "path") (.str "/") "",
        .mk (.str "port") (.int 80) ""]) ""]) "")
      (.mk (.mapSlice [.mk (.str "http") (.mapSlice [.mk (.str "port") (.int 80) "",
        .mk (.str "path") (.str "/") ""]) ""]) "") = some true :=
  ((sequenceItemMatch_rules _ _ _ _).2.2 (by decide) (by decide)).trans (by decide)

/-! ## C23: `deepEqual` on sequences -/

/-- C23 fails on both examples of the claim: with an empty `s1` and a `s2` of one item, the
second skip reads `seq1[0]`; and with a sequence that ends with a standalone comment, compared
with itself, both indexes reach the length and the comparison reads `seq1[2]`.  A sequence
compared with a longer one that starts with the same items panics as well. -/
theorem deepEqual_seq_out_of_range :
    deepEqual (.seq []) (.seq [.mk (.str "a") ""]) = none ∧
    deepEqual (.seq [.mk (.str "a") "", .mk .null "note"])
      (.seq [.mk (.str "a") "", .mk .null "note"]) = none ∧
    deepEqual (.seq [.mk (.str "a") ""]) (.seq [.mk (.str "a") "", .mk (.str "b") ""]) =
      none := by
  decide

/-! ## C26: the scan for the post-doc comments -/

theorem postDocCommentStart_of_all (origYaml : List MapItem) (n : Nat)
    (hn : n ≤ origYaml.length) (h : ∀ item ∈ origYaml, item.isPostDocComment = true) :
    postDocCommentStart origYaml n = none := by
  induction n with
  | zero => rfl
  | succ n ih =>
    have hlt : n < origYaml.length := by omega
    rw [postDocCommentStart, List.getElem?_eq_getElem hlt]
    simp only [h _ (List.getElem_mem hlt), if_true]
    exact ih (by omega)

/-- An original document without any entry before its post-doc comments makes the scan read
the index -1: `mergeYAML` panics. -/
theorem mergeYAMLDocuments_of_all (origYaml fixedYaml : List MapItem)
    (h : ∀ item ∈ origYaml, item.isPostDocComment = true) :
    mergeYAMLDocuments origYaml fixedYaml = none := by
  simp [mergeYAMLDocuments, postDocCommentStart_of_all origYaml _ (Nat.le_refl _) h]

/-- C26 fails on both examples of the claim: for an empty mapping and for a mapping of one
comment entry the scan reads `origYaml[-1]`, and the merge does not proceed. -/
theorem mergeYAML_scan_out_of_range :
    postDocCommentStart [] 0 = none ∧
    mergeYAMLDocuments [] [.mk (.str "a") (.int 1) ""] = none ∧
    (MapItem.mk .null .null "only a comment").isComment = true ∧
    postDocCommentStart [.mk .null .null "only a comment"] 1 = none ∧
    mergeYAMLDocuments [.mk .null .null "only a comment"] [.mk (.str "a") (.int 1) ""] =
      none := by
  decide

/-! ## C24: symmetry of `deepEqual` -/

theorem mem_isPlainMapItems {m : List MapItem} {s : Bool} (h : isPlainMapItems m s = true)
    {e : MapItem} (he : e ∈ m) (hcom : e.isComment = false) :
    e.key.isComparable = true ∧ e.key ≠ .null ∧ e.value.isPlain s = true := by
  induction m with
  | nil => cases he
  | cons a rest ih =>
    obtain ⟨k, v, c⟩ := a
    simp only [isPlainMapItems, Bool.and_eq_true, Bool.or_eq_true, Bool.not_eq_true'] at h
    rcases List.mem_cons.1 he with rfl | he2
    · rcases h.1 with h1 | h1
      · rw [hcom] at h1
        cases h1
      · refine ⟨h1.1.1, ?_, h1.2⟩
        intro hk
        rw [MapItem.key_mk] at hk
        rw [hk] at h1
        simp [Value.isNil] at h1
    · exact ih h.2 he2

theorem mem_isPlainSeqItems {l : List SequenceItem} {s : Bool} (h : isPlainSeqItems l s = true)
    {x : SequenceItem} (hx : x ∈ l) : x.isComment = false ∧ x.value.isPlain s = true := by
  induction l with
  | nil => cases hx
  | cons a rest ih =>
    obtain ⟨v, c⟩ := a
    simp only [isPlainSeqItems, Bool.and_eq_true, Bool.not_eq_true'] at h
    rcases List.mem_cons.1 hx with rfl | hx2
    · exact ⟨h.1.1, h.1.2⟩
    · exact ih h.2 hx2

theorem isPlain_mapSlice {m : List MapItem} {s : Bool}
    (h : (Value.mapSlice m).isPlain s = true) :
    isPlainMapItems m s = true ∧ ((m.filter fun e => !e.isComment).map MapItem.key).Nodup := by
  simpa [Value.isPlain] using h

theorem isPlain_seq {l : List SequenceItem} {s : Bool} (h : (Value.seq l).isPlain s = true) :
    s = true ∧ isPlainSeqItems l s = true := by
  simpa [Value.isPlain] using h

/-- What `deepEqual(m1, m2) = true` says of the entries, comments apart, when the keys of `m1`
are non-nil scalars, pairwise distinct: every entry of `m1` has its key and an equal value in
`m2`, and every key of `m2` is a key of `m1`. -/
theorem entries_of_mapSliceLoop_true {m1 m2 : List MapItem}
    (hkey : ∀ o ∈ m1, o.isComment = false → o.key.isComparable = true ∧ o.key ≠ .null)
    (hnodup : ((m1.filter fun e => !e.isComment).map MapItem.key).Nodup)
    (hnum : numValues m1 = numValues m2)
    (hloop : mapSliceLoop deepEqual m2 m1 = some true) :
    (∀ o ∈ m1, o.isComment = false →
      ∃ f ∈ m2, f.isComment = false ∧ f.key = o.key ∧ deepEqual o.value f.value = some true) ∧
    ∀ f ∈ m2, f.isComment = false → ∃ o ∈ m1, o.isComment = false ∧ o.key = f.key := by
  have h1 : ∀ o ∈ m1, o.isComment = false →
      ∃ f ∈ m2, f.isComment = false ∧ f.key = o.key ∧
        deepEqual o.value f.value = some true := by
    intro o ho hcom
    obtain ⟨i, x, hfind, hval⟩ := mapSliceLoop_eq_true hloop ho hcom
    obtain ⟨hx1, hx2, hx3⟩ := findItemInMapSliceWith_spec hfind
    have hxk : x.key = o.key :=
      eq_of_deepEqual_right (isContainer_of_isComparable (hkey o ho hcom).1) hx3
    have hxc : x.isComment = false :=
      MapItem.isComment_eq_false (by rw [hxk]; exact (hkey o ho hcom).2)
        (by rw [hxk]; exact MapItem.key_of_isComment_eq_false hcom)
    exact ⟨x, List.getElem?_mem hx1, hxc, hxk, hval⟩
  refine ⟨h1, ?_⟩
  have hsub : (m1.filter fun e => !e.isComment).map MapItem.key ⊆
      (m2.filter fun e => !e.isComment).map MapItem.key := by
    intro k hk
    obtain ⟨o, ho, rfl⟩ := List.mem_map.1 hk
    obtain ⟨ho1, ho2⟩ := List.mem_filter.1 ho
    obtain ⟨f, hf, hfc, hfk, -⟩ := h1 o ho1 (by simpa using ho2)
    exact List.mem_map.2 ⟨f, List.mem_filter.2 ⟨hf, by simp [hfc]⟩, hfk⟩
  have hlen : ((m2.filter fun e => !e.isComment).map MapItem.key).length ≤
      ((m1.filter fun e => !e.isComment).map MapItem.key).length := by
    simp only [List.length_map]
    simp only [numValues] at hnum
    omega
  have hperm := (List.subperm_of_subset hnodup hsub).perm_of_length_le hlen
  intro f hf hfc
  have hmem := hperm.mem_iff.2
    (List.mem_map.2 ⟨f, List.mem_filter.2 ⟨hf, by simp [hfc]⟩, rfl⟩)
  obtain ⟨o, ho, hok⟩ := List.mem_map.1 hmem
  obtain ⟨ho1, ho2⟩ := List.mem_filter.1 ho
  exact ⟨o, ho1, by simpa using ho2, hok⟩

theorem eq_of_nodup_filter_key {m : List MapItem}
    (h : ((m.filter fun e => !e.isComment).map MapItem.key).Nodup) {a b : MapItem}
    (ha : a ∈ m) (hb : b ∈ m) (hac : a.isComment = false) (hbc : b.isComment = false)
    (hab : a.key = b.key) : a = b :=
  List.inj_on_of_nodup_map h (List.mem_filter.2 ⟨ha, by simp [hac]⟩)
    (List.mem_filter.2 ⟨hb, by simp [hbc]⟩) hab

theorem skipComments_of_not_comment {seq : List SequenceItem} {len fuel index : Nat}
    {x : SequenceItem} (hx : seq[index]? = some x) (hc : x.isComment = false) :
    skipComments seq len fuel index = some index := by
  cases fuel with
  | zero => rfl
  | succ n => simp [skipComments, hx, hc]

theorem skipComments_of_ge {seq : List SequenceItem} {len fuel index : Nat} (h : len ≤ index) :
    skipComments seq len fuel index = some index := by
  cases fuel with
  | zero => rfl
  | succ n =>
    have : ¬ index < len := by omega
    simp [skipComments, this]

/-- On a first sequence without standalone comments, the loop of the sequence case returns
true from the index `i` on both sides only when the two sequences have the same length, unless
both end before `i`, and the items from `i` on are equal in pairs. -/
theorem sequenceLoop_true {eq : Value → Value → Option Bool} {seq1 seq2 : List SequenceItem}
    (hc : ∀ x ∈ seq1, x.isComment = false) (fuel i : Nat)
    (h : sequenceLoop eq seq1 seq2 fuel i i = some true) :
    (i < seq1.length ∨ i < seq2.length → seq1.length = seq2.length) ∧
    ∀ j x y, i ≤ j → seq1[j]? = some x → seq2[j]? = some y →
      eq x.value y.value = some true := by
  induction fuel generalizing i with
  | zero => simp [sequenceLoop] at h
  | succ n ih =>
    unfold sequenceLoop at h
    split at h
    · next hlt =>
      by_cases h1 : i < seq1.length
      · have hx := List.getElem?_eq_getElem h1
        have hxc := hc _ (List.getElem_mem h1)
        rw [skipComments_of_not_comment hx hxc] at h
        simp only at h
        by_cases h2 : i < seq2.length
        · rw [skipComments_of_not_comment hx hxc] at h
          simp only at h
          split at h
          · cases h
          · rw [hx, List.getElem?_eq_getElem h2] at h
            simp only at h
            split at h
            · cases h
            · cases h
            · next hval =>
              obtain ⟨ih1, ih2⟩ := ih (i + 1) h
              refine ⟨fun _ => ?_, ?_⟩
              · by_cases h3 : i + 1 < seq1.length ∨ i + 1 < seq2.length
                · exact ih1 h3
                · omega
              · intro j x y hij hjx hjy
                by_cases hji : j = i
                · subst hji
                  rw [hx] at hjx
                  rw [List.getElem?_eq_getElem h2] at hjy
                  cases hjx
                  cases hjy
                  exact hval
                · exact ih2 j x y (by omega) hjx hjy
        · rw [skipComments_of_ge (by omega)] at h
          simp only at h
          split at h
          · cases h
          · have hy : seq2[i]? = none := List.getElem?_eq_none (by omega)
            rw [hx, hy] at h
            cases h
      · have h2 : i < seq2.length := by omega
        rw [skipComments_of_ge (by omega)] at h
        simp only at h
        obtain ⟨m, hm⟩ : ∃ m, seq2.length - i = m + 1 := ⟨seq2.length - i - 1, by omega⟩
        have hnone : seq1[i]? = none := List.getElem?_eq_none (by omega)
        rw [hm] at h
        simp [skipComments, h2, hnone] at h
    · next hlt =>
      refine ⟨fun h2 => absurd h2 hlt, ?_⟩
      intro j x y hij hjx hjy
      have := (List.getElem?_eq_some.1 hjx).1
      omega

theorem sequenceLoop_of_pairs {eq : Value → Value → Option Bool} {seq1 seq2 : List SequenceItem}
    (hc : ∀ x ∈ seq1, x.isComment = false) (hlen : seq1.length = seq2.length) (fuel i : Nat)
    (hfuel : seq1.length - i < fuel)
    (hpairs : ∀ j x y, i ≤ j → seq1[j]? = some x → seq2[j]? = some y →
      eq x.value y.value = some true) :
    sequenceLoop eq seq1 seq2 fuel i i = some true := by
  induction fuel generalizing i with
  | zero => omega
  | succ n ih =>
    unfold sequenceLoop
    split
    · next hlt =>
      have h1 : i < seq1.length := by omega
      have h2 : i < seq2.length := by omega
      have hx := List.getElem?_eq_getElem h1
      have hy := List.getElem?_eq_getElem h2
      have hxc := hc _ (List.getElem_mem h1)
      rw [skipComments_of_not_comment hx hxc, skipComments_of_not_comment hx hxc]
      simp only
      rw [if_neg (by omega), hx, hy]
      simp only [hpairs i _ _ (Nat.le_refl _) hx hy]
      exact ih (i + 1) (by omega) fun j x y hij => hpairs j x y (by omega)
    · rfl

theorem deepEqual_mapSlice_left {m : List MapItem} {b : Value} {r : Bool}
    (h : deepEqual (.mapSlice m) b = some r) (hr : r = true) : ∃ m2, b = .mapSlice m2 := by
  subst hr
  cases b <;> first
    | exact ⟨_, rfl⟩
    | simp [deepEqual, deepEqualAux] at h

theorem deepEqual_seq_left {l : List SequenceItem} {b : Value}
    (h : deepEqual (.seq l) b = some true) : ∃ l2, b = .seq l2 := by
  cases b <;> first
    | exact ⟨_, rfl⟩
    | simp [deepEqual, deepEqualAux] at h

/-- On plain values, `deepEqual(a, b) = true` gives `deepEqual(b, a) = true`. -/
theorem deepEqual_true_symm (s : Bool) (n : Nat) :
    ∀ a b : Value, a.depth ≤ n → a.isPlain s = true → b.isPlain s = true →
      deepEqual a b = some true → deepEqual b a = some true := by
  induction n with
  | zero =>
    intro a b hd ha hb h
    cases a with
    | mapSlice m => simp [Value.depth] at hd
    | seq l => simp [Value.depth] at hd
    | _ => exact (deepEqual_symm_of_not_container (by rfl) h).2
  | succ n ih =>
    intro a b hd ha hb h
    cases a with
    | mapSlice m1 =>
      obtain ⟨m2, rfl⟩ := deepEqual_mapSlice_left h rfl
      obtain ⟨ha1, ha2⟩ := isPlain_mapSlice ha
      obtain ⟨hb1, hb2⟩ := isPlain_mapSlice hb
      simp only [Value.depth, Nat.add_le_add_iff_right] at hd
      rw [deepEqual_mapSlice] at h ⊢
      split at h
      · cases h
      · next hnum =>
        simp only [ne_eq, not_not] at hnum
        rw [if_neg (by simp [hnum])]
        obtain ⟨h1, h2⟩ := entries_of_mapSliceLoop_true
          (fun o ho hc => ⟨(mem_isPlainMapItems ha1 ho hc).1, (mem_isPlainMapItems ha1 ho hc).2.1⟩)
          ha2 hnum h
        apply mapSliceLoop_true_of_forall
        intro e he hec
        obtain ⟨hek1, hek2, hev⟩ := mem_isPlainMapItems hb1 he hec
        obtain ⟨o, ho, hoc, hok⟩ := h2 e he hec
        refine ⟨hek1, hek2, ⟨o, ho, hok⟩, ?_⟩
        intro x hx hxk
        have hxc : x.isComment = false :=
          MapItem.isComment_eq_false (by rw [hxk]; exact hek2)
            (by rw [hxk]; exact MapItem.key_of_isComment_eq_false hec)
        obtain ⟨f, hf, hfc, hfk, hval⟩ := h1 x hx hxc
        have hfe : f = e := eq_of_nodup_filter_key hb2 hf he hfc hec (hfk.trans hxk)
        subst hfe
        have hxd := (depth_key_le hx).2
        exact ih x.value f.value (by omega) (mem_isPlainMapItems ha1 hx hxc).2.2 hev hval
    | seq l1 =>
      obtain ⟨l2, rfl⟩ := deepEqual_seq_left h
      obtain ⟨-, ha1⟩ := isPlain_seq ha
      obtain ⟨-, hb1⟩ := isPlain_seq hb
      simp only [Value.depth, Nat.add_le_add_iff_right] at hd
      rw [deepEqual_seq] at h ⊢
      obtain ⟨hlen, hpairs⟩ := sequenceLoop_true (fun x hx => (mem_isPlainSeqItems ha1 hx).1) _ _ h
      have hlen2 : l1.length = l2.length := by
        by_cases h0 : 0 < l1.length ∨ 0 < l2.length
        · exact hlen h0
        · omega
      apply sequenceLoop_of_pairs (fun x hx => (mem_isPlainSeqItems hb1 hx).1) hlen2.symm
      · omega
      · intro j y x _ hy hx
        have hxm := List.getElem?_mem hx
        have hym := List.getElem?_mem hy
        have hxd := depth_value_le hxm
        exact ih x.value y.value (by omega) (mem_isPlainSeqItems ha1 hxm).2
          (mem_isPlainSeqItems hb1 hym).2 (hpairs j x y (Nat.zero_le _) hx hy)
    | _ => exact (deepEqual_symm_of_not_container (by rfl) h).2

theorem goEq_symm (a b : Value) : goEq a b = goEq b a := by
  cases a <;> cases b <;> simp [goEq, eq_comm]
  case float.float x y =>
    cases x <;> cases y <;> simp [eq_comm]

theorem goEq_isSome_of_not_container {a : Value} (h : a.isContainer = false) (b : Value) :
    ∃ r, goEq a b = some r := by
  cases a <;> simp [Value.isContainer] at h <;> cases b <;> simp [goEq]

theorem mapSliceLoop_isSome {map2 l : List MapItem}
    (h : ∀ e ∈ l, e.isComment = false →
      e.key.isComparable = true ∧ e.key ≠ .null ∧
        ∀ x ∈ map2, x.key = e.key → ∃ r, deepEqual e.value x.value = some r) :
    ∃ r, mapSliceLoop deepEqual map2 l = some r := by
  induction l with
  | nil => exact ⟨true, rfl⟩
  | cons e rest ih =>
    obtain ⟨r, hr⟩ := ih fun x hx => h x (List.mem_cons_of_mem _ hx)
    cases hcom : e.isComment
    · obtain ⟨hc, hn, hall⟩ := h e (List.mem_cons_self _ _) hcom
      have hfind : findItemInMapSliceWith deepEqual e.key map2 = _ :=
        findItemInMapSlice_comparable hc hn map2
      rcases hl : lookupBy (fun x => decide (x.key = e.key)) map2 with _ | ⟨i, y⟩
      · exact ⟨false, by simp [mapSliceLoop, hcom, hfind, hl]⟩
      · obtain ⟨hy1, hy2, -⟩ := lookupBy_eq_some hl
        obtain ⟨rv, hrv⟩ := hall y (List.getElem?_mem hy1) (by simpa using hy2)
        cases rv
        · exact ⟨false, by simp [mapSliceLoop, hcom, hfind, hl, hrv]⟩
        · exact ⟨r, by simp [mapSliceLoop, hcom, hfind, hl, hrv, hr]⟩
    · exact ⟨r, by simp [mapSliceLoop, hcom, hr]⟩

/-- On plain values without sequences, `deepEqual` returns. -/
theorem deepEqual_isSome_of_plain (n : Nat) :
    ∀ a b : Value, a.depth ≤ n → a.isPlain false = true → b.isPlain false = true →
      ∃ r, deepEqual a b = some r := by
  induction n with
  | zero =>
    intro a b hd ha hb
    cases a with
    | mapSlice m => simp [Value.depth] at hd
    | seq l => simp [Value.depth] at hd
    | _ =>
      rw [deepEqual_of_not_container (by rfl)]
      exact goEq_isSome_of_not_container (by rfl) b
  | succ n ih =>
    intro a b hd ha hb
    cases a with
    | mapSlice m1 =>
      obtain ⟨ha1, ha2⟩ := isPlain_mapSlice ha
      simp only [Value.depth, Nat.add_le_add_iff_right] at hd
      cases b with
      | mapSlice m2 =>
        obtain ⟨hb1, hb2⟩ := isPlain_mapSlice hb
        rw [deepEqual_mapSlice]
        split
        · exact ⟨false, rfl⟩
        · apply mapSliceLoop_isSome
          intro e he hec
          obtain ⟨hek1, hek2, hev⟩ := mem_isPlainMapItems ha1 he hec
          refine ⟨hek1, hek2, ?_⟩
          intro x hx hxk
          have hxc : x.isComment = false :=
            MapItem.isComment_eq_false (by rw [hxk]; exact hek2)
              (by rw [hxk]; exact MapItem.key_of_isComment_eq_false hec)
          have hed := (depth_key_le he).2
          exact ih e.value x.value (by omega) hev (mem_isPlainMapItems hb1 hx hxc).2.2
      | _ => exact ⟨false, by simp [deepEqual, deepEqualAux]⟩
    | seq l =>
      have := (isPlain_seq ha).1
      cases this
    | _ =>
      rw [deepEqual_of_not_container (by rfl)]
      exact goEq_isSome_of_not_container (by rfl) b

theorem deepEqual_eq_symm_of_plain {a b : Value} (ha : a.isPlain false = true)
    (hb : b.isPlain false = true) : deepEqual a b = deepEqual b a := by
  obtain ⟨r, hr⟩ := deepEqual_isSome_of_plain a.depth a b (Nat.le_refl _) ha hb
  obtain ⟨r2, hr2⟩ := deepEqual_isSome_of_plain b.depth b a (Nat.le_refl _) hb ha
  cases r
  · cases r2
    · rw [hr, hr2]
    · have := deepEqual_true_symm false b.depth b a (Nat.le_refl _) hb ha hr2
      rw [hr] at this
      cases this
  · rw [hr, deepEqual_true_symm false a.depth a b (Nat.le_refl _) ha hb hr]

/-- C24 (amended): on values without sequences in which the entries of every mapping, its
standalone comments apart, have non-nil scalar keys, pairwise distinct, `deepEqual` is
symmetric, and so it is on entries and items with such values.  On values that may also hold
sequences, without standalone comment items, `deepEqual(a, b)` returns true exactly when
`deepEqual(b, a)` does. -/
theorem deepEqual_symm_of_plain :
    (∀ a b : Value, a.isPlain false = true → b.isPlain false = true →
      deepEqual a b = deepEqual b a) ∧
    (∀ e1 e2 : MapItem, e1.value.isPlain false = true → e2.value.isPlain false = true →
      deepEqualMapItem e1 e2 = deepEqualMapItem e2 e1) ∧
    (∀ i1 i2 : SequenceItem, i1.value.isPlain false = true → i2.value.isPlain false = true →
      deepEqualSequenceItem i1 i2 = deepEqualSequenceItem i2 i1) ∧
    (∀ a b : Value, a.isPlain true = true → b.isPlain true = true →
      (deepEqual a b = some true ↔ deepEqual b a = some true)) := by
  refine ⟨fun a b ha hb => deepEqual_eq_symm_of_plain ha hb, ?_, ?_, ?_⟩
  · intro e1 e2 h1 h2
    simp only [deepEqualMapItem]
    rw [goEq_symm e1.key e2.key, deepEqual_eq_symm_of_plain h1 h2]
  · intro i1 i2 h1 h2
    exact deepEqual_eq_symm_of_plain h1 h2
  · intro a b ha hb
    exact ⟨deepEqual_true_symm true a.depth a b (Nat.le_refl _) ha hb,
      deepEqual_true_symm true b.depth b a (Nat.le_refl _) hb ha⟩

/-- Two mappings with the same entries in another order, one of them with comments, and two
such mappings under a sequence. -/
theorem deepEqual_symm_of_plain_witness :
    deepEqual
        (.mapSlice [.mk .null .null "note", .mk (.str "k") (.int 1) "c",
          .mk (.str "m") (.mapSlice [.mk (.str "x") (.int 1) "", .mk (.str "y") (.int 2) ""]) ""])
        (.mapSlice [.mk (.str "m") (.mapSlice [.mk (.str "y") (.int 2) "",
          .mk (.str "x") (.int 1) ""]) "", .mk (.str "k") (.int 1) ""]) =
      deepEqual
        (.mapSlice [.mk (.str "m") (.mapSlice [.mk (.str "y") (.int 2) "",
          .mk (.str "x") (.int 1) ""]) "", .mk (.str "k") (.int 1) ""])
        (.mapSlice [.mk .null .null "note", .mk (.str "k") (.int 1) "c",
          .mk (.str "m") (.mapSlice [.mk (.str "x") (.int 1) "", .mk (.str "y") (.int 2) ""])
            ""]) ∧
    deepEqual
        (.seq [.mk (.mapSlice [.mk (.str "x") (.int 1) "", .mk (.str "y") (.int 2) ""]) "c"])
        (.seq [.mk (.mapSlice [.mk (.str "y") (.int 2) "", .mk (.str "x") (.int 1) ""]) ""]) =
      some true :=
  ⟨deepEqual_symm_of_plain.1 _ _ (by decide) (by decide),
    (deepEqual_symm_of_plain.2.2.2
      (.seq [.mk (.mapSlice [.mk (.str "y") (.int 2) "", .mk (.str "x") (.int 1) ""]) ""])
      (.seq [.mk (.mapSlice [.mk (.str "x") (.int 1) "", .mk (.str "y") (.int 2) ""]) "c"])
      (by decide) (by decide)).1 (by decide)⟩

/-- C24 fails on a mapping in which a key occurs twice: every key of `{k: 1, k: 1}` is found
in `{k: 1, j: 2}` with an equal value, and `j` is not found in `{k: 1, k: 1}`. -/
theorem deepEqual_not_symm_duplicate_key :
    deepEqual (.mapSlice [.mk (.str "k") (.int 1) "", .mk (.str "k") (.int 1) ""])
      (.mapSlice [.mk (.str "k") (.int 1) "", .mk (.str "j") (.int 2) ""]) = some true ∧
    deepEqual (.mapSlice [.mk (.str "k") (.int 1) "", .mk (.str "j") (.int 2) ""])
      (.mapSlice [.mk (.str "k") (.int 1) "", .mk (.str "k") (.int 1) ""]) = some false := by
  decide

/-! ## C25: symmetry of `sequenceItemMatch` -/

theorem isComment_eq_false_of_key_str {x : MapItem} {key : String} (h : x.key = .str key) :
    x.isComment = false :=
  MapItem.isComment_eq_false (by rw [h]; intro e; cases e) (by rw [h]; intro s e; cases e)

theorem findItemInMapSlice_str (key : String) (m : List MapItem) :
    findItemInMapSlice (.str key) m =
      some (lookupBy (fun x => decide (x.key = .str key)) m) :=
  findItemInMapSlice_comparable (by rfl) (by intro e; cases e) m

theorem equalValueForKey_symm (key : String) (m1 m2 : List MapItem)
    (h1 : ∀ x ∈ m1, x.key = .str key → x.value.isPlain false = true)
    (h2 : ∀ x ∈ m2, x.key = .str key → x.value.isPlain false = true) :
    equalValueForKey key m1 m2 = equalValueForKey key m2 m1 := by
  simp only [equalValueForKey, findItemInMapSlice_str]
  rcases hl1 : lookupBy (fun x => decide (x.key = .str key)) m1 with _ | ⟨i1, x1⟩ <;>
    rcases hl2 : lookupBy (fun x => decide (x.key = .str key)) m2 with _ | ⟨i2, x2⟩ <;>
    simp only [hl1, hl2]
  obtain ⟨hx1, hx2, -⟩ := lookupBy_eq_some hl1
  obtain ⟨hy1, hy2, -⟩ := lookupBy_eq_some hl2
  exact deepEqual_eq_symm_of_plain (h1 x1 (List.getElem?_mem hx1) (by simpa using hx2))
    (h2 x2 (List.getElem?_mem hy1) (by simpa using hy2))

theorem equalValueForKey_symm_of_plain {m1 m2 : List MapItem}
    (h1 : isPlainMapItems m1 false = true) (h2 : isPlainMapItems m2 false = true)
    (key : String) : equalValueForKey key m2 m1 = equalValueForKey key m1 m2 :=
  equalValueForKey_symm key m2 m1
    (fun _ hx hk => (mem_isPlainMapItems h2 hx (isComment_eq_false_of_key_str hk)).2.2)
    (fun _ hx hk => (mem_isPlainMapItems h1 hx (isComment_eq_false_of_key_str hk)).2.2)

theorem equalNestedValueForKey_symm {val1 val2 : MapItem}
    (h1 : val1.value.isPlain false = true) (h2 : val2.value.isPlain false = true)
    (key : String) :
    equalNestedValueForKey key val2 val1 = equalNestedValueForKey key val1 val2 := by
  unfold equalNestedValueForKey
  cases hv1 : val1.value <;> cases hv2 : val2.value <;> simp only [assertMapSlice]
  rw [hv1] at h1
  rw [hv2] at h2
  exact equalValueForKey_symm_of_plain (isPlain_mapSlice h1).1 (isPlain_mapSlice h2).1 key

theorem nestedMatch_eq (outer inner : String) (m1 m2 : List MapItem)
    (onlyFirst neither : Option Bool) :
    nestedMatch outer inner m1 m2 onlyFirst neither =
      match lookupBy (fun x => decide (x.key = .str outer)) m1 with
      | none => neither
      | some (_, val1) =>
        match lookupBy (fun x => decide (x.key = .str outer)) m2 with
        | none => onlyFirst
        | some (_, val2) => equalNestedValueForKey inner val1 val2 := by
  simp only [nestedMatch, findItemInMapSlice_str]
  generalize lookupBy (fun x => decide (x.key = .str outer)) m1 = o1
  generalize lookupBy (fun x => decide (x.key = .str outer)) m2 = o2
  rcases o1 with _ | ⟨i1, x1⟩ <;> rcases o2 with _ | ⟨i2, x2⟩ <;> rfl

theorem value_isPlain_of_lookupBy {m : List MapItem} (h : isPlainMapItems m false = true)
    {key : String} {i : Nat} {x : MapItem}
    (hl : lookupBy (fun x => decide (x.key = .str key)) m = some (i, x)) :
    x.value.isPlain false = true := by
  obtain ⟨hx1, hx2, -⟩ := lookupBy_eq_some hl
  exact (mem_isPlainMapItems h (List.getElem?_mem hx1)
    (isComment_eq_false_of_key_str (by simpa using hx2))).2.2

/-- A nested comparison whose two ways out are the same is symmetric. -/
theorem nestedMatch_symm {m1 m2 : List MapItem} (h1 : isPlainMapItems m1 false = true)
    (h2 : isPlainMapItems m2 false = true) (outer inner : String) (r : Option Bool) :
    nestedMatch outer inner m2 m1 r r = nestedMatch outer inner m1 m2 r r := by
  simp only [nestedMatch_eq]
  rcases hl1 : lookupBy (fun x => decide (x.key = .str outer)) m1 with _ | ⟨i1, x1⟩ <;>
    rcases hl2 : lookupBy (fun x => decide (x.key = .str outer)) m2 with _ | ⟨i2, x2⟩ <;>
    simp only [hl1, hl2]
  exact equalNestedValueForKey_symm (value_isPlain_of_lookupBy h1 hl1)
    (value_isPlain_of_lookupBy h2 hl2) inner

theorem matchMapSlices_default {sequenceKey : String} (h : sequenceKey ∉ specialCaseFields)
    (m1 m2 : List MapItem) :
    matchMapSlices sequenceKey m1 m2 = matchByTable sequenceKey m1 m2 := by
  simp only [specialCaseFields, List.mem_cons, List.mem_singleton, List.not_mem_nil, or_false,
    not_or] at h
  unfold matchMapSlices
  split <;> first
    | (exfalso; simp_all; done)
    | rfl

theorem hasKey_str_eq (key : String) (m : List MapItem) :
    hasKey (.str key) m = (lookupBy (fun x => decide (x.key = .str key)) m).isSome := by
  rw [lookupBy_isSome]
  rfl

/-- The case `sources` is symmetric on two mappings that have at most one of its four keys
each. -/
theorem matchMapSlices_sources_symm {m1 m2 : List MapItem}
    (h1 : isPlainMapItems m1 false = true) (h2 : isPlainMapItems m2 false = true)
    (a1 : atMostOneSource (.mapSlice m1) = true) (a2 : atMostOneSource (.mapSlice m2) = true) :
    matchMapSlices "sources" m2 m1 = matchMapSlices "sources" m1 m2 := by
  have hform : ∀ n1 n2 : List MapItem, matchMapSlices "sources" n1 n2 =
      nestedMatch "configMap" "name" n1 n2 (some false)
        (nestedMatch "downwardAPI" "items" n1 n2 (some false)
          (nestedMatch "secret" "name" n1 n2 (some false)
            (nestedMatch "serviceAccountToken" "path" n1 n2 (some false) (some false)))) :=
    fun _ _ => rfl
  rw [hform, hform]
  simp only [nestedMatch_eq]
  simp only [atMostOneSource, sourceKinds, hasKey_str_eq, decide_eq_true_eq, List.filter_cons,
    List.filter_nil] at a1 a2
  have p1 := fun (i : Nat) (x : MapItem)
    (h : lookupBy (fun x => decide (x.key = .str "configMap")) m1 = some (i, x)) =>
      value_isPlain_of_lookupBy h1 h
  have p2 := fun (i : Nat) (x : MapItem)
    (h : lookupBy (fun x => decide (x.key = .str "downwardAPI")) m1 = some (i, x)) =>
      value_isPlain_of_lookupBy h1 h
  have p3 := fun (i : Nat) (x : MapItem)
    (h : lookupBy (fun x => decide (x.key = .str "secret")) m1 = some (i, x)) =>
      value_isPlain_of_lookupBy h1 h
  have p4 := fun (i : Nat) (x : MapItem)
    (h : lookupBy (fun x => decide (x.key = .str "serviceAccountToken")) m1 = some (i, x)) =>
      value_isPlain_of_lookupBy h1 h
  have q1 := fun (i : Nat) (x : MapItem)
    (h : lookupBy (fun x => decide (x.key = .str "configMap")) m2 = some (i, x)) =>
      value_isPlain_of_lookupBy h2 h
  have q2 := fun (i : Nat) (x : MapItem)
    (h : lookupBy (fun x => decide (x.key = .str "downwardAPI")) m2 = some (i, x)) =>
      value_isPlain_of_lookupBy h2 h
  have q3 := fun (i : Nat) (x : MapItem)
    (h : lookupBy (fun x => decide (x.key = .str "secret")) m2 = some (i, x)) =>
      value_isPlain_of_lookupBy h2 h
  have q4 := fun (i : Nat) (x : MapItem)
    (h : lookupBy (fun x => decide (x.key = .str "serviceAccountToken")) m2 = some (i, x)) =>
      value_isPlain_of_lookupBy h2 h
  generalize lookupBy (fun x => decide (x.key = .str "configMap")) m1 = o1 at a1 p1 ⊢
  generalize lookupBy (fun x => decide (x.key = .str "downwardAPI")) m1 = o2 at a1 p2 ⊢
  generalize lookupBy (fun x => decide (x.key = .str "secret")) m1 = o3 at a1 p3 ⊢
  generalize lookupBy (fun x => decide (x.key = .str "serviceAccountToken")) m1 = o4 at a1 p4 ⊢
  generalize lookupBy (fun x => decide (x.key = .str "configMap")) m2 = r1 at a2 q1 ⊢
  generalize lookupBy (fun x => decide (x.key = .str "downwardAPI")) m2 = r2 at a2 q2 ⊢
  generalize lookupBy (fun x => decide (x.key = .str "secret")) m2 = r3 at a2 q3 ⊢
  generalize lookupBy (fun x => decide (x.key = .str "serviceAccountToken")) m2 = r4 at a2 q4 ⊢
  rcases o1 with _ | ⟨i1, x1⟩ <;> rcases o2 with _ | ⟨i2, x2⟩ <;>
    rcases o3 with _ | ⟨i3, x3⟩ <;> rcases o4 with _ | ⟨i4, x4⟩ <;>
    first
    | (exfalso; simp [List.filter_cons] at a1; done)
    | (rcases r1 with _ | ⟨j1, y1⟩ <;> rcases r2 with _ | ⟨j2, y2⟩ <;>
        rcases r3 with _ | ⟨j3, y3⟩ <;> rcases r4 with _ | ⟨j4, y4⟩ <;>
        first
        | (exfalso; simp [List.filter_cons] at a2; done)
        | rfl
        | (apply equalNestedValueForKey_symm <;>
            first
            | exact p1 _ _ rfl
            | exact p2 _ _ rfl
            | exact p3 _ _ rfl
            | exact p4 _ _ rfl
            | exact q1 _ _ rfl
            | exact q2 _ _ rfl
            | exact q3 _ _ rfl
            | exact q4 _ _ rfl))

theorem matchByTable_symm {m1 m2 : List MapItem}
    (h1 : (Value.mapSlice m1).isPlain false = true)
    (h2 : (Value.mapSlice m2).isPlain false = true) (sequenceKey : String) :
    matchByTable sequenceKey m2 m1 = matchByTable sequenceKey m1 m2 := by
  unfold matchByTable
  split
  · exact equalValueForKey_symm_of_plain (isPlain_mapSlice h1).1 (isPlain_mapSlice h2).1 _
  · exact deepEqual_eq_symm_of_plain h2 h1

theorem trueOrElse_symm {m1 m2 : List MapItem} (h1 : isPlainMapItems m1 false = true)
    (h2 : isPlainMapItems m2 false = true) (key1 key2 : String) :
    trueOrElse (equalValueForKey key1 m2 m1) (equalValueForKey key2 m2 m1) =
      trueOrElse (equalValueForKey key1 m1 m2) (equalValueForKey key2 m1 m2) := by
  rw [equalValueForKey_symm_of_plain h1 h2, equalValueForKey_symm_of_plain h1 h2]

/-- The `switch` of `sequenceItemMatch` is symmetric on two plain mappings, for every field
name but `sources`, and for `sources` when each mapping has at most one of its four keys. -/
theorem matchMapSlices_symm {m1 m2 : List MapItem}
    (h1 : (Value.mapSlice m1).isPlain false = true)
    (h2 : (Value.mapSlice m2).isPlain false = true) (sequenceKey : String)
    (hsources : sequenceKey = "sources" →
      atMostOneSource (.mapSlice m1) = true ∧ atMostOneSource (.mapSlice m2) = true) :
    matchMapSlices sequenceKey m2 m1 = matchMapSlices sequenceKey m1 m2 := by
  have p1 := (isPlain_mapSlice h1).1
  have p2 := (isPlain_mapSlice h2).1
  by_cases hs : sequenceKey ∈ specialCaseFields
  · simp only [specialCaseFields, List.mem_cons, List.mem_singleton, List.not_mem_nil,
      or_false] at hs
    rcases hs with rfl | rfl | rfl | rfl | rfl | rfl | rfl | rfl | rfl | rfl | rfl | rfl | rfl
    · exact trueOrElse_symm p1 p2 "hostname" "ip"
    · exact trueOrElse_symm p1 p2 "hostname" "ip"
    · show nestedMatch "configMapRef" "name" m2 m1
          (nestedMatch "secretRef" "name" m2 m1 (some false) (some false))
          (nestedMatch "secretRef" "name" m2 m1 (some false) (some false)) =
        nestedMatch "configMapRef" "name" m1 m2
          (nestedMatch "secretRef" "name" m1 m2 (some false) (some false))
          (nestedMatch "secretRef" "name" m1 m2 (some false) (some false))
      rw [nestedMatch_symm p1 p2 "secretRef" "name" (some false),
        nestedMatch_symm p1 p2 "configMapRef" "name"]
    · exact trueOrElse_symm p1 p2 "ports" "from"
    · exact trueOrElse_symm p1 p2 "key" "path"
    · exact trueOrElse_symm p1 p2 "matchExpressions" "matchFields"
    · exact trueOrElse_symm p1 p2 "uid" "name"
    · exact trueOrElse_symm p1 p2 "preference" "podAffinityTerm"
    · exact trueOrElse_symm p1 p2 "containerPort" "port"
    · show trueOrElse (equalValueForKey "resources" m2 m1)
          (trueOrElse (equalValueForKey "host" m2 m1) (matchByTable "rules" m2 m1)) =
        trueOrElse (equalValueForKey "resources" m1 m2)
          (trueOrElse (equalValueForKey "host" m1 m2) (matchByTable "rules" m1 m2))
      rw [equalValueForKey_symm_of_plain p1 p2, equalValueForKey_symm_of_plain p1 p2,
        matchByTable_symm h1 h2]
    · exact matchMapSlices_sources_symm p1 p2 (hsources rfl).1 (hsources rfl).2
    · exact trueOrElse_symm p1 p2 "secretName" "hosts"
    · exact nestedMatch_symm p1 p2 "metadata" "name" (some false)
  · rw [matchMapSlices_default hs, matchMapSlices_default hs]
    exact matchByTable_symm h1 h2 sequenceKey

/-- C25 (amended): `sequenceItemMatch(f, a, b) = sequenceItemMatch(f, b, a)` for every field
name `f` other than `sources` and every two items whose values are plain without sequences
(the entries of every mapping, standalone comments apart, have non-nil scalar keys, pairwise
distinct), and for `sources` when moreover neither item has two of the keys `configMap`,
`downwardAPI`, `secret` and `serviceAccountToken`.  For a field of the `identifyingKey` table
it is enough that the values under the identifying sub-key are plain. -/
theorem sequenceItemMatch_symm_of_plain :
    (∀ (sequenceKey : String) (item1 item2 : SequenceItem),
      item1.value.isPlain false = true → item2.value.isPlain false = true →
      (sequenceKey = "sources" →
        atMostOneSource item1.value = true ∧ atMostOneSource item2.value = true) →
      sequenceItemMatch sequenceKey item1 item2 = sequenceItemMatch sequenceKey item2 item1) ∧
    (∀ (sequenceKey idKey : String) (map1 map2 : List MapItem) (c1 c2 : String),
      identifyingKey sequenceKey = some idKey →
      (∀ x ∈ map1, x.key = .str idKey → x.value.isPlain false = true) →
      (∀ x ∈ map2, x.key = .str idKey → x.value.isPlain false = true) →
      sequenceItemMatch sequenceKey (.mk (.mapSlice map1) c1) (.mk (.mapSlice map2) c2) =
        sequenceItemMatch sequenceKey (.mk (.mapSlice map2) c2) (.mk (.mapSlice map1) c1)) := by
  constructor
  · intro sequenceKey item1 item2 h1 h2 hsources
    obtain ⟨v1, c1⟩ := item1
    obtain ⟨v2, c2⟩ := item2
    cases v1 <;> cases v2 <;>
      first
      | exact (matchMapSlices_symm h1 h2 sequenceKey hsources).symm
      | simp [sequenceItemMatch, SequenceItem.value, goEq, eq_comm]
  · intro sequenceKey idKey map1 map2 c1 c2 hid h1 h2
    have hform : ∀ (n1 n2 : List MapItem) (d1 d2 : String),
        sequenceItemMatch sequenceKey (.mk (.mapSlice n1) d1) (.mk (.mapSlice n2) d2) =
          equalValueForKey idKey n1 n2 := by
      intro n1 n2 d1 d2
      rw [← matchMapSlices_of_identifyingKey hid]
      rfl
    rw [hform, hform]
    exact equalValueForKey_symm idKey map1 map2 h1 h2

/-- Two `envFrom` items that name the same secret match from either side, and so do two
`containers` items of the same name, whatever their ports. -/
theorem sequenceItemMatch_symm_of_plain_witness :
    sequenceItemMatch "envFrom"
        (.mk (.mapSlice [.mk (.str "secretRef") (.mapSlice [.mk (.str "name") (.str "s") ""])
          ""]) "")
        (.mk (.mapSlice [.mk (.str "optional") (.bool true) "",
          .mk (.str "secretRef") (.mapSlice [.mk (.str "name") (.str "s") ""]) ""]) "c") =
      sequenceItemMatch "envFrom"
        (.mk (.mapSlice [.mk (.str "optional") (.bool true) "",
          .mk (.str "secretRef") (.mapSlice [.mk (.str "name") (.str "s") ""]) ""]) "c")
        (.mk (.mapSlice [.mk (.str "secretRef") (.mapSlice [.mk (.str "name") (.str "s") ""])
          ""]) "") ∧
    sequenceItemMatch "containers"
        (.mk (.mapSlice [.mk (.str "name") (.str "web") "",
          .mk (.str "ports") (.seq [.mk (.mapSlice [.mk (.str "containerPort") (.int 80) ""])
            ""]) ""]) "")
        (.mk (.mapSlice [.mk (.str "name") (.str "web") "",
          .mk (.str "ports") (.seq [.mk (.mapSlice [.mk (.str "containerPort") (.int 80) ""]) "",
            .mk (.mapSlice [.mk (.str "containerPort") (.int 443) ""]) ""]) ""]) "") =
      sequenceItemMatch "containers"
        (.mk (.mapSlice [.mk (.str "name") (.str "web") "",
          .mk (.str "ports") (.seq [.mk (.mapSlice [.mk (.str "containerPort") (.int 80) ""]) "",
            .mk (.mapSlice [.mk (.str "containerPort") (.int 443) ""]) ""]) ""]) "")
        (.mk (.mapSlice [.mk (.str "name") (.str "web") "",
          .mk (.str "ports") (.seq [.mk (.mapSlice [.mk (.str "containerPort") (.int 80) ""])
            ""]) ""]) "") :=
  ⟨sequenceItemMatch_symm_of_plain.1 "envFrom" _ _ (by decide) (by decide) (by decide),
    sequenceItemMatch_symm_of_plain.2 "containers" "name" _ _ _ _ (by decide) (by decide)
      (by decide)⟩

/-- C25 fails at `sources`: an item with a `configMap` and a `secret` does not match an item
with the same `secret` only, for the `configMap` decides; from the other side the `secret` is
reached, and the items match. -/
theorem sequenceItemMatch_sources_not_symm :
    sequenceItemMatch "sources"
      (.mk (.mapSlice [.mk (.str "configMap") (.mapSlice [.mk (.str "name") (.str "c") ""]) "",
        .mk (.str "secret") (.mapSlice [.mk (.str "name") (.str "s") ""]) ""]) "")
      (.mk (.mapSlice [.mk (.str "secret") (.mapSlice [.mk (.str "name") (.str "s") ""]) ""])
        "") = some false ∧
    sequenceItemMatch "sources"
      (.mk (.mapSlice [.mk (.str "secret") (.mapSlice [.mk (.str "name") (.str "s") ""]) ""])
        "")
      (.mk (.mapSlice [.mk (.str "configMap") (.mapSlice [.mk (.str "name") (.str "c") ""]) "",
        .mk (.str "secret") (.mapSlice [.mk (.str "name") (.str "s") ""]) ""]) "") =
      some true := by
  decide

/-! ## The merge of a document with an equal, serialized one -/

theorem mem_isSerializedMapItems {m : List MapItem} (h : isSerializedMapItems m = true)
    {e : MapItem} (he : e ∈ m) :
    e.isComment = false ∧ e.key.isComparable = true ∧ e.key ≠ .null ∧
      e.value.isSerialized = true := by
  induction m with
  | nil => cases he
  | cons a rest ih =>
    obtain ⟨k, v, c⟩ := a
    simp only [isSerializedMapItems, Bool.and_eq_true, Bool.not_eq_true'] at h
    rcases List.mem_cons.1 he with rfl | he2
    · refine ⟨h.1.1.1.1, h.1.1.1.2, ?_, h.1.2⟩
      intro hk
      rw [MapItem.key_mk] at hk
      have := h.1.1.2
      rw [hk] at this
      simp [Value.isNil] at this
    · exact ih h.2 he2

theorem mem_isSerializedSeqItems {l : List SequenceItem} (h : isSerializedSeqItems l = true)
    {x : SequenceItem} (hx : x ∈ l) : x.value.isSerialized = true := by
  induction l with
  | nil => cases hx
  | cons a rest ih =>
    obtain ⟨v, c⟩ := a
    simp only [isSerializedSeqItems, Bool.and_eq_true] at h
    rcases List.mem_cons.1 hx with rfl | hx2
    · exact h.1
    · exact ih h.2 hx2

theorem isSerialized_mapSlice {m : List MapItem} (h : (Value.mapSlice m).isSerialized = true) :
    isSerializedMapItems m = true ∧ (m.map MapItem.key).Nodup := by
  simpa [Value.isSerialized] using h

theorem isSerialized_seq {l : List SequenceItem} (h : (Value.seq l).isSerialized = true) :
    isSerializedSeqItems l = true := by
  simpa [Value.isSerialized] using h

theorem mem_alignedMapItems {om fm : List MapItem} (h : alignedMapItems om fm = true)
    {o : MapItem} (ho : o ∈ om) {i : Nat} {f : MapItem}
    (hf : lookupBy (fun x => decide (x.key = o.key)) fm = some (i, f)) :
    o.value.alignedWith o.key f.value = true := by
  induction om with
  | nil => cases ho
  | cons a rest ih =>
    obtain ⟨k, v, c⟩ := a
    simp only [alignedMapItems, Bool.and_eq_true] at h
    rcases List.mem_cons.1 ho with rfl | ho2
    · rw [MapItem.key_mk] at hf
      have := h.1
      rw [hf] at this
      exact this
    · exact ih h.2 ho2

theorem getElem?_alignedSeqItems {os fs : List SequenceItem} (h : alignedSeqItems os fs = true)
    {j : Nat} {o f : SequenceItem} (ho : os[j]? = some o) (hf : fs[j]? = some f) :
    o.value.alignedWith .null f.value = true := by
  induction os generalizing fs j with
  | nil => simp at ho
  | cons a rest ih =>
    obtain ⟨v, c⟩ := a
    cases fs with
    | nil => simp at hf
    | cons b frest =>
      obtain ⟨fv, fc⟩ := b
      simp only [alignedSeqItems, Bool.and_eq_true] at h
      cases j with
      | zero =>
        simp only [List.getElem?_cons_zero, Option.some.injEq] at ho hf
        subst ho hf
        exact h.1
      | succ j2 =>
        simp only [List.getElem?_cons_succ] at ho hf
        exact ih h.2 ho hf

/-- The merge of a mapping with an equal mapping without comments gives the mapping back, when
the merge of every value with the value of its key does. -/
theorem mergeMapSlices_eq_orig {om fm : List MapItem}
    (hok : ∀ o ∈ om, o.isComment = false → o.key.isComparable = true ∧ o.key ≠ .null)
    (hnodupO : ((om.filter fun e => !e.isComment).map MapItem.key).Nodup)
    (hfk : ∀ f ∈ fm, f.key.isComparable = true ∧ f.key ≠ .null ∧ f.isComment = false)
    (hnodupF : (fm.map MapItem.key).Nodup)
    (heq : deepEqual (.mapSlice om) (.mapSlice fm) = some true)
    (hval : ∀ o ∈ om, o.isComment = false → ∀ f ∈ fm, f.key = o.key →
      deepEqual o.value f.value = some true →
      mergedMapItemValue o.key o.value f.value = some o.value ∧
        deepEqual o.value o.value = some true) :
    mergeMapSlices om fm = some om ∧
      deepEqual (.mapSlice om) (.mapSlice om) = some true := by
  rw [deepEqual_mapSlice] at heq
  split at heq
  · cases heq
  · next hnum =>
    simp only [ne_eq, not_not] at hnum
    obtain ⟨h1, h2⟩ := entries_of_mapSliceLoop_true hok hnodupO hnum heq
    have hkeys : ∀ f ∈ fm, f.key.isComparable = true ∧ f.key ≠ .null :=
      fun f hf => ⟨(hfk f hf).1, (hfk f hf).2.1⟩
    have hkept : om.filter (fun e => hasKey e.key fm || e.isComment) = om := by
      apply List.filter_eq_self.2
      intro e he
      cases hcom : e.isComment
      · obtain ⟨f, hf, -, hfk2, -⟩ := h1 e he hcom
        simp [hasKey_eq_true.2 ⟨f, hf, hfk2⟩]
      · simp
    have hloop : ∀ rest : List MapItem, (∀ f ∈ rest, f ∈ fm) →
        mergeMapSlicesLoop om rest = some om := by
      intro rest
      induction rest with
      | nil => intro _; simp [mergeMapSlicesLoop]
      | cons f rest ih =>
        intro hrest
        have hf := hrest f (List.mem_cons_self _ _)
        obtain ⟨hc, hn, hfc⟩ := hfk f hf
        obtain ⟨o, ho, -, hokey⟩ := h2 f hf hfc
        obtain ⟨i, y, hl⟩ := lookupBy_isSome_of_mem (p := fun x => decide (x.key = f.key)) ho
          (by simp [hokey])
        obtain ⟨hy1, hy2, -⟩ := lookupBy_eq_some hl
        have hyk : y.key = f.key := by simpa using hy2
        have hym := List.getElem?_mem hy1
        have hyc : y.isComment = false :=
          MapItem.isComment_eq_false (by rw [hyk]; exact hn)
            (by rw [hyk]; exact MapItem.key_of_isComment_eq_false hfc)
        obtain ⟨f2, hf2, -, hf2k, hf2v⟩ := h1 y hym hyc
        have hff : f2 = f := eq_of_nodup_map_key hnodupF hf2 hf (hf2k.trans hyk)
        subst hff
        have hv := (hval y hym hyc f2 hf hyk.symm hf2v).1
        obtain ⟨fk, fv, fc⟩ := f2
        rw [MapItem.key_mk] at hc hn hl hyk
        rw [MapItem.value_mk] at hv
        rw [mergeMapSlicesLoop, findItemInMapSlice_comparable hc hn, hl]
        simp only [hv]
        rw [setMapItemValue_self hy1]
        exact ih fun g hg => hrest g (List.mem_cons_of_mem _ hg)
    constructor
    · rw [mergeMapSlices, retainMapItems_eq_filter hkeys, hkept]
      exact hloop fm fun _ h => h
    · rw [deepEqual_mapSlice]
      simp only [ne_eq, not_true_eq_false, if_false]
      apply mapSliceLoop_true_of_forall
      intro e he hec
      refine ⟨(hok e he hec).1, (hok e he hec).2, ⟨e, he, rfl⟩, ?_⟩
      intro x hx hxk
      have hxc : x.isComment = false :=
        MapItem.isComment_eq_false (by rw [hxk]; exact (hok e he hec).2)
          (by rw [hxk]; exact MapItem.key_of_isComment_eq_false hec)
      have hxe : x = e := eq_of_nodup_filter_key hnodupO hx he hxc hec hxk
      subst hxe
      obtain ⟨f, hf, -, hfk2, hfv⟩ := h1 x hx hxc
      exact (hval x hx hxc f hf hfk2 hfv).2

theorem mergeSequencesLoop_eq_orig {sequenceKey : String} {os : List SequenceItem}
    (rest : List SequenceItem) (j : Nat)
    (hfound : foundAtOwnIndex sequenceKey os j rest = true)
    (hval : ∀ (i : Nat) (o f : SequenceItem), os[j + i]? = some o → rest[i]? = some f →
      mergedSequenceItemValue o.value f.value = some o.value) :
    mergeSequencesLoop sequenceKey os rest = some os := by
  induction rest generalizing j with
  | nil => simp [mergeSequencesLoop]
  | cons f rest ih =>
    simp only [foundAtOwnIndex, Bool.and_eq_true] at hfound
    obtain ⟨hf1, hf2⟩ := hfound
    split at hf1
    · next i m hfind =>
      have hij : i = j := by simpa using hf1
      subst hij
      have hm := findItemInSequence_getElem hfind
      have hv := hval 0 m f (by simpa using hm) (by simp)
      obtain ⟨fv, fc⟩ := f
      rw [SequenceItem.value_mk_seq] at hv
      rw [mergeSequencesLoop, hfind]
      simp only [hv]
      rw [setSequenceItemValue_self hm]
      apply ih (i + 1) hf2
      intro i2 o f2 ho hf3
      exact hval (i2 + 1) o f2 (by rw [← ho]; congr 1; omega) (by simpa using hf3)
    · cases hf1

/-- The merge of a sequence without standalone comments with a sequence of aligned identities
gives the sequence back, when the merge of every item with the item of its index does. -/
theorem mergeSequences_eq_orig {sequenceKey : String} {os fs : List SequenceItem}
    (hal : identitiesAligned sequenceKey os fs = true)
    (hc : ∀ x ∈ os, x.isComment = false) (hlen : os.length = fs.length)
    (hval : ∀ (j : Nat) (o f : SequenceItem), os[j]? = some o → fs[j]? = some f →
      mergedSequenceItemValue o.value f.value = some o.value ∧
        deepEqual o.value o.value = some true) :
    mergeSequences sequenceKey os fs = some os ∧
      deepEqual (.seq os) (.seq os) = some true := by
  simp only [identitiesAligned, Bool.and_eq_true, List.all_eq_true] at hal
  obtain ⟨hall, hown⟩ := hal
  have hretain : ∀ rest : List SequenceItem, (∀ o ∈ rest, o ∈ os) →
      retainSequenceItems sequenceKey fs rest = some rest := by
    intro rest
    induction rest with
    | nil => intro _; rfl
    | cons o rest ih =>
      intro hrest
      have := hall o (hrest o (List.mem_cons_self _ _))
      split at this
      · next found hfind =>
        simp [retainSequenceItems, hfind, ih fun g hg => hrest g (List.mem_cons_of_mem _ hg)]
      · cases this
  constructor
  · rw [mergeSequences, hretain os fun _ h => h]
    apply mergeSequencesLoop_eq_orig fs 0 hown
    intro i o f ho hf
    exact (hval i o f (by simpa using ho) hf).1
  · rw [deepEqual_seq]
    apply sequenceLoop_of_pairs hc rfl
    · omega
    · intro j x y _ hx hy
      rw [hx] at hy
      cases hy
      have hj : j < fs.length := by
        rw [← hlen]
        exact (List.getElem?_eq_some.1 hx).1
      exact (hval j x _ hx (List.getElem?_eq_getElem hj)).2

theorem merged_eq_orig_of_not_container {o f : Value} (key : Value)
    (ho : o.isContainer = false) (h : deepEqual o f = some true) :
    mergedMapItemValue key o f = some o ∧
      ((∀ l, o ≠ .seq l) → mergedSequenceItemValue o f = some o) ∧
      deepEqual o o = some true := by
  obtain ⟨rfl, -⟩ := deepEqual_symm_of_not_container ho h
  refine ⟨mergedMapItemValue_of_not_container key ho _, fun _ => ?_, h⟩
  apply mergedSequenceItemValue_of_not_mapSlice
  intro m e
  rw [e] at ho
  cases ho

/-- A plain value of `orig` that `deepEqual` finds equal to the serialized value of `fixed`
it is aligned with comes back from the merge of the two as it is. -/
theorem merged_eq_orig (n : Nat) :
    ∀ o f key : Value, o.depth ≤ n → o.isPlain true = true → f.isSerialized = true →
      o.alignedWith key f = true → deepEqual o f = some true →
      mergedMapItemValue key o f = some o ∧
        ((∀ l, o ≠ .seq l) → mergedSequenceItemValue o f = some o) ∧
        deepEqual o o = some true := by
  induction n with
  | zero =>
    intro o f key hd ho hf hal h
    cases o with
    | mapSlice m => simp [Value.depth] at hd
    | seq l => simp [Value.depth] at hd
    | _ => exact merged_eq_orig_of_not_container key (by rfl) h
  | succ n ih =>
    intro o f key hd ho hf hal h
    cases o with
    | mapSlice om =>
      obtain ⟨fm, rfl⟩ := deepEqual_mapSlice_left h rfl
      obtain ⟨ho1, ho2⟩ := isPlain_mapSlice ho
      obtain ⟨hf1, hf2⟩ := isSerialized_mapSlice hf
      simp only [Value.depth, Nat.add_le_add_iff_right] at hd
      have hal2 : alignedMapItems om fm = true := by
        simpa [Value.alignedWith] using hal
      have core := mergeMapSlices_eq_orig
        (fun o ho hc => ⟨(mem_isPlainMapItems ho1 ho hc).1, (mem_isPlainMapItems ho1 ho hc).2.1⟩)
        ho2
        (fun f hf => ⟨(mem_isSerializedMapItems hf1 hf).2.1,
          (mem_isSerializedMapItems hf1 hf).2.2.1, (mem_isSerializedMapItems hf1 hf).1⟩)
        hf2 h
        (by
          intro o2 ho2m hc f2 hf2m hk hd2
          obtain ⟨i, y, hl⟩ := lookupBy_isSome_of_mem
            (p := fun x => decide (x.key = o2.key)) hf2m (by simp [hk])
          obtain ⟨hy1, hy2, -⟩ := lookupBy_eq_some hl
          have hyf : y = f2 := eq_of_nodup_map_key hf2 (List.getElem?_mem hy1) hf2m
            ((by simpa using hy2 : y.key = o2.key).trans hk.symm)
          subst hyf
          have hdep := (depth_key_le ho2m).2
          have := ih o2.value y.value o2.key (by omega) (mem_isPlainMapItems ho1 ho2m hc).2.2
            (mem_isSerializedMapItems hf1 hf2m).2.2.2 (mem_alignedMapItems hal2 ho2m hl) hd2
          exact ⟨this.1, this.2.2⟩)
      refine ⟨?_, fun _ => ?_, core.2⟩
      · rw [mergedMapItemValue_eq]
        simp only [core.1, Option.map_some']
      · rw [mergedSequenceItemValue_eq]
        simp only [updateFromFixed, core.1, Option.map_some']
    | seq os =>
      obtain ⟨fs, rfl⟩ := deepEqual_seq_left h
      obtain ⟨-, ho1⟩ := isPlain_seq ho
      have hf1 := isSerialized_seq hf
      simp only [Value.depth, Nat.add_le_add_iff_right] at hd
      simp only [Value.alignedWith, Bool.and_eq_true] at hal
      cases key <;> simp only [Bool.false_eq_true, false_and] at hal
      case str sequenceKey =>
        have hc : ∀ x ∈ os, x.isComment = false := fun x hx => (mem_isPlainSeqItems ho1 hx).1
        rw [deepEqual_seq] at h
        obtain ⟨hlen, hpairs⟩ := sequenceLoop_true hc _ _ h
        have hlen2 : os.length = fs.length := by
          by_cases h0 : 0 < os.length ∨ 0 < fs.length
          · exact hlen h0
          · omega
        have core := mergeSequences_eq_orig hal.1 hc hlen2
          (by
            intro j o2 f2 ho2 hf2
            have ho2m := List.getElem?_mem ho2
            have hd2 := hpairs j o2 f2 (Nat.zero_le _) ho2 hf2
            have hal2 := getElem?_alignedSeqItems hal.2 ho2 hf2
            have hdep := depth_value_le ho2m
            have := ih o2.value f2.value .null (by omega) (mem_isPlainSeqItems ho1 ho2m).2
              (mem_isSerializedSeqItems hf1 (List.getElem?_mem hf2)) hal2 hd2
            refine ⟨this.2.1 ?_, this.2.2⟩
            intro l hl
            rw [hl] at hd2 hal2
            obtain ⟨l2, hl2⟩ := deepEqual_seq_left hd2
            rw [hl2] at hal2
            simp [Value.alignedWith] at hal2)
        refine ⟨?_, fun hne => absurd rfl (hne os), core.2⟩
        rw [mergedMapItemValue_eq]
        simp only [core.1, Option.map_some']
    | _ => exact merged_eq_orig_of_not_container key (by rfl) h

/-- C8 (amended): let `deepEqual(orig, fixed)` hold, where in `orig` the entries of every
mapping, standalone comments apart, have non-nil scalar keys, pairwise distinct, and no item of
a sequence is a standalone comment; `fixed` holds no standalone comment and the keys of its
mappings are non-nil scalars, pairwise distinct; and every sequence of `orig` is the value of a
string key and has its identities aligned with the sequence of `fixed` in its place (every item
of either is found in the other by the identity rule, an item of `fixed` at its own index).
Then `mergeMapSlices(orig, fixed)` returns `orig` itself, values under it included, and
`deepEqual` of the result and `orig` holds. -/
theorem mergeMapSlices_round_trip (origSlice fixedSlice : List MapItem)
    (horig : (Value.mapSlice origSlice).isPlain true = true)
    (hfixed : (Value.mapSlice fixedSlice).isSerialized = true)
    (halign : (Value.mapSlice origSlice).alignedWith .null (.mapSlice fixedSlice) = true)
    (heq : deepEqual (.mapSlice origSlice) (.mapSlice fixedSlice) = some true) :
    ∃ r, mergeMapSlices origSlice fixedSlice = some r ∧ r = origSlice ∧
      deepEqual (.mapSlice r) (.mapSlice origSlice) = some true := by
  obtain ⟨h1, -, h3⟩ := merged_eq_orig _ (.mapSlice origSlice) (.mapSlice fixedSlice) .null
    (Nat.le_refl _) horig hfixed halign heq
  rw [mergedMapItemValue_eq] at h1
  simp only at h1
  refine ⟨origSlice, ?_, rfl, h3⟩
  cases hm : mergeMapSlices origSlice fixedSlice with
  | none => simp [hm] at h1
  | some r =>
    rw [hm] at h1
    simpa using h1

/-- A pod with comments and two containers, the first with two ports, against the same pod
without comments and with the keys in another order: the merge gives the original back. -/
theorem mergeMapSlices_round_trip_witness :
    ∃ r,
      mergeMapSlices
        [.mk .null .null "a pod", .mk (.str "kind") (.str "Pod") "kind",
          .mk (.str "spec") (.mapSlice [.mk (.str "containers") (.seq [
            .mk (.mapSlice [.mk (.str "name") (.str "web") "main",
              .mk (.str "image") (.str "nginx") "",
              .mk (.str "ports") (.seq [
                .mk (.mapSlice [.mk (.str "containerPort") (.int 80) ""]) "http",
                .mk (.mapSlice [.mk (.str "containerPort") (.int 443) "",
                  .mk (.str "name") (.str "tls") ""]) ""]) "",
              .mk (.str "securityContext") (.mapSlice [
                .mk (.str "runAsNonRoot") (.bool true) ""]) ""]) "",
            .mk (.mapSlice [.mk (.str "name") (.str "sidecar") "",
              .mk (.str "image") (.str "envoy") ""]) "second"]) ""]) ""]
        [.mk (.str "spec") (.mapSlice [.mk (.str "containers") (.seq [
            .mk (.mapSlice [.mk (.str "image") (.str "nginx") "",
              .mk (.str "name") (.str "web") "",
              .mk (.str "securityContext") (.mapSlice [
                .mk (.str "runAsNonRoot") (.bool true) ""]) "",
              .mk (.str "ports") (.seq [
                .mk (.mapSlice [.mk (.str "containerPort") (.int 80) ""]) "",
                .mk (.mapSlice [.mk (.str "name") (.str "tls") "",
                  .mk (.str "containerPort") (.int 443) ""]) ""]) ""]) "",
            .mk (.mapSlice [.mk (.str "image") (.str "envoy") "",
              .mk (.str "name") (.str "sidecar") ""]) ""]) ""]) "",
          .mk (.str "kind") (.str "Pod") ""] = some r ∧
      r = [.mk .null .null "a pod", .mk (.str "kind") (.str "Pod") "kind",
          .mk (.str "spec") (.mapSlice [.mk (.str "containers") (.seq [
            .mk (.mapSlice [.mk (.str "name") (.str "web") "main",
              .mk (.str "image") (.str "nginx") "",
              .mk (.str "ports") (.seq [
                .mk (.mapSlice [.mk (.str "containerPort") (.int 80) ""]) "http",
                .mk (.mapSlice [.mk (.str "containerPort") (.int 443) "",
                  .mk (.str "name") (.str "tls") ""]) ""]) "",
              .mk (.str "securityContext") (.mapSlice [
                .mk (.str "runAsNonRoot") (.bool true) ""]) ""]) "",
            .mk (.mapSlice [.mk (.str "name") (.str "sidecar") "",
              .mk (.str "image") (.str "envoy") ""]) "second"]) ""]) ""] ∧
      deepEqual (.mapSlice r)
        (.mapSlice [.mk .null .null "a pod", .mk (.str "kind") (.str "Pod") "kind",
          .mk (.str "spec") (.mapSlice [.mk (.str "containers") (.seq [
            .mk (.mapSlice [.mk (.str "name") (.str "web") "main",
              .mk (.str "image") (.str "nginx") "",
              .mk (.str "ports") (.seq [
                .mk (.mapSlice [.mk (.str "containerPort") (.int 80) ""]) "http",
                .mk (.mapSlice [.mk (.str "containerPort") (.int 443) "",
                  .mk (.str "name") (.str "tls") ""]) ""]) "",
              .mk (.str "securityContext") (.mapSlice [
                .mk (.str "runAsNonRoot") (.bool true) ""]) ""]) "",
            .mk (.mapSlice [.mk (.str "name") (.str "sidecar") "",
              .mk (.str "image") (.str "envoy") ""]) "second"]) ""]) ""]) = some true :=
  mergeMapSlices_round_trip _ _ (by decide) (by decide) (by decide) (by decide)

/-! ## C22: a comparison of `resources` that does not return -/

/-- C22 fails on two rules with the same `host` whose `resources` are `[pods]` and
`[pods, services]`: the comparison of `host` holds, and the match does not return, for the
comparison of `resources`, made first, reads `seq1[1]` in `deepEqual`. -/
theorem sequenceItemMatch_rules_out_of_range :
    equalValueForKey "host"
      [.mk (.str "host") (.str "example.com") "",
        .mk (.str "resources") (.seq [.mk (.str "pods") ""]) ""]
      [.mk (.str "host") (.str "example.com") "",
        .mk (.str "resources") (.seq [.mk (.str "pods") "", .mk (.str "services") ""]) ""] =
      some true ∧
    deepEqual (.seq [.mk (.str "pods") ""])
      (.seq [.mk (.str "pods") "", .mk (.str "services") ""]) = none ∧
    sequenceItemMatch "rules"
      (.mk (.mapSlice [.mk (.str "host") (.str "example.com") "",
        .mk (.str "resources") (.seq [.mk (.str "pods") ""]) ""]) "")
      (.mk (.mapSlice [.mk (.str "host") (.str "example.com") "",
        .mk (.str "resources") (.seq [.mk (.str "pods") "", .mk (.str "services") ""]) ""]) "") =
      none := by
  decide

end Kubeaudit
